import Mathlib

/-
fbx_converter: vertex deduplication and bone-slot packing.

A shallow embedding of src/modeldata/Mesh.h (the dedup-on-insert vertex buffer)
and of src/readers/util.h (BlendWeight, BlendBones, BlendBonesCollection),
followed by the properties proved about them.

Conventions of the embedding:

* A C++ float is represented by its raw 32-bit pattern (FloatBits), which is
  what calcHash and compare read through a pointer cast.  The IEEE-754
  comparison of two floats is decided on the bit patterns.
* The hash is an unsigned int sum and wraps modulo 2^32.  Container sizes and
  indices are natural numbers: the vectors are taken to hold fewer than 2^32
  elements, the range in which the unsigned int casts of size() are the
  identity.
* The int bone identifiers and slot indices are integers; -1 is the empty slot
  and the not-found / infeasible / failed result.
* The int addition `mp+1` of calcMeshPartCount, which overflows when mp is
  INT_MAX, is taken modulo 2^32 in two's complement (wrapInt), and so are the
  conversions of its result to unsigned int and back to int.
* A double or float that is a number is represented by the rational it
  denotes; the conversion of a double to float is floatCast (round to nearest,
  ties to even).  The float additions and divisions of the weight
  normalisation are taken exact.
-/

namespace fbxconv

/-- Raw bit pattern of a 32-bit IEEE-754 float: sign bit 31, exponent bits
30..23, mantissa bits 22..0. -/
abbrev FloatBits := Fin 4294967296

namespace FloatBits

/-- NaN: exponent all ones and mantissa non-zero. -/
def isNaN (x : FloatBits) : Bool :=
  (x.val / 8388608) % 256 == 255 && x.val % 8388608 != 0

/-- Positive or negative zero: every bit except the sign bit is clear. -/
def isZero (x : FloatBits) : Bool :=
  x.val % 2147483648 == 0

/-- IEEE-754 equality of two floats: false as soon as one is NaN, otherwise
the values agree, which for this encoding means equal patterns or two zeros. -/
def ieeeEq (x y : FloatBits) : Bool :=
  !x.isNaN && !y.isNaN && (x == y || (x.isZero && y.isZero))

/-- The equality rule of the dedup on one component: bit-identical or
IEEE-equal. -/
def same (x y : FloatBits) : Prop := x = y ∨ ieeeEq x y = true

instance (x y : FloatBits) : Decidable (same x y) := by unfold same; infer_instance

end FloatBits

namespace modeldata

/-- The fields of struct Mesh that add reads and writes. -/
structure Mesh where
  /-- The size (in number of floats) of each vertex. -/
  _vertexSize : Nat
  /-- The vertices that this mesh contains. -/
  _vertices : List FloatBits
  /-- Hash lookup table for faster duplicate vertex checking. -/
  _hashes : List Nat
  deriving DecidableEq

namespace Mesh

/-- Method `Mesh::calcHash`: `result += (bits(vertex[i]) & 0xffffff00) >> 8` for
`i < size`, in `unsigned int` arithmetic. -/
def calcHash (vertex : List FloatBits) (size : Nat) : Nat :=
  (List.range size).foldl
    (fun result i => (result + (((vertex.getD i 0).val &&& 0xffffff00) >>> 8)) % 4294967296) 0

/-- Method `Mesh::compare`: false as soon as a component differs both as a bit
pattern and as a float. -/
def compare (lhs rhs : List FloatBits) (n : Nat) : Bool :=
  (List.range n).all fun i =>
    !((lhs.getD i 0 != rhs.getD i 0) && !(FloatBits.ieeeEq (lhs.getD i 0) (rhs.getD i 0)))

/-- Method `Mesh::vertexCount`. -/
def vertexCount (m : Mesh) : Nat :=
  m._vertices.length / m._vertexSize

/-- The scan of `Mesh::add`: `k` iterations are left and `i` is the loop
counter; the result is the index returned from inside the loop, if any. -/
def findMatch (m : Mesh) (vertex : List FloatBits) (hash : Nat) : Nat → Nat → Option Nat
  | 0, _ => none
  | k + 1, i =>
    if (m._hashes.getD i 0 == hash) &&
        compare (m._vertices.drop (i * m._vertexSize)) vertex m._vertexSize then
      some i
    else
      findMatch m vertex hash k (i + 1)

/-- Method `Mesh::add`: the mesh after the call and the returned index. -/
def add (m : Mesh) (vertex : List FloatBits) : Mesh × Nat :=
  let hash := calcHash vertex m._vertexSize
  let n := m._hashes.length
  match findMatch m vertex hash n 0 with
  | some i => (m, i)
  | none =>
    let hashes := m._hashes ++ [hash]
    ({ m with _hashes := hashes, _vertices := m._vertices ++ vertex.take m._vertexSize },
      hashes.length - 1)

/-- A mesh with no vertices and the given vertex size. -/
def empty (n : Nat) : Mesh :=
  { _vertexSize := n, _vertices := [], _hashes := [] }

/-- The mesh after feeding a sequence of records to `add`, one by one. -/
def addAll (m : Mesh) (rs : List (List FloatBits)) : Mesh :=
  rs.foldl (fun acc r => (acc.add r).1) m

/-- The test of the scan of `add` at index `j`, for the record `v` of hash `h`. -/
def matchAt (m : Mesh) (v : List FloatBits) (h : Nat) (j : Nat) : Prop :=
  ((m._hashes.getD j 0 == h) &&
    compare (m._vertices.drop (j * m._vertexSize)) v m._vertexSize) = true

/-- The mesh whose buffer holds the records `rs`, each of `n` floats. -/
def rep (n : Nat) (rs : List (List FloatBits)) : Mesh :=
  { _vertexSize := n, _vertices := rs.flatten, _hashes := rs.map fun r => calcHash r n }

/-- The test of the scan of `add`, between a stored record and a new one. -/
def key (n : Nat) (a b : List FloatBits) : Prop :=
  calcHash a n = calcHash b n ∧ compare a b n = true

/-- Records of `n` floats, no two of which pass the test of `add`. -/
def Good (n : Nat) (rs : List (List FloatBits)) : Prop :=
  (∀ r ∈ rs, r.length = n) ∧
    ∀ i j, i < rs.length → j < i → ¬ key n (rs.getD j []) (rs.getD i [])

/-- The equality rule of the dedup on two records: same length and every pair
of corresponding components bit-identical or IEEE-equal. -/
def sameRecord (a b : List FloatBits) : Prop :=
  a.length = b.length ∧ ∀ i, i < a.length → FloatBits.same (a.getD i 0) (b.getD i 0)

instance (a b : List FloatBits) : Decidable (sameRecord a b) := by
  unfold sameRecord; infer_instance

/-- Number of distinct records of a sequence under the equality rule: a record
is counted when no later record equals it. -/
def distinctCount : List (List FloatBits) → Nat
  | [] => 0
  | r :: rs => if rs.any fun s => decide (sameRecord r s) then distinctCount rs
    else distinctCount rs + 1

/-- The hash as the specification words it: the sum modulo `2^32` of the bit
patterns with their low 8 bits masked off. -/
def maskedSum (vertex : List FloatBits) (size : Nat) : Nat :=
  ((List.range size).map fun i => (vertex.getD i 0).val &&& 0xffffff00).sum % 4294967296

/-- The copy constructor `Mesh(const Mesh &copyFrom)`: `_vertexSize` and
`_vertices` are copied; `_hashes` is not mentioned and starts empty. -/
def copy (copyFrom : Mesh) : Mesh :=
  { _vertexSize := copyFrom._vertexSize, _vertices := copyFrom._vertices, _hashes := [] }

end Mesh

end modeldata

namespace readers

/-- Struct `BlendWeight`: index + weight pair for vertex blending. -/
structure BlendWeight where
  weight : FloatBits
  index : Int
  deriving DecidableEq

/-- Struct `BlendBones`: the array `_bones`; `_capacity` is its length. -/
structure BlendBones where
  _bones : List Int
  deriving DecidableEq

namespace BlendBones

/-- The field `_capacity`, the length of the array allocated by the constructor. -/
def _capacity (b : BlendBones) : Nat := b._bones.length

/-- Constructor `BlendBones(capacity)`: every slot is set to -1 by `memset`. -/
def ctor (capacity : Nat) : BlendBones := { _bones := List.replicate capacity (-1) }

/-- Loop of `has` over the slots. -/
def hasLoop (bone : Int) : List Int → Bool
  | [] => false
  | x :: xs => if x == bone then true else hasLoop bone xs

/-- Method `BlendBones::has`. -/
def has (b : BlendBones) (bone : Int) : Bool := hasLoop bone b._bones

/-- Loop of `size`; `i` is the loop counter. -/
def sizeLoop : List Int → Nat → Nat
  | [], i => i
  | x :: xs, i => if x < 0 then i else sizeLoop xs (i + 1)

/-- Method `BlendBones::size`: index of the first negative slot, or the capacity. -/
def size (b : BlendBones) : Nat := sizeLoop b._bones 0

/-- Method `BlendBones::available`. -/
def available (b : BlendBones) : Nat := b._capacity - b.size

/-- Method `BlendBones::cost` before the final test: `result++` for each weight of
each list whose bone is not in the slot set. -/
def costCount (b : BlendBones) (rhs : List (List BlendWeight)) : Int :=
  rhs.foldl (fun result ws =>
    ws.foldl (fun result w => if !b.has w.index then result + 1 else result) result) 0

/-- Method `BlendBones::cost`. -/
def cost (b : BlendBones) (rhs : List (List BlendWeight)) : Int :=
  let result := b.costCount rhs
  if result > (b.available : Int) then -1 else result

/-- Loop of `idx`; `i` is the loop counter. -/
def idxLoop (bone : Int) : List Int → Nat → Int
  | [], _ => -1
  | x :: xs, i => if x == bone then (i : Int) else idxLoop bone xs (i + 1)

/-- Method `BlendBones::idx`. -/
def idx (b : BlendBones) (bone : Int) : Int := idxLoop bone b._bones 0

/-- Loop of `add(const int &v)`; `i` is the loop counter. The result is the
array after the call and the returned slot. -/
def addLoop (v : Int) : List Int → Nat → List Int × Int
  | [], _ => ([], -1)
  | x :: xs, i =>
    if x == v then (x :: xs, (i : Int))
    else if x < 0 then (v :: xs, (i : Int))
    else (x :: (addLoop v xs (i + 1)).1, (addLoop v xs (i + 1)).2)

/-- Method `BlendBones::add(const int &v)`. -/
def add (b : BlendBones) (v : Int) : BlendBones × Int :=
  ({ _bones := (addLoop v b._bones 0).1 }, (addLoop v b._bones 0).2)

/-- Inner loop of `add(const std::vector<std::vector<BlendWeight>*> &)` over
one weight list; `false` when the function has returned false. -/
def addList (b : BlendBones) : List BlendWeight → BlendBones × Bool
  | [] => (b, true)
  | w :: ws => if (b.add w.index).2 < 0 then ((b.add w.index).1, false)
    else addList (b.add w.index).1 ws

/-- Method `BlendBones::add(const std::vector<std::vector<BlendWeight>*> &)`: the slot
set after the call and the returned flag. -/
def addWeights (b : BlendBones) : List (List BlendWeight) → BlendBones × Bool
  | [] => (b, true)
  | ws :: rhs => if (b.addList ws).2 then addWeights (b.addList ws).1 rhs
    else ((b.addList ws).1, false)

/-- Method `BlendBones::operator[]`. -/
def get (b : BlendBones) (idx : Nat) : Int :=
  if idx < b._capacity then b._bones.getD idx (-1) else -1

/-- The bone identifiers of a demand, in the order the loops of `cost` and
`add` visit them. -/
def demandBones (rhs : List (List BlendWeight)) : List Int :=
  rhs.flatten.map fun w => w.index

/-- The elements of a list at their first occurrence, in order. -/
def firstOcc : List Int → List Int
  | [] => []
  | x :: xs => x :: (firstOcc xs).filter fun y => y != x

/-- The identifiers of a demand that the slot set does not hold, each once,
in the order of their first occurrence. -/
def missing (b : BlendBones) (rhs : List (List BlendWeight)) : List Int :=
  firstOcc ((demandBones rhs).filter fun x => !b.has x)

/-- The calls `add(int)` over a list of identifiers, stopping at the first failure. -/
def addFlat (b : BlendBones) : List Int → BlendBones × Bool
  | [] => (b, true)
  | x :: xs => if (b.add x).2 < 0 then ((b.add x).1, false) else addFlat (b.add x).1 xs

/-- Slot sets obtained from the constructor by calls of the two `add`. -/
inductive Reachable : BlendBones → Prop
  | ctor (capacity : Nat) : Reachable (ctor capacity)
  | add (b : BlendBones) (v : Int) : Reachable b → Reachable (b.add v).1
  | addWeights (b : BlendBones) (rhs : List (List BlendWeight)) :
      Reachable b → Reachable (b.addWeights rhs).1

/-- The array is a run of non-negative identifiers `p` followed by a run of
negative (free) slots `q`. -/
def Split (b : BlendBones) (p q : List Int) : Prop :=
  b._bones = p ++ q ∧ (∀ x ∈ p, 0 ≤ x) ∧ (∀ x ∈ q, x < 0)

end BlendBones

/-- Struct `BlendBonesCollection`. -/
structure BlendBonesCollection where
  _bones : List BlendBones
  _bonesCapacity : Nat
  deriving DecidableEq

namespace BlendBonesCollection

/-- Constructor `BlendBonesCollection(bonesCapacity)`. -/
def ctor (bonesCapacity : Nat) : BlendBonesCollection :=
  { _bones := [], _bonesCapacity := bonesCapacity }

/-- Method `BlendBonesCollection::size`. -/
def size (c : BlendBonesCollection) : Nat := c._bones.length

/-- The selection loop of `BlendBonesCollection::add`: `i` is the loop counter,
`cost` and `idx` the two local variables; the result is the final `idx`. -/
def pickLoop (rhs : List (List BlendWeight)) : List BlendBones → Nat → Int → Int → Int
  | [], _, _, idx => idx
  | b :: bs, i, cost, idx =>
    if b.cost rhs ≥ 0 ∧ b.cost rhs < cost then pickLoop rhs bs (i + 1) (b.cost rhs) (i : Int)
    else pickLoop rhs bs (i + 1) cost idx

/-- Method `BlendBonesCollection::add`: the collection after the call and the value
the caller reads back into an `int` (`idx`, or -1). -/
def add (c : BlendBonesCollection) (rhs : List (List BlendWeight)) :
    BlendBonesCollection × Int :=
  let n := c._bones.length
  let idx := pickLoop rhs c._bones 0 (c._bonesCapacity : Int) (-1)
  let bones := if idx < 0 then c._bones ++ [BlendBones.ctor c._bonesCapacity] else c._bones
  let idx := if idx < 0 then (n : Int) else idx
  let r := (bones.getD idx.toNat (BlendBones.ctor 0)).addWeights rhs
  ({ c with _bones := bones.set idx.toNat r.1 }, if r.2 then idx else -1)

end BlendBonesCollection

/-- Collections obtained from the constructor by calls of `add`. -/
inductive BlendBonesCollection.Reachable : BlendBonesCollection → Prop
  | ctor (bonesCapacity : Nat) : Reachable (BlendBonesCollection.ctor bonesCapacity)
  | add (c : BlendBonesCollection) (rhs : List (List BlendWeight)) :
      Reachable c → Reachable (c.add rhs).1

/-- Every slot set of the collection has the collection's capacity and is a
run of non-negative identifiers followed by free slots. -/
def BlendBonesCollection.WF (c : BlendBonesCollection) : Prop :=
  ∀ b ∈ c._bones, b._bones.length = c._bonesCapacity ∧ ∃ p q, BlendBones.Split b p q

/-- What `FbxMeshInfo` reads from the source `FbxMesh` of the FBX SDK when it
plans the mesh parts; `materialIndex i poly` stands for the `int`
`GetElementMaterial(i)->GetIndexArray()[poly]`. -/
structure FbxMesh where
  GetPolygonCount : Nat
  GetElementMaterialCount : Nat
  materialIndex : Nat → Nat → Int
  GetPolygonSize : Nat → Nat
  GetPolygonVertex : Nat → Nat → Nat
  GetControlPointsCount : Nat

/-- The warnings `FbxMeshInfo` passes to `log->warning`. -/
inductive Warning where
  | wSourceConvertFbxNoPolyPart (poly : Nat)
  | wSourceConvertFbxZeroWeights
  deriving DecidableEq

/-- The fields of `struct FbxMeshInfo` the part planning reads and writes. The
entry -1 of `_polyPartMap` is the value `fetchUVInfo` reads back through an
`int`; `log` lists the warnings issued so far. -/
structure FbxMeshInfo where
  bonesOverflow : Bool
  _meshPartCount : Int
  _pointBlendWeights : List (List BlendWeight)
  _partBones : List BlendBonesCollection
  _polyPartMap : List Int
  _polyPartBonesMap : List Nat
  log : List Warning

namespace FbxMeshInfo

/-- The inner loop shared by `calcMeshPartCount`, `fetchMeshParts` and
`fetchMeshPartsAndBones`: `for (i = 0; i < GetElementMaterialCount() && mp < 0; i++)
mp = materialIndex(i, poly)`; `k` iterations are left. -/
def materialLoop (mesh : FbxMesh) (poly : Nat) : Nat → Nat → Int → Int
  | 0, _, mp => mp
  | k + 1, i, mp =>
    if mp < 0 then materialLoop mesh poly k (i + 1) (mesh.materialIndex i poly) else mp

/-- The value of `mp` after `mp = -1` and the inner loop. -/
def polyMaterial (mesh : FbxMesh) (poly : Nat) : Int :=
  materialLoop mesh poly mesh.GetElementMaterialCount 0 (-1)

/-- The `int` that holds the value `x` modulo 2^32: what `int` arithmetic
leaves of a result `x` and what the conversion of an `unsigned int` of value
`x` to `int` gives. -/
def wrapInt (x : Int) : Int := (x + 2147483648) % 4294967296 - 2147483648

/-- Method `FbxMeshInfo::calcMeshPartCount`: `mpc = mp+1` is `int` arithmetic;
the result is returned as `unsigned int` and stored in the `int` member
`_meshPartCount`. -/
def calcMeshPartCount (mesh : FbxMesh) : Int :=
  let mpc := (List.range mesh.GetPolygonCount).foldl
    (fun mpc poly =>
      if polyMaterial mesh poly ≥ mpc then wrapInt (polyMaterial mesh poly + 1) else mpc) 0
  wrapInt ((if mpc == 0 then 1 else mpc) % 4294967296)

/-- The state the constructor hands to `fetchMeshParts` or
`fetchMeshPartsAndBones`: the part count, one empty collection of capacity
`maxNodePartBoneCount` per part, `_polyPartMap` set to -1 and
`_polyPartBonesMap` to 0 by `memset`; `pointBlendWeights` is what
`fetchVertexBlendWeights` has stored before (nothing for an unskinned mesh).
The part count is at least 1 unless `mp+1` overflowed in `calcMeshPartCount`;
for a negative count the `std::vector` constructor throws and the planning
loops are not reached: the state below, with no collection, is then not one of
the program. -/
def init (mesh : FbxMesh) (maxNodePartBoneCount : Nat)
    (pointBlendWeights : List (List BlendWeight)) : FbxMeshInfo :=
  { bonesOverflow := false
    _meshPartCount := calcMeshPartCount mesh
    _pointBlendWeights := pointBlendWeights
    _partBones := List.replicate (calcMeshPartCount mesh).toNat
      (BlendBonesCollection.ctor maxNodePartBoneCount)
    _polyPartMap := List.replicate mesh.GetPolygonCount (-1)
    _polyPartBonesMap := List.replicate mesh.GetPolygonCount 0
    log := [] }

/-- The body of the loop of `fetchMeshParts` for one polygon. -/
def partsStep (mesh : FbxMesh) (info : FbxMeshInfo) (poly : Nat) : FbxMeshInfo :=
  let mp := polyMaterial mesh poly
  if mp < 0 ∨ mp ≥ info._meshPartCount then
    { info with
      _polyPartMap := info._polyPartMap.set poly (-1)
      log := info.log ++ [Warning.wSourceConvertFbxNoPolyPart poly] }
  else
    { info with _polyPartMap := info._polyPartMap.set poly mp }

/-- Method `FbxMeshInfo::fetchMeshParts`. -/
def fetchMeshParts (mesh : FbxMesh) (info : FbxMeshInfo) : FbxMeshInfo :=
  (List.range mesh.GetPolygonCount).foldl (partsStep mesh) info

/-- The vector `polyWeights` that `fetchMeshPartsAndBones` builds for a polygon:
the weight list of the control point of each corner. -/
def polyWeights (mesh : FbxMesh) (pointBlendWeights : List (List BlendWeight)) (poly : Nat) :
    List (List BlendWeight) :=
  (List.range (mesh.GetPolygonSize poly)).map fun i =>
    pointBlendWeights.getD (mesh.GetPolygonVertex poly i) []

/-- The body of the loop of `fetchMeshPartsAndBones` for one polygon. -/
def partsAndBonesStep (mesh : FbxMesh) (info : FbxMeshInfo) (poly : Nat) : FbxMeshInfo :=
  let mp := polyMaterial mesh poly
  if mp < 0 ∨ mp ≥ info._meshPartCount then
    { info with
      _polyPartMap := info._polyPartMap.set poly (-1)
      log := info.log ++ [Warning.wSourceConvertFbxNoPolyPart poly] }
  else
    let r := (info._partBones.getD mp.toNat (BlendBonesCollection.ctor 0)).add
      (polyWeights mesh info._pointBlendWeights poly)
    let sp := r.2
    { info with
      _polyPartMap := info._polyPartMap.set poly mp
      _partBones := info._partBones.set mp.toNat r.1
      _polyPartBonesMap := info._polyPartBonesMap.set poly (if sp < 0 then 0 else sp.toNat)
      bonesOverflow := if sp < 0 then true else info.bonesOverflow }

/-- Method `FbxMeshInfo::fetchMeshPartsAndBones`. -/
def fetchMeshPartsAndBones (mesh : FbxMesh) (info : FbxMeshInfo) : FbxMeshInfo :=
  (List.range mesh.GetPolygonCount).foldl (partsAndBonesStep mesh) info

end FbxMeshInfo

/-- The entry the planning loops write to `_polyPartMap[poly]` when the part
count is `count`: the material index, or -1 when it is negative or not below
`count`. -/
def FbxMeshInfo.partOf (mesh : FbxMesh) (count : Int) (poly : Nat) : Int :=
  if FbxMeshInfo.polyMaterial mesh poly < 0 ∨ FbxMeshInfo.polyMaterial mesh poly ≥ count then -1
  else FbxMeshInfo.polyMaterial mesh poly

/-- What the two planning loops have in common: a loop body `f` that keeps
the part count, writes `partOf` to `_polyPartMap[poly]` and logs the no-part
warning exactly when that entry is -1. -/
def FbxMeshInfo.PlansParts (mesh : FbxMesh) (f : FbxMeshInfo → Nat → FbxMeshInfo) : Prop :=
  ∀ info poly,
    (f info poly)._meshPartCount = info._meshPartCount ∧
    (f info poly)._polyPartMap =
      info._polyPartMap.set poly (FbxMeshInfo.partOf mesh info._meshPartCount poly) ∧
    (f info poly).log = info.log ++
      (if FbxMeshInfo.partOf mesh info._meshPartCount poly = -1 then
        [Warning.wSourceConvertFbxNoPolyPart poly] else [])

/-- The state kept by the loop of `fetchMeshPartsAndBones`: the weight lists are
those stored by `fetchVertexBlendWeights`, there is one collection per part,
each reached from the constructor with capacity `cap`, and both maps have one
entry per polygon. -/
def FbxMeshInfo.Planned (mesh : FbxMesh) (cap : Nat) (pbw : List (List BlendWeight))
    (info : FbxMeshInfo) : Prop :=
  info._pointBlendWeights = pbw ∧
    info._partBones.length = info._meshPartCount.toNat ∧
    (∀ c ∈ info._partBones, BlendBonesCollection.Reachable c ∧ c._bonesCapacity = cap) ∧
    info._polyPartMap.length = mesh.GetPolygonCount ∧
    info._polyPartBonesMap.length = mesh.GetPolygonCount

/-- A mesh of two triangles on the control points 0, 1, 2 with one material
element, which gives the first polygon the index INT_MAX and the second the
index 0. -/
def FbxMesh.maxIndexFirst : FbxMesh :=
  { GetPolygonCount := 2, GetElementMaterialCount := 1,
    materialIndex := fun _ poly => if poly = 0 then 2147483647 else 0,
    GetPolygonSize := fun _ => 3, GetPolygonVertex := fun _ i => i, GetControlPointsCount := 3 }

/-- A mesh of one triangle on the control points 0, 1, 2 with one material
element, which gives the polygon the index 0. -/
def FbxMesh.oneTriangle : FbxMesh :=
  { GetPolygonCount := 1, GetElementMaterialCount := 1, materialIndex := fun _ _ => 0,
    GetPolygonSize := fun _ => 3, GetPolygonVertex := fun _ i => i, GetControlPointsCount := 3 }

/-- A mesh of two triangles sharing the control points 0, 1, 2 with no material
element. -/
def FbxMesh.noMaterial : FbxMesh :=
  { GetPolygonCount := 2, GetElementMaterialCount := 0, materialIndex := fun _ _ => 0,
    GetPolygonSize := fun _ => 3, GetPolygonVertex := fun _ i => i, GetControlPointsCount := 3 }

/-- Rounding of a rational to the nearest integer, a tie going to the even one. -/
def roundHalfEven (x : ℚ) : Int :=
  if 2 * (x - ⌊x⌋) < 1 then ⌊x⌋
  else if 1 < 2 * (x - ⌊x⌋) then ⌊x⌋ + 1
  else if ⌊x⌋ % 2 = 0 then ⌊x⌋ else ⌊x⌋ + 1

/-- The spacing of the `float` values around `x`: `2^(e-23)` when
`2^e ≤ |x| < 2^(e+1)` with `e ≥ -126`, and `2^-149` below `2^-126`. -/
def floatQuantum (x : ℚ) : ℚ := 2 ^ (max (Int.log 2 |x|) (-126) - 23)

/-- The conversion `(float)x` of a `double` of value `x` (IEEE-754 binary32,
round to nearest, ties to even): the multiple of the spacing nearest to `x`.
A value of magnitude at most `2^-150`, half the smallest `float`, becomes 0.
This is the conversion for `|x| < 2^128 - 2^103`, where its result is finite. -/
def floatCast (x : ℚ) : ℚ := (roundHalfEven (x / floatQuantum x) : ℚ) * floatQuantum x

/-- Struct `BlendWeight` with the `float` weight given by the rational it
denotes. -/
structure ExactWeight where
  weight : ℚ
  index : Int
  deriving DecidableEq

/-- One `FbxCluster` of the skin: the pairs `(GetControlPointIndices()[j],
GetControlPointWeights()[j])` for `j < GetControlPointIndicesCount()`; a weight
is the rational the `double` denotes. -/
structure FbxCluster where
  entries : List (Int × ℚ)

/-- What `fetchVertexBlendWeights` leaves: the weight lists per control point,
`vertexBlendWeightCount` and the warnings logged. -/
structure BlendWeights where
  _pointBlendWeights : List (List ExactWeight)
  vertexBlendWeightCount : Nat
  log : List Warning

namespace FbxMeshInfo

/-- The constructor's initialiser `maxVertexBlendWeightCount(4)`: the member is
set to 4, whatever value is passed. -/
def ctorMaxVertexBlendWeightCount (_maxVertexBlendWeightCount : Nat) : Nat := 4

/-- The constructor's initialiser `_forceMaxVertexBlendWeightCount(true)`. -/
def ctorForceMaxVertexBlendWeightCount (_forceMaxVertexBlendWeightCount : Bool) : Bool := true

/-- The contract of `std::sort(begin, end, std::greater<BlendWeight>())`: the
result is a rearrangement of the input in which no element has a smaller weight
than a later one. The order of equal weights is left open. -/
def IsGreaterSort (sort : List ExactWeight → List ExactWeight) : Prop :=
  ∀ l, (sort l).Perm l ∧ (sort l).Pairwise fun a b => b.weight ≤ a.weight

/-- The first loop of `fetchVertexBlendWeights` over the entries of cluster `i`:
the test `clusterWeights[j] == 0.0` is on the `double`, the weight pushed is
`(float)clusterWeights[j]`. -/
def gatherCluster (count : Nat) (i : Nat) :
    List (Int × ℚ) → List (List ExactWeight) → List (List ExactWeight)
  | [], pw => pw
  | (cp, w) :: es, pw =>
    if cp < 0 ∨ cp ≥ (count : Int) ∨ w = 0 then gatherCluster count i es pw
    else gatherCluster count i es
      (pw.set cp.toNat (pw.getD cp.toNat [] ++ [{ weight := floatCast w, index := (i : Int) }]))

/-- The first loop of `fetchVertexBlendWeights` over the clusters; `i` is the
loop counter. -/
def gatherLoop (count : Nat) :
    List FbxCluster → Nat → List (List ExactWeight) → List (List ExactWeight)
  | [], _, pw => pw
  | c :: cs, i, pw => gatherLoop count cs (i + 1) (gatherCluster count i c.entries pw)

/-- The list of a control point after `std::sort`, which compares the `float`
weights of the entries, and `resize`. -/
def sortTruncate (sort : List ExactWeight → List ExactWeight) (max : Nat)
    (ws : List ExactWeight) : List ExactWeight :=
  if (sort ws).length > max then (sort ws).take max else sort ws

/-- The sum `len` of the weights of a list, the `float` additions taken exact. -/
def weightSum (ws : List ExactWeight) : ℚ :=
  ws.foldl (fun len w => len + w.weight) 0

/-- The normalisation of one list: nothing when `len == 0`, else every weight
divided by `len`, the `float` divisions taken exact. -/
def normalizeWeights (ws : List ExactWeight) : List ExactWeight :=
  if weightSum ws = 0 then ws
  else ws.map fun w => { weight := w.weight / weightSum ws, index := w.index }

/-- The body of the second loop of `fetchVertexBlendWeights` for one control
point; the state is the lists written so far, `error` and
`vertexBlendWeightCount`. -/
def pointStep (sort : List ExactWeight → List ExactWeight) (max : Nat)
    (st : List (List ExactWeight) × Bool × Nat) (ws : List ExactWeight) :
    List (List ExactWeight) × Bool × Nat :=
  let kept := sortTruncate sort max ws
  let error := if weightSum kept = 0 then true else st.2.1
  let out := normalizeWeights kept
  let vbc := if out.length > st.2.2 then out.length else st.2.2
  (st.1 ++ [out], error, vbc)

/-- Method `FbxMeshInfo::fetchVertexBlendWeights`, with `std::sort` as the
parameter `sort` and the members `maxVertexBlendWeightCount` and
`_forceMaxVertexBlendWeightCount` as `max` and `force`. -/
def fetchVertexBlendWeights (sort : List ExactWeight → List ExactWeight) (max : Nat)
    (force : Bool) (controlPointsCount : Nat) (clusters : List FbxCluster) : BlendWeights :=
  let gathered := gatherLoop controlPointsCount clusters 0 (List.replicate controlPointsCount [])
  let st := gathered.foldl (pointStep sort max) ([], false, 0)
  { _pointBlendWeights := st.1
    vertexBlendWeightCount := if st.2.2 > 0 ∧ force = true then max else st.2.2
    log := if st.2.1 = true then [Warning.wSourceConvertFbxZeroWeights] else [] }

/-- The constructor's initialiser of `skin`: the skin deformer is taken when
`maxNodePartBoneCount > 0 && maxVertexBlendWeightCount > 0 &&
GetDeformerCount(eSkin) > 0`, on the values passed to the constructor; `skin`
is null otherwise. -/
def ctorSkin (maxNodePartBoneCount maxVertexBlendWeightCount deformerCount : Nat) : Bool :=
  decide (maxNodePartBoneCount > 0 ∧ maxVertexBlendWeightCount > 0 ∧ deformerCount > 0)

/-- What the constructor computes from the values passed to it: under
`if (skin)`, `fetchVertexBlendWeights` run with the two members as initialised;
nothing when `skin` is null. -/
def blendWeightsOf (sort : List ExactWeight → List ExactWeight)
    (maxVertexBlendWeightCount : Nat) (forceMaxVertexBlendWeightCount : Bool)
    (maxNodePartBoneCount deformerCount : Nat)
    (controlPointsCount : Nat) (clusters : List FbxCluster) : Option BlendWeights :=
  if ctorSkin maxNodePartBoneCount maxVertexBlendWeightCount deformerCount = true then
    some (fetchVertexBlendWeights sort (ctorMaxVertexBlendWeightCount maxVertexBlendWeightCount)
      (ctorForceMaxVertexBlendWeightCount forceMaxVertexBlendWeightCount)
      controlPointsCount clusters)
  else none

/-- The entries the first loop of `fetchVertexBlendWeights` pushes for control
point `p`: for each cluster in order, its entries with control-point index `p`
and non-zero `double` weight, as (weight converted to `float`, cluster index);
`i` is the index of the first cluster. -/
def entriesFrom (p : Nat) : List FbxCluster → Nat → List ExactWeight
  | [], _ => []
  | c :: cs, i =>
    ((c.entries.filter fun e => decide (e.1 = (p : Int) ∧ e.2 ≠ 0)).map fun e =>
      { weight := floatCast e.2, index := (i : Int) }) ++ entriesFrom p cs (i + 1)

/-- A sort meeting the contract of `std::sort`, on which examples are run: the
insertion sort, which leaves entries of equal weight in the order they were
pushed. -/
def greaterSort (l : List ExactWeight) : List ExactWeight :=
  l.insertionSort fun a b => b.weight ≤ a.weight

end FbxMeshInfo

/-- The entries of control point `p` that are kept: the sorted entries cut to
`max`. -/
def FbxMeshInfo.keptWeights (sort : List ExactWeight → List ExactWeight) (max : Nat)
    (clusters : List FbxCluster) (p : Nat) : List ExactWeight :=
  (sort (FbxMeshInfo.entriesFrom p clusters 0)).take max

/-- Method `BlendBones::sort`: `std::sort(_bones, _bones + size())`, the
ascending rearrangement of the first `size()` slots (unique for integers). -/
def BlendBones.sort (b : BlendBones) : BlendBones :=
  { _bones := (b._bones.take b.size).insertionSort (fun x y => x ≤ y) ++ b._bones.drop b.size }

/-- Method `BlendBonesCollection::sortBones`. -/
def BlendBonesCollection.sortBones (c : BlendBonesCollection) : BlendBonesCollection :=
  { c with _bones := c._bones.map BlendBones.sort }

/-- Slot sets obtained from the constructor by the mutating operations of
`BlendBones`: the two `add` and `sort`, with any arguments. -/
inductive BlendBones.Reached : BlendBones → Prop
  | ctor (capacity : Nat) : Reached (BlendBones.ctor capacity)
  | add (b : BlendBones) (v : Int) : Reached b → Reached (b.add v).1
  | addWeights (b : BlendBones) (rhs : List (List BlendWeight)) :
      Reached b → Reached (b.addWeights rhs).1
  | sort (b : BlendBones) : Reached b → Reached b.sort

/-- Slot sets obtained from the constructor by `add(int)` and `add(demand)`
with non-negative identifiers and by `sort()`. -/
inductive BlendBones.Built : BlendBones → Prop
  | ctor (capacity : Nat) : Built (BlendBones.ctor capacity)
  | add (b : BlendBones) (v : Int) : 0 ≤ v → Built b → Built (b.add v).1
  | addWeights (b : BlendBones) (rhs : List (List BlendWeight)) :
      (∀ x ∈ BlendBones.demandBones rhs, 0 ≤ x) → Built b → Built (b.addWeights rhs).1
  | sort (b : BlendBones) : Built b → Built b.sort

/-- The array is a run `p` of pairwise distinct non-negative identifiers
followed by `m` empty slots. -/
def BlendBones.Packed (b : BlendBones) (p : List Int) (m : Nat) : Prop :=
  b._bones = p ++ List.replicate m (-1) ∧ (∀ x ∈ p, 0 ≤ x) ∧ p.Nodup

/-- The blend indices `getBlendInfos` writes for a corner of polygon `poly` on
control point `point`: for `weightIndex < 4`, the slot of the bone of the
`weightIndex`-th weight in the slot set assigned to the polygon, or 0 past the
end of the weight list (the value before its conversion to `float`). -/
def FbxMeshInfo.getBlendInfos (info : FbxMeshInfo) (poly point : Nat) : List Int :=
  (List.range 4).map fun weightIndex =>
    if weightIndex < (info._pointBlendWeights.getD point []).length then
      (((info._partBones.getD (info._polyPartMap.getD poly 0).toNat
          (BlendBonesCollection.ctor 0))._bones.getD (info._polyPartBonesMap.getD poly 0)
          (BlendBones.ctor 0)).idx
        (((info._pointBlendWeights.getD point []).getD weightIndex ⟨0, -1⟩).index))
    else 0

/-- The lookups `getBlendInfos` makes for polygon `poly` are in range: its part
id `mp` is non-negative, `_partBones[mp]` exists and the polygon's slot-set
index is below the size of that collection. -/
def FbxMeshInfo.SlotInRange (info : FbxMeshInfo) (poly : Nat) : Prop :=
  ∃ (mp : Int) (slot : Nat) (c : BlendBonesCollection),
    info._polyPartMap[poly]? = some mp ∧ 0 ≤ mp ∧
    info._polyPartBonesMap[poly]? = some slot ∧
    info._partBones[mp.toNat]? = some c ∧ slot < c.size

/-- The slot set assigned to polygon `poly` holds every identifier of `bones`. -/
def FbxMeshInfo.SlotHolds (info : FbxMeshInfo) (poly : Nat) (bones : List Int) : Prop :=
  ∃ (mp : Int) (slot : Nat) (c : BlendBonesCollection) (b : BlendBones),
    info._polyPartMap[poly]? = some mp ∧ 0 ≤ mp ∧
    info._polyPartBonesMap[poly]? = some slot ∧
    info._partBones[mp.toNat]? = some c ∧ c._bones[slot]? = some b ∧
    ∀ x ∈ bones, x ∈ b._bones

/-- The value `sp` that `fetchMeshPartsAndBones`, started on `info`, gets from
`_partBones[mp].add(polyWeights)` in the iteration of polygon `poly`, that is
after the iterations of the polygons `0 .. poly - 1`; it is negative when the
placement of the polygon overflowed. -/
def FbxMeshInfo.placement (mesh : FbxMesh) (info : FbxMeshInfo) (poly : Nat) : Int :=
  (((((List.range poly).foldl (FbxMeshInfo.partsAndBonesStep mesh) info)._partBones.getD
      (FbxMeshInfo.polyMaterial mesh poly).toNat (BlendBonesCollection.ctor 0)).add
    (FbxMeshInfo.polyWeights mesh
      ((List.range poly).foldl (FbxMeshInfo.partsAndBonesStep mesh) info)._pointBlendWeights
      poly))).2

end readers

open modeldata

namespace FloatBits

theorem same_refl (x : FloatBits) : same x x := Or.inl rfl

theorem same_symm {x y : FloatBits} (h : same x y) : same y x := by
  unfold same ieeeEq at *
  rcases h with h | h
  · exact Or.inl h.symm
  · right
    simp only [Bool.and_eq_true, Bool.or_eq_true, Bool.not_eq_true', beq_iff_eq] at *
    tauto

theorem same_trans {x y z : FloatBits} (h1 : same x y) (h2 : same y z) : same x z := by
  unfold same ieeeEq at *
  rcases h1 with h1 | h1
  · subst h1; exact h2
  rcases h2 with h2 | h2
  · subst h2; exact Or.inr h1
  right
  simp only [Bool.and_eq_true, Bool.or_eq_true, Bool.not_eq_true', beq_iff_eq] at *
  rcases h1 with ⟨⟨a, b⟩, c | c⟩ <;> rcases h2 with ⟨⟨d, e⟩, f | f⟩
  · subst c; subst f; tauto
  · subst c; tauto
  · subst f; tauto
  · tauto

end FloatBits

namespace modeldata.Mesh

theorem elem_iff (x y : FloatBits) :
    (!((x != y) && !(FloatBits.ieeeEq x y))) = true ↔ FloatBits.same x y := by
  unfold FloatBits.same
  by_cases e : x = y
  · simp [e]
  · simp [e]

theorem compare_iff (a b : List FloatBits) (n : Nat) :
    compare a b n = true ↔ ∀ i, i < n → FloatBits.same (a.getD i 0) (b.getD i 0) := by
  unfold compare
  rw [List.all_eq_true]
  constructor
  · intro h i hi
    exact (elem_iff _ _).mp (h i (List.mem_range.mpr hi))
  · intro h i hi
    exact (elem_iff _ _).mpr (h i (List.mem_range.mp hi))

theorem compare_refl (a : List FloatBits) (n : Nat) : compare a a n = true :=
  (compare_iff a a n).mpr fun _ _ => FloatBits.same_refl _

theorem compare_symm {a b : List FloatBits} {n : Nat} (h : compare a b n = true) :
    compare b a n = true :=
  (compare_iff b a n).mpr fun i hi => FloatBits.same_symm ((compare_iff a b n).mp h i hi)

theorem compare_trans {a b c : List FloatBits} {n : Nat} (h1 : compare a b n = true)
    (h2 : compare b c n = true) : compare a c n = true :=
  (compare_iff a c n).mpr fun i hi =>
    FloatBits.same_trans ((compare_iff a b n).mp h1 i hi) ((compare_iff b c n).mp h2 i hi)

theorem compare_append (a t b : List FloatBits) (n : Nat) (ha : a.length = n) :
    compare (a ++ t) b n = compare a b n := by
  rw [Bool.eq_iff_iff, compare_iff, compare_iff]
  constructor
  · intro h i hi
    have := h i hi
    rwa [List.getD_append _ _ _ _ (by omega)] at this
  · intro h i hi
    rw [List.getD_append _ _ _ _ (by omega)]
    exact h i hi

theorem key_refl (n : Nat) (a : List FloatBits) : key n a a := ⟨rfl, compare_refl a n⟩

theorem key_symm {n : Nat} {a b : List FloatBits} (h : key n a b) : key n b a :=
  ⟨h.1.symm, compare_symm h.2⟩

theorem key_trans {n : Nat} {a b c : List FloatBits} (h1 : key n a b) (h2 : key n b c) :
    key n a c := ⟨h1.1.trans h2.1, compare_trans h1.2 h2.2⟩

theorem findMatch_some {m : Mesh} {v : List FloatBits} {h : Nat} :
    ∀ (k s i : Nat), findMatch m v h k s = some i →
      s ≤ i ∧ i < s + k ∧ matchAt m v h i ∧ ∀ j, s ≤ j → j < i → ¬ matchAt m v h j := by
  intro k
  induction k with
  | zero => intro s i hh; simp [findMatch] at hh
  | succ k ih =>
    intro s i hh
    unfold findMatch at hh
    split at hh
    · rename_i hc
      injection hh with hh
      subst hh
      exact ⟨le_refl _, by omega, hc, fun j h1 h2 => by omega⟩
    · rename_i hc
      obtain ⟨h1, h2, h3, h4⟩ := ih (s + 1) i hh
      refine ⟨by omega, by omega, h3, fun j hj1 hj2 => ?_⟩
      rcases Nat.eq_or_lt_of_le hj1 with e | e
      · subst e; exact hc
      · exact h4 j e hj2

theorem findMatch_none {m : Mesh} {v : List FloatBits} {h : Nat} :
    ∀ (k s : Nat), findMatch m v h k s = none → ∀ j, s ≤ j → j < s + k → ¬ matchAt m v h j := by
  intro k
  induction k with
  | zero => intro s _ j h1 h2; omega
  | succ k ih =>
    intro s hh j h1 h2
    unfold findMatch at hh
    split at hh
    · simp at hh
    · rename_i hc
      rcases Nat.eq_or_lt_of_le h1 with e | e
      · subst e; exact hc
      · exact ih (s + 1) hh j e (by omega)

theorem findMatch_first {m : Mesh} {v : List FloatBits} {h : Nat} :
    ∀ (k s i : Nat), s ≤ i → i < s + k → matchAt m v h i → (∀ j, s ≤ j → j < i → ¬ matchAt m v h j) →
      findMatch m v h k s = some i := by
  intro k s i h1 h2 h3 h4
  cases hh : findMatch m v h k s with
  | none => exact absurd h3 (findMatch_none k s hh i h1 h2)
  | some i' =>
    obtain ⟨a1, a2, a3, a4⟩ := findMatch_some k s i' hh
    rcases Nat.lt_trichotomy i i' with e | e | e
    · exact absurd h3 (a4 i h1 e)
    · rw [e]
    · exact absurd a3 (h4 i' a1 e)

theorem drop_flatten (n : Nat) :
    ∀ (rs : List (List FloatBits)) (j : Nat), (∀ r ∈ rs, r.length = n) →
      rs.flatten.drop (j * n) = (rs.drop j).flatten := by
  intro rs
  induction rs with
  | nil => intro j _; simp
  | cons r rs ih =>
    intro j hlen
    cases j with
    | zero => simp
    | succ j =>
      have hr : r.length = n := hlen r (List.mem_cons_self _ _)
      have e : (j + 1) * n = r.length + j * n := by rw [hr, Nat.succ_mul]; omega
      rw [List.flatten_cons, e, List.drop_append, List.drop_succ_cons]
      exact ih j fun x hx => hlen x (List.mem_cons_of_mem _ hx)

theorem length_flatten (n : Nat) :
    ∀ (rs : List (List FloatBits)), (∀ r ∈ rs, r.length = n) →
      rs.flatten.length = rs.length * n := by
  intro rs
  induction rs with
  | nil => intro _; simp
  | cons r rs ih =>
    intro hlen
    rw [List.flatten_cons, List.length_append, List.length_cons, Nat.succ_mul,
      ih fun x hx => hlen x (List.mem_cons_of_mem _ hx), hlen r (List.mem_cons_self _ _)]
    omega

theorem matchAt_rep {n : Nat} {rs : List (List FloatBits)} (v : List FloatBits) (h : Nat)
    (hlen : ∀ r ∈ rs, r.length = n) {j : Nat} (hj : j < rs.length) :
    matchAt (rep n rs) v h j ↔ (calcHash (rs.getD j []) n = h ∧ compare (rs.getD j []) v n = true) := by
  have e1 : (rep n rs)._hashes.getD j 0 = calcHash (rs.getD j []) n := by
    show (rs.map fun r => calcHash r n).getD j 0 = _
    rw [List.getD_eq_getElem _ _ (by simpa using hj), List.getD_eq_getElem _ _ hj, List.getElem_map]
  have e2 : (rep n rs)._vertices.drop (j * n) = rs.getD j [] ++ (rs.drop (j + 1)).flatten := by
    show rs.flatten.drop (j * n) = _
    rw [drop_flatten n rs j hlen, List.drop_eq_getElem_cons hj, List.flatten_cons,
      List.getD_eq_getElem _ _ hj]
  have e3 : (rs.getD j []).length = n := by
    rw [List.getD_eq_getElem _ _ hj]; exact hlen _ (List.getElem_mem _)
  unfold matchAt
  show ((rep n rs)._hashes.getD j 0 == h &&
    compare ((rep n rs)._vertices.drop (j * n)) v n) = true ↔ _
  rw [e1, e2, compare_append _ _ _ _ e3, Bool.and_eq_true, beq_iff_eq]

theorem good_nil (n : Nat) : Good n [] :=
  ⟨fun _ h => absurd h (List.not_mem_nil _), fun i _ h _ => absurd h (Nat.not_lt_zero i)⟩

theorem rep_nil (n : Nat) : rep n [] = empty n := rfl

theorem add_spec {n : Nat} {rs : List (List FloatBits)} (hg : Good n rs)
    {v : List FloatBits} (hv : v.length = n) :
    ∃ rs' i, add (rep n rs) v = (rep n rs', i) ∧ Good n rs' ∧
      (rs' = rs ∨ (rs' = rs ++ [v] ∧ i = rs.length)) ∧ i < rs'.length ∧
      key n (rs'.getD i []) v ∧ ∀ j, j < i → ¬ key n (rs'.getD j []) v := by
  have hlenh : (rep n rs)._hashes.length = rs.length := by
    show (rs.map fun r => calcHash r n).length = _
    simp
  cases hh : findMatch (rep n rs) v (calcHash v n) rs.length 0 with
  | some i =>
    obtain ⟨_, h2, h3, h4⟩ := findMatch_some _ _ _ hh
    have hi : i < rs.length := by omega
    refine ⟨rs, i, ?_, hg, Or.inl rfl, hi, (matchAt_rep v _ hg.1 hi).mp h3, fun j hj hk => ?_⟩
    · unfold add
      simp only [hlenh]
      show (match findMatch (rep n rs) v (calcHash v n) rs.length 0 with
        | some i => (rep n rs, i)
        | none => _) = _
      rw [hh]
    · exact h4 j (Nat.zero_le _) hj ((matchAt_rep v _ hg.1 (by omega)).mpr hk)
  | none =>
    have hnone := findMatch_none _ _ hh
    have hno : ∀ j, j < rs.length → ¬ key n (rs.getD j []) v := fun j hj hk =>
      hnone j (Nat.zero_le _) (by omega) ((matchAt_rep v _ hg.1 hj).mpr hk)
    have hgetl : ∀ j, j < rs.length → (rs ++ [v]).getD j [] = rs.getD j [] := fun j hj =>
      List.getD_append _ _ _ _ hj
    have hgetr : (rs ++ [v]).getD rs.length [] = v := by
      rw [List.getD_append_right _ _ _ _ (le_refl _)]; simp
    refine ⟨rs ++ [v], rs.length, ?_, ⟨?_, ?_⟩, Or.inr ⟨rfl, rfl⟩, by simp, ?_, ?_⟩
    · unfold add
      simp only [hlenh]
      show (match findMatch (rep n rs) v (calcHash v n) rs.length 0 with
        | some i => (rep n rs, i)
        | none => _) = _
      rw [hh]
      simp only [rep, List.length_append, List.length_map, List.length_singleton,
        Nat.add_sub_cancel, List.flatten_append, List.map_append, List.map_cons, List.map_nil,
        List.flatten_cons, List.flatten_nil, List.append_nil]
      rw [← hv, List.take_length]
    · intro r hr
      rcases List.mem_append.mp hr with h | h
      · exact hg.1 r h
      · rw [List.mem_singleton.mp h]; exact hv
    · intro i j hi hj
      rw [List.length_append, List.length_singleton] at hi
      rcases Nat.eq_or_lt_of_le (Nat.le_of_lt_succ hi) with e | e
      · subst e
        rw [hgetr, hgetl j hj]
        exact hno j hj
      · rw [hgetl i e, hgetl j (by omega)]
        exact hg.2 i j e hj
    · rw [hgetr]; exact key_refl n v
    · intro j hj
      rw [hgetl j hj]
      exact hno j hj

theorem compare_sameRecord {a b : List FloatBits} {n : Nat} (ha : a.length = n)
    (hb : b.length = n) : compare a b n = true ↔ sameRecord a b := by
  rw [compare_iff]
  unfold sameRecord
  rw [ha, hb]
  exact ⟨fun h => ⟨rfl, h⟩, fun h => h.2⟩

theorem add_of_some {m : Mesh} {v : List FloatBits} {i : Nat}
    (h : findMatch m v (calcHash v m._vertexSize) m._hashes.length 0 = some i) :
    m.add v = (m, i) := by
  unfold add
  simp only [h]

theorem add_of_none {m : Mesh} {v : List FloatBits}
    (h : findMatch m v (calcHash v m._vertexSize) m._hashes.length 0 = none) :
    m.add v = ({ _vertexSize := m._vertexSize,
                 _vertices := m._vertices ++ v.take m._vertexSize,
                 _hashes := m._hashes ++ [calcHash v m._vertexSize] }, m._hashes.length) := by
  unfold add
  simp only [h, List.length_append, List.length_singleton, Nat.add_sub_cancel]

theorem addAll_rep {n : Nat} (ext : List (List FloatBits)) :
    ∀ (rs : List (List FloatBits)), Good n rs → (∀ r ∈ ext, r.length = n) →
      ∃ t, addAll (rep n rs) ext = rep n (rs ++ t) ∧ Good n (rs ++ t) := by
  induction ext with
  | nil => intro rs hg _; exact ⟨[], by simp [addAll], by simpa using hg⟩
  | cons v ext ih =>
    intro rs hg hlen
    obtain ⟨rs2, i, e, hg2, hor, _⟩ := add_spec hg (hlen v (List.mem_cons_self _ _))
    have hstep : addAll (rep n rs) (v :: ext) = addAll (rep n rs2) ext := by
      simp only [addAll, List.foldl_cons, e]
    obtain ⟨t, e3, hg3⟩ := ih rs2 hg2 fun r hr => hlen r (List.mem_cons_of_mem _ hr)
    rw [hstep, e3]
    rcases hor with h | ⟨h, _⟩
    · rw [h] at e3 hg3 ⊢; exact ⟨t, rfl, hg3⟩
    · rw [h] at e3 hg3 ⊢
      exact ⟨v :: t, by simp, by simpa using hg3⟩

theorem built_rep {n : Nat} {pre : List (List FloatBits)} (hpre : ∀ r ∈ pre, r.length = n) :
    ∃ rs, addAll (empty n) pre = rep n rs ∧ Good n rs := by
  obtain ⟨t, e, hg⟩ := addAll_rep pre [] (good_nil n) hpre
  exact ⟨[] ++ t, by rw [← rep_nil]; exact e, hg⟩

theorem add_distinct_aux (n : Nat) (pre mid : List (List FloatBits)) (a b : List FloatBits)
    (hpre : ∀ r ∈ pre, r.length = n) (hmid : ∀ r ∈ mid, r.length = n)
    (ha : a.length = n) (hb : b.length = n)
    (hdiff : ∃ i, i < n ∧ ¬ FloatBits.same (a.getD i 0) (b.getD i 0)) :
    (((((empty n).addAll pre).add a).1.addAll mid).add b).2 ≠
      (((empty n).addAll pre).add a).2 := by
  obtain ⟨rs1, e1, hg1⟩ := built_rep hpre
  obtain ⟨rs2, ia, e2, hg2, _, hia, hka, _⟩ := add_spec hg1 ha
  obtain ⟨t, e3, hg3⟩ := addAll_rep mid rs2 hg2 hmid
  obtain ⟨rs4, ib, e4, _, hor, _, hkb, _⟩ := add_spec hg3 hb
  rw [e1, e2]
  simp only []
  rw [e3, e4]
  simp only []
  intro heq
  subst heq
  have hget : rs4.getD ib [] = rs2.getD ib [] := by
    rcases hor with h | ⟨h, _⟩
    · rw [h, List.getD_append _ _ _ _ hia]
    · rw [h, List.append_assoc, List.getD_append _ _ _ _ hia]
  rw [hget] at hkb
  have hab : compare a b n = true := compare_trans (compare_symm hka.2) hkb.2
  obtain ⟨i, hi, hne⟩ := hdiff
  exact hne ((compare_iff a b n).mp hab i hi)

theorem foldl_mod_sum (f : Nat → Nat) (M : Nat) (l : List Nat) :
    ∀ a, a < M → l.foldl (fun result i => (result + f i) % M) a = (a + (l.map f).sum) % M := by
  induction l with
  | nil => intro a ha; simp [Nat.mod_eq_of_lt ha]
  | cons x l ih =>
    intro a ha
    have hM : 0 < M := by omega
    rw [List.foldl_cons, ih _ (Nat.mod_lt _ hM), List.map_cons, List.sum_cons, Nat.mod_add_mod,
      Nat.add_assoc]

/-- Claim C1 fails on the code: the records (+0.0) and (-0.0) are equal under
the equality rule, but `add` gives them the indices 0 and 1, because their
hashes differ and the scan tests the hash before `compare`. -/
theorem add_signed_zeros_split :
    sameRecord [0] [2147483648] ∧ compare [0] [2147483648] 1 = true ∧
      calcHash [0] 1 ≠ calcHash [2147483648] 1 ∧
      ((empty 1).add [0]).2 = 0 ∧ (((empty 1).add [0]).1.add [2147483648]).2 = 1 := by
  decide

/-- Claim C2: two records of `n` floats that differ in a component (neither
bit-identical nor IEEE-equal there) get different indices from `add`, in either
order, whatever records are added before and between them. -/
theorem add_distinct (n : Nat) (pre mid : List (List FloatBits)) (a b : List FloatBits)
    (hpre : ∀ r ∈ pre, r.length = n) (hmid : ∀ r ∈ mid, r.length = n)
    (ha : a.length = n) (hb : b.length = n)
    (hdiff : ∃ i, i < n ∧ ¬ FloatBits.same (a.getD i 0) (b.getD i 0)) :
    (((((empty n).addAll pre).add a).1.addAll mid).add b).2 ≠
        (((empty n).addAll pre).add a).2 ∧
      (((((empty n).addAll pre).add b).1.addAll mid).add a).2 ≠
        (((empty n).addAll pre).add b).2 := by
  refine ⟨add_distinct_aux n pre mid a b hpre hmid ha hb hdiff,
    add_distinct_aux n pre mid b a hpre hmid hb ha ?_⟩
  obtain ⟨i, hi, hne⟩ := hdiff
  exact ⟨i, hi, fun h => hne (FloatBits.same_symm h)⟩

/-- Claim C2 at the positions (1,2,3) and (1,2,4) added after (0,0,0). -/
theorem add_distinct_witness :
    (((((empty 3).addAll [[0, 0, 0]]).add
          [1065353216, 1073741824, 1077936128]).1.addAll []).add
          [1065353216, 1073741824, 1082130432]).2 ≠
        (((empty 3).addAll [[0, 0, 0]]).add [1065353216, 1073741824, 1077936128]).2 ∧
      (((((empty 3).addAll [[0, 0, 0]]).add
          [1065353216, 1073741824, 1082130432]).1.addAll []).add
          [1065353216, 1073741824, 1077936128]).2 ≠
        (((empty 3).addAll [[0, 0, 0]]).add [1065353216, 1073741824, 1082130432]).2 :=
  add_distinct 3 [[0, 0, 0]] [] [1065353216, 1073741824, 1077936128]
    [1065353216, 1073741824, 1082130432] (by decide) (by decide) rfl rfl ⟨2, by decide, by decide⟩

/-- Claim C3 fails on the code: the sequence (+0.0), (-0.0) has one distinct
record under the equality rule, and `vertexCount()` is 2 after adding it. -/
theorem vertexCount_signed_zeros :
    distinctCount [[0], [2147483648]] = 1 ∧
      ((empty 1).addAll [[0], [2147483648]]).vertexCount = 2 := by
  decide

/-- Claim C4: `add` only appends. On a mesh with `n > 0` floats per vertex and
`|_hashes| * n = |_vertices|`, the old buffers are prefixes of the new ones,
and either the scan matched at the returned index, which is below the old
vertex count, and the mesh is unchanged, or nothing matched, the record and its
hash were appended and the returned index is the old vertex count. -/
theorem add_append_only (m : Mesh) (r : List FloatBits) (hn : 0 < m._vertexSize)
    (hinv : m._hashes.length * m._vertexSize = m._vertices.length)
    (hr : r.length = m._vertexSize) :
    m._vertices <+: (m.add r).1._vertices ∧ m._hashes <+: (m.add r).1._hashes ∧
      (((m.add r).1 = m ∧ (m.add r).2 < m.vertexCount ∧
          matchAt m r (calcHash r m._vertexSize) (m.add r).2) ∨
        ((m.add r).1 = { _vertexSize := m._vertexSize, _vertices := m._vertices ++ r,
                         _hashes := m._hashes ++ [calcHash r m._vertexSize] } ∧
          (m.add r).2 = m.vertexCount ∧
          ∀ j, j < m.vertexCount → ¬ matchAt m r (calcHash r m._vertexSize) j)) := by
  have hvc : m.vertexCount = m._hashes.length := by
    unfold vertexCount
    rw [← hinv, Nat.mul_div_cancel _ hn]
  cases hh : findMatch m r (calcHash r m._vertexSize) m._hashes.length 0 with
  | some i =>
    obtain ⟨_, h2, h3, _⟩ := findMatch_some _ _ _ hh
    rw [add_of_some hh, hvc]
    exact ⟨List.prefix_refl _, List.prefix_refl _, Or.inl ⟨rfl, by omega, h3⟩⟩
  | none =>
    have hno := findMatch_none _ _ hh
    have htake : r.take m._vertexSize = r := by rw [← hr, List.take_length]
    rw [add_of_none hh, hvc, htake]
    exact ⟨List.prefix_append _ _, List.prefix_append _ _,
      Or.inr ⟨rfl, rfl, fun j hj => hno j (Nat.zero_le _) (by omega)⟩⟩

/-- Claim C4 at the mesh holding (1,2,3) and the record (1,2,4). -/
theorem add_append_only_witness :
    (0 < 3 ∧ [4161536 + 4194304 + 4210688].length * 3 =
        [(1065353216 : FloatBits), 1073741824, 1077936128].length ∧
      [(1065353216 : FloatBits), 1073741824, 1082130432].length = 3) ∧
    ([(1065353216 : FloatBits), 1073741824, 1077936128] <+:
        (add { _vertexSize := 3, _vertices := [1065353216, 1073741824, 1077936128],
               _hashes := [4161536 + 4194304 + 4210688] }
          [1065353216, 1073741824, 1082130432]).1._vertices) :=
  ⟨by decide,
    (add_append_only { _vertexSize := 3, _vertices := [1065353216, 1073741824, 1077936128],
                       _hashes := [4161536 + 4194304 + 4210688] }
      [1065353216, 1073741824, 1082130432] (by decide) (by decide) (by decide)).1⟩

/-- Claim C5: on a mesh built from the empty mesh with `n > 0` by `add`, the
index returned by `add r` is below `vertexCount()` after the call,
`|_hashes| = vertexCount()` holds after the call, and the `n` floats stored at
position `i * n` equal `r` under the equality rule. -/
theorem add_index_valid (n : Nat) (pre : List (List FloatBits)) (r : List FloatBits)
    (hn : 0 < n) (hpre : ∀ x ∈ pre, x.length = n) (hr : r.length = n) :
    (((empty n).addAll pre).add r).2 < (((empty n).addAll pre).add r).1.vertexCount ∧
      (((empty n).addAll pre).add r).1._hashes.length =
        (((empty n).addAll pre).add r).1.vertexCount ∧
      sameRecord
        (((((empty n).addAll pre).add r).1._vertices.drop
          ((((empty n).addAll pre).add r).2 * n)).take n) r := by
  obtain ⟨rs1, e1, hg1⟩ := built_rep hpre
  obtain ⟨rs2, i, e2, hg2, _, hi, hk, _⟩ := add_spec hg1 hr
  rw [e1, e2]
  simp only []
  have hvc : (rep n rs2).vertexCount = rs2.length := by
    show rs2.flatten.length / n = _
    rw [length_flatten n rs2 hg2.1, Nat.mul_div_cancel _ hn]
  have hlen : (rep n rs2)._hashes.length = rs2.length := by
    show (rs2.map fun r => calcHash r n).length = _
    simp
  have hi' : (rs2.getD i []).length = n := by
    rw [List.getD_eq_getElem _ _ hi]; exact hg2.1 _ (List.getElem_mem _)
  have hslice : ((rep n rs2)._vertices.drop (i * n)).take n = rs2.getD i [] := by
    show (rs2.flatten.drop (i * n)).take n = _
    rw [drop_flatten n rs2 i hg2.1, List.drop_eq_getElem_cons hi, List.flatten_cons,
      List.getD_eq_getElem _ _ hi]
    exact List.take_left' (hg2.1 _ (List.getElem_mem _))
  rw [hvc, hlen, hslice]
  exact ⟨hi, rfl, (compare_sameRecord hi' hr).mp hk.2⟩

/-- Claim C5 at the empty mesh of vertex size 3 and the position (1,2,3). -/
theorem add_index_valid_witness :
    (0 < 3 ∧ [(1065353216 : FloatBits), 1073741824, 1077936128].length = 3) ∧
    (((empty 3).addAll []).add [1065353216, 1073741824, 1077936128]).2 <
      (((empty 3).addAll []).add [1065353216, 1073741824, 1077936128]).1.vertexCount :=
  ⟨by decide, (add_index_valid 3 [] [1065353216, 1073741824, 1077936128] (by decide)
    (by decide) (by decide)).1⟩

/-- Claim C6: on a mesh built by `add`, a second `add` of the record just added
returns the same index and leaves the mesh unchanged; on the empty mesh of
vertex size 3, adding the position (1,2,3) twice gives `vertexCount() = 1`. -/
theorem add_idempotent (n : Nat) (pre : List (List FloatBits)) (r : List FloatBits)
    (hpre : ∀ x ∈ pre, x.length = n) (hr : r.length = n) :
    (((empty n).addAll pre).add r).1.add r =
        ((((empty n).addAll pre).add r).1, (((empty n).addAll pre).add r).2) ∧
      (((empty 3).add [1065353216, 1073741824, 1077936128]).1.add
        [1065353216, 1073741824, 1077936128]).1.vertexCount = 1 := by
  refine ⟨?_, by decide⟩
  obtain ⟨rs1, e1, hg1⟩ := built_rep hpre
  obtain ⟨rs2, i, e2, hg2, _, hi, hk, hfirst⟩ := add_spec hg1 hr
  rw [e1, e2]
  simp only []
  apply add_of_some
  have hlen : (rep n rs2)._hashes.length = rs2.length := by
    show (rs2.map fun r => calcHash r n).length = _
    simp
  rw [hlen]
  show findMatch (rep n rs2) r (calcHash r n) rs2.length 0 = some i
  apply findMatch_first _ _ _ (Nat.zero_le _) (by omega)
  · exact (matchAt_rep r _ hg2.1 hi).mpr hk
  · intro j _ hj hc
    exact hfirst j hj ((matchAt_rep r _ hg2.1 (by omega)).mp hc)

/-- Claim C6 at the mesh holding (0,0,0) and the position (1,2,3). -/
theorem add_idempotent_witness :
    ((∀ x ∈ [[(0 : FloatBits), 0, 0]], x.length = 3) ∧
      [(1065353216 : FloatBits), 1073741824, 1077936128].length = 3) ∧
    (((empty 3).addAll [[0, 0, 0]]).add [1065353216, 1073741824, 1077936128]).1.add
        [1065353216, 1073741824, 1077936128] =
      ((((empty 3).addAll [[0, 0, 0]]).add [1065353216, 1073741824, 1077936128]).1,
        (((empty 3).addAll [[0, 0, 0]]).add [1065353216, 1073741824, 1077936128]).2) :=
  ⟨by decide, (add_idempotent 3 [[0, 0, 0]] [1065353216, 1073741824, 1077936128] (by decide)
    (by decide)).1⟩

/-- Claim C7, as the code has it: `calcHash` is the sum modulo `2^32`, over the
`size` components, of the bit pattern with its low 8 bits masked off and then
shifted right by 8 bits. -/
theorem calcHash_eq_sum (vertex : List FloatBits) (size : Nat) :
    calcHash vertex size =
      ((List.range size).map fun i => ((vertex.getD i 0).val &&& 0xffffff00) >>> 8).sum
        % 4294967296 := by
  unfold calcHash
  rw [foldl_mod_sum (fun i => ((vertex.getD i 0).val &&& 0xffffff00) >>> 8) 4294967296 _ 0
    (by decide), Nat.zero_add]

/-- Claim C7 fails as stated: for the one-float record (1.0), pattern
0x3f800000, the masked sum is 0x3f800000 and `calcHash` returns 0x3f8000. -/
theorem calcHash_not_maskedSum :
    maskedSum [1065353216] 1 = 1065353216 ∧ calcHash [1065353216] 1 = 4161536 ∧
      calcHash [1065353216] 1 ≠ maskedSum [1065353216] 1 := by
  decide

/-- What `add` does for equal records: two records of `n` floats that are equal
under the equality rule and have the same `calcHash` get the same index from
`add`, whatever records are added before and between them. -/
theorem add_same_of_hash (n : Nat) (pre mid : List (List FloatBits)) (a b : List FloatBits)
    (hpre : ∀ r ∈ pre, r.length = n) (hmid : ∀ r ∈ mid, r.length = n)
    (ha : a.length = n) (hb : b.length = n)
    (hsame : sameRecord a b) (hhash : calcHash a n = calcHash b n) :
    (((((empty n).addAll pre).add a).1.addAll mid).add b).2 =
      (((empty n).addAll pre).add a).2 := by
  have hab : key n a b := ⟨hhash, (compare_sameRecord ha hb).mpr hsame⟩
  obtain ⟨rs1, e1, hg1⟩ := built_rep hpre
  obtain ⟨rs2, ia, e2, hg2, _, hia, hka, hfa⟩ := add_spec hg1 ha
  obtain ⟨t, e3, hg3⟩ := addAll_rep mid rs2 hg2 hmid
  obtain ⟨rs4, ib, e4, _, hor, _, hkb, hfb⟩ := add_spec hg3 hb
  rw [e1, e2]
  simp only []
  rw [e3, e4]
  simp only []
  have hget : ∀ j, j < rs2.length → rs4.getD j [] = rs2.getD j [] := by
    intro j hj
    rcases hor with h | ⟨h, _⟩
    · rw [h, List.getD_append _ _ _ _ hj]
    · rw [h, List.append_assoc, List.getD_append _ _ _ _ hj]
  rcases Nat.lt_trichotomy ib ia with h | h | h
  · have h1 : key n (rs2.getD ib []) b := by rw [← hget ib (by omega)]; exact hkb
    exact absurd (key_trans h1 (key_symm hab)) (hfa ib h)
  · exact h
  · have h1 : key n (rs4.getD ia []) b := by rw [hget ia hia]; exact key_trans hka hab
    exact absurd h1 (hfb ia h)

/-- The records (+0.0, -0.0) and (-0.0, +0.0) have the same hash and get the
same index. -/
theorem add_same_of_hash_witness :
    (sameRecord [0, 2147483648] [2147483648, 0] ∧
      calcHash [0, 2147483648] 2 = calcHash [2147483648, 0] 2) ∧
    (((((empty 2).addAll [[0, 0]]).add [0, 2147483648]).1.addAll []).add [2147483648, 0]).2 =
      (((empty 2).addAll [[0, 0]]).add [0, 2147483648]).2 :=
  ⟨by decide, add_same_of_hash 2 [[0, 0]] [] [0, 2147483648] [2147483648, 0] (by decide)
    (by decide) rfl rfl (by decide) (by decide)⟩

/-- Claim C22 fails on the code: `compare` accepts the records (+0.0) and
(-0.0), but their hashes are 0 and 0x800000, so the scan of `add` does not
match the stored (+0.0) against (-0.0). -/
theorem hash_splits_equal_records :
    compare [0] [2147483648] 1 = true ∧ calcHash [0] 1 = 0 ∧
      calcHash [2147483648] 1 = 8388608 ∧
      findMatch ((empty 1).add [0]).1 [2147483648] (calcHash [2147483648] 1) 1 0 = none := by
  decide

/-- Claim C26 fails on the code: on the mesh built from (1.0) and (2.0), `add`
of (2.0) returns 1 and leaves 2 vertices; on its copy, whose `_hashes` is
empty, `add` of (2.0) returns 0 and leaves 3 vertices. -/
theorem copy_loses_hashes :
    (((empty 1).addAll [[1065353216], [1073741824]]).add [1073741824]).2 = 1 ∧
      (((empty 1).addAll [[1065353216], [1073741824]]).add [1073741824]).1.vertexCount = 2 ∧
      (((empty 1).addAll [[1065353216], [1073741824]]).copy.add [1073741824]).2 = 0 ∧
      (((empty 1).addAll [[1065353216], [1073741824]]).copy.add [1073741824]).1.vertexCount = 3 := by
  decide

end modeldata.Mesh

namespace readers
namespace BlendBones

theorem costInner (b : BlendBones) (ws : List BlendWeight) (acc : Int) :
    ws.foldl (fun result w => if !b.has w.index then result + 1 else result) acc =
      acc + (((ws.map fun w => w.index).filter fun x => !b.has x).length : Int) := by
  induction ws generalizing acc with
  | nil => simp
  | cons w ws ih =>
    rw [List.foldl_cons, ih, List.map_cons, List.filter_cons]
    split
    · simp; omega
    · simp

theorem costOuter (b : BlendBones) (rhs : List (List BlendWeight)) (acc : Int) :
    rhs.foldl (fun result ws =>
      ws.foldl (fun result w => if !b.has w.index then result + 1 else result) result) acc =
      acc + (((demandBones rhs).filter fun x => !b.has x).length : Int) := by
  induction rhs generalizing acc with
  | nil => simp [demandBones]
  | cons ws rhs ih =>
    rw [List.foldl_cons, ih, costInner]
    simp only [demandBones, List.flatten_cons, List.map_append, List.filter_append,
      List.length_append, Nat.cast_add]
    omega

theorem costCount_eq (b : BlendBones) (rhs : List (List BlendWeight)) :
    b.costCount rhs = (((demandBones rhs).filter fun x => !b.has x).length : Int) := by
  unfold costCount
  rw [costOuter]; simp

theorem addFlat_append (b : BlendBones) (l1 l2 : List Int) :
    addFlat b (l1 ++ l2) =
      if (addFlat b l1).2 then addFlat (addFlat b l1).1 l2 else ((addFlat b l1).1, false) := by
  induction l1 generalizing b with
  | nil => simp [addFlat]
  | cons x xs ih =>
    simp only [List.cons_append, addFlat]
    split
    · simp
    · exact ih _

theorem addList_eq (b : BlendBones) (ws : List BlendWeight) :
    b.addList ws = addFlat b (ws.map fun w => w.index) := by
  induction ws generalizing b with
  | nil => rfl
  | cons w ws ih =>
    simp only [addList, List.map_cons, addFlat]
    split
    · rfl
    · exact ih _

theorem addFlat_false_snd (b : BlendBones) (l : List Int) (h : (addFlat b l).2 = false) :
    addFlat b l = ((addFlat b l).1, false) := by
  rw [← h]

theorem addWeights_eq (b : BlendBones) (rhs : List (List BlendWeight)) :
    b.addWeights rhs = addFlat b (demandBones rhs) := by
  induction rhs generalizing b with
  | nil => rfl
  | cons ws rhs ih =>
    simp only [addWeights, demandBones, List.flatten_cons, List.map_append]
    rw [addFlat_append, addList_eq]
    split
    · exact ih _
    · rfl

theorem hasLoop_iff (v : Int) (l : List Int) : hasLoop v l = true ↔ v ∈ l := by
  induction l with
  | nil => simp [hasLoop]
  | cons x xs ih =>
    unfold hasLoop
    by_cases e : x = v
    · simp [e]
    · have e' : ¬ v = x := fun h => e h.symm
      simp [e, e', ih]

theorem sizeLoop_split (p q : List Int) (i : Nat) (hp : ∀ x ∈ p, 0 ≤ x) (hq : ∀ x ∈ q, x < 0) :
    sizeLoop (p ++ q) i = i + p.length := by
  induction p generalizing i with
  | nil =>
    cases q with
    | nil => simp [sizeLoop]
    | cons y q => simp [sizeLoop, hq y (List.mem_cons_self _ _)]
  | cons x p ih =>
    have hx : ¬ x < 0 := not_lt.mpr (hp x (List.mem_cons_self _ _))
    rw [List.cons_append]
    unfold sizeLoop
    rw [if_neg hx, ih (i + 1) fun z hz => hp z (List.mem_cons_of_mem _ hz), List.length_cons]
    omega

theorem addLoop_mem (v : Int) (p q : List Int) (i : Nat) (hp : ∀ x ∈ p, 0 ≤ x) (hv : v ∈ p) :
    (addLoop v (p ++ q) i).1 = p ++ q ∧ 0 ≤ (addLoop v (p ++ q) i).2 := by
  induction p generalizing i with
  | nil => exact absurd hv (List.not_mem_nil _)
  | cons x p ih =>
    simp only [List.cons_append, addLoop]
    by_cases e : x = v
    · simp [e]
    · have hx : ¬ x < 0 := not_lt.mpr (hp x (List.mem_cons_self _ _))
      have hv' : v ∈ p := by
        rcases List.mem_cons.mp hv with h | h
        · exact absurd h.symm e
        · exact h
      have := ih (i + 1) (fun z hz => hp z (List.mem_cons_of_mem _ hz)) hv'
      simp [e, hx, this.1, this.2]

theorem addLoop_free (v : Int) (p : List Int) (y : Int) (q : List Int) (i : Nat)
    (hp : ∀ x ∈ p, 0 ≤ x) (hv : v ∉ p) (hy : y < 0) (hyv : y ≠ v) :
    addLoop v (p ++ y :: q) i = (p ++ v :: q, ((i + p.length : Nat) : Int)) := by
  induction p generalizing i with
  | nil => simp [addLoop, hy, hyv]
  | cons x p ih =>
    have hx : ¬ x < 0 := not_lt.mpr (hp x (List.mem_cons_self _ _))
    have e : ¬ x = v := fun h => hv (h ▸ List.mem_cons_self _ _)
    have := ih (i + 1) (fun z hz => hp z (List.mem_cons_of_mem _ hz))
      (fun h => hv (List.mem_cons_of_mem _ h))
    rw [List.cons_append]
    unfold addLoop
    rw [if_neg (by simpa using e), if_neg hx, this, List.length_cons]
    have e2 : i + 1 + p.length = i + (p.length + 1) := by omega
    rw [e2]
    rfl

theorem addLoop_full (v : Int) (p : List Int) (i : Nat)
    (hp : ∀ x ∈ p, 0 ≤ x) (hv : v ∉ p) : addLoop v p i = (p, -1) := by
  induction p generalizing i with
  | nil => simp [addLoop]
  | cons x p ih =>
    have hx : ¬ x < 0 := not_lt.mpr (hp x (List.mem_cons_self _ _))
    have e : ¬ x = v := fun h => hv (h ▸ List.mem_cons_self _ _)
    have := ih (i + 1) (fun z hz => hp z (List.mem_cons_of_mem _ hz))
      (fun h => hv (List.mem_cons_of_mem _ h))
    simp only [addLoop, beq_iff_eq, e, hx, if_false, this]

theorem firstOcc_filter (f : Int → Bool) (l : List Int) :
    (firstOcc l).filter f = firstOcc (l.filter f) := by
  induction l with
  | nil => rfl
  | cons a l ih =>
    by_cases h : f a = true
    · simp only [firstOcc, List.filter_cons, h, if_true]
      rw [← ih, List.filter_filter, List.filter_filter]
      congr 1
      apply List.filter_congr
      intro x _
      exact Bool.and_comm _ _
    · have h' : f a = false := by simpa using h
      simp only [firstOcc, List.filter_cons, h', Bool.false_eq_true, if_false]
      rw [← ih, List.filter_filter]
      apply List.filter_congr
      intro x _
      by_cases hx : f x = true
      · have : x ≠ a := fun e => h (e ▸ hx)
        simp [hx, this]
      · simp [hx]

theorem mem_firstOcc (l : List Int) (x : Int) : x ∈ firstOcc l ↔ x ∈ l := by
  induction l with
  | nil => simp [firstOcc]
  | cons a l ih =>
    simp only [firstOcc, List.mem_cons, List.mem_filter, ih, bne_iff_ne]
    by_cases e : x = a
    · simp [e]
    · simp [e]

theorem nodup_firstOcc (l : List Int) : (firstOcc l).Nodup := by
  induction l with
  | nil => simp [firstOcc]
  | cons a l ih =>
    simp only [firstOcc, List.nodup_cons, List.mem_filter, bne_iff_ne]
    exact ⟨fun h => h.2 rfl, ih.filter _⟩

theorem length_firstOcc (l : List Int) : (firstOcc l).length = l.toFinset.card := by
  rw [← List.toFinset_card_of_nodup (nodup_firstOcc l)]
  congr 1
  ext x
  simp [mem_firstOcc]

theorem addFlat_spec : ∀ (xs p q : List Int), (∀ x ∈ p, 0 ≤ x) → (∀ x ∈ q, x < 0) →
    (∀ x ∈ xs, 0 ≤ x) →
    ((firstOcc (xs.filter fun x => decide (x ∉ p))).length ≤ q.length →
      addFlat { _bones := p ++ q } xs =
        ({ _bones := p ++ firstOcc (xs.filter fun x => decide (x ∉ p)) ++
            q.drop (firstOcc (xs.filter fun x => decide (x ∉ p))).length }, true)) ∧
    (q.length < (firstOcc (xs.filter fun x => decide (x ∉ p))).length →
      (addFlat { _bones := p ++ q } xs).2 = false) := by
  intro xs
  induction xs with
  | nil =>
    intro p q _ _ _
    simp [addFlat, firstOcc]
  | cons x xs ih =>
    intro p q hp hq hxs
    have hx0 : 0 ≤ x := hxs x (List.mem_cons_self _ _)
    have hxs' : ∀ z ∈ xs, 0 ≤ z := fun z hz => hxs z (List.mem_cons_of_mem _ hz)
    by_cases hmem : x ∈ p
    · have hf : (List.filter (fun x => decide (x ∉ p)) (x :: xs)) =
          List.filter (fun x => decide (x ∉ p)) xs := by
        rw [List.filter_cons]; simp [hmem]
      have ha := addLoop_mem x p q 0 hp hmem
      have hstep : addFlat { _bones := p ++ q } (x :: xs) = addFlat { _bones := p ++ q } xs := by
        simp only [addFlat, add, ha.1, not_lt.mpr ha.2, if_false]
      rw [hf, hstep]
      exact ih p q hp hq hxs'
    · have hf : firstOcc (List.filter (fun x => decide (x ∉ p)) (x :: xs)) =
          x :: firstOcc (List.filter (fun z => decide (z ∉ p ++ [x])) xs) := by
        rw [List.filter_cons]
        simp only [hmem, not_false_eq_true, decide_True, if_true, firstOcc]
        rw [firstOcc_filter, List.filter_filter]
        congr 2
        apply List.filter_congr
        intro z _
        by_cases e : z = x
        · simp [e]
        · simp [e]
      cases q with
      | nil =>
        rw [hf]
        constructor
        · intro h; simp at h
        · intro _
          have := addLoop_full x p 0 hp hmem
          simp [addFlat, add, this]
      | cons y q =>
        have hy : y < 0 := hq y (List.mem_cons_self _ _)
        have hyx : y ≠ x := fun e => by omega
        have ha := addLoop_free x p y q 0 hp hmem hy hyx
        have hstep : addFlat { _bones := p ++ y :: q } (x :: xs) =
            addFlat { _bones := (p ++ [x]) ++ q } xs := by
          simp only [addFlat, add, ha]
          have : ¬ (((0 + p.length : Nat) : Int) < 0) := by omega
          simp only [this, if_false, List.append_assoc, List.singleton_append]
        have hp' : ∀ z ∈ p ++ [x], 0 ≤ z := by
          intro z hz
          rcases List.mem_append.mp hz with h | h
          · exact hp z h
          · rw [List.mem_singleton.mp h]; exact hx0
        have hq' : ∀ z ∈ q, z < 0 := fun z hz => hq z (List.mem_cons_of_mem _ hz)
        obtain ⟨i1, i2⟩ := ih (p ++ [x]) q hp' hq' hxs'
        rw [hf, hstep]
        constructor
        · intro h
          simp only [List.length_cons, Nat.add_le_add_iff_right] at h
          rw [i1 h]
          simp
        · intro h
          simp only [List.length_cons, Nat.add_lt_add_iff_right] at h
          exact i2 h

theorem addLoop_neg (v : Int) (hv : v < 0) (p q : List Int) (i : Nat)
    (hp : ∀ x ∈ p, 0 ≤ x) (hq : ∀ x ∈ q, x < 0) :
    ∃ q2, (addLoop v (p ++ q) i).1 = p ++ q2 ∧ ∀ x ∈ q2, x < 0 := by
  induction p generalizing i with
  | nil =>
    cases q with
    | nil => exact ⟨[], by simp [addLoop], fun _ h => absurd h (List.not_mem_nil _)⟩
    | cons y q =>
      by_cases e : y = v
      · exact ⟨y :: q, by simp [addLoop, e], hq⟩
      · refine ⟨v :: q, by simp [addLoop, e, hq y (List.mem_cons_self _ _)], ?_⟩
        intro x hx
        rcases List.mem_cons.mp hx with h | h
        · rw [h]; exact hv
        · exact hq x (List.mem_cons_of_mem _ h)
  | cons x p ih =>
    have hx0 : 0 ≤ x := hp x (List.mem_cons_self _ _)
    have hx : ¬ x < 0 := not_lt.mpr hx0
    have e : ¬ x = v := fun h => by omega
    obtain ⟨q2, h1, h2⟩ := ih (i + 1) (fun z hz => hp z (List.mem_cons_of_mem _ hz))
    refine ⟨q2, ?_, h2⟩
    rw [List.cons_append]
    unfold addLoop
    rw [if_neg (by simpa using e), if_neg hx]
    show x :: (addLoop v (p ++ q) (i + 1)).1 = _
    rw [h1]; rfl

theorem add_split (b : BlendBones) (v : Int) (h : ∃ p q, Split b p q) :
    ∃ p q, Split (b.add v).1 p q := by
  obtain ⟨p, q, hb, hp, hq⟩ := h
  by_cases hv : v < 0
  · obtain ⟨q2, h1, h2⟩ := addLoop_neg v hv p q 0 hp hq
    exact ⟨p, q2, by show (addLoop v b._bones 0).1 = _; rw [hb, h1], hp, h2⟩
  · have hv0 : 0 ≤ v := not_lt.mp hv
    by_cases hmem : v ∈ p
    · exact ⟨p, q, by show (addLoop v b._bones 0).1 = _; rw [hb, (addLoop_mem v p q 0 hp hmem).1],
        hp, hq⟩
    · cases q with
      | nil =>
        refine ⟨p, [], ?_, hp, hq⟩
        show (addLoop v b._bones 0).1 = _
        rw [hb, List.append_nil, addLoop_full v p 0 hp hmem]
      | cons y q =>
        have hy : y < 0 := hq y (List.mem_cons_self _ _)
        refine ⟨p ++ [v], q, ?_, ?_, fun z hz => hq z (List.mem_cons_of_mem _ hz)⟩
        · show (addLoop v b._bones 0).1 = _
          rw [hb, addLoop_free v p y q 0 hp hmem hy (fun e => by omega)]
          simp
        · intro z hz
          rcases List.mem_append.mp hz with h | h
          · exact hp z h
          · rw [List.mem_singleton.mp h]; exact hv0

theorem addFlat_split (xs : List Int) : ∀ (b : BlendBones), (∃ p q, Split b p q) →
    ∃ p q, Split (addFlat b xs).1 p q := by
  induction xs with
  | nil => intro b h; exact h
  | cons x xs ih =>
    intro b h
    unfold addFlat
    split
    · exact add_split b x h
    · exact ih _ (add_split b x h)

theorem reachable_split {b : BlendBones} (h : Reachable b) : ∃ p q, Split b p q := by
  induction h with
  | ctor capacity =>
    exact ⟨[], List.replicate capacity (-1), rfl, fun _ h => absurd h (List.not_mem_nil _),
      fun x hx => by rw [List.eq_of_mem_replicate hx]; decide⟩
  | add b v _ ih => exact add_split b v ih
  | addWeights b rhs _ ih =>
    rw [addWeights_eq]
    exact addFlat_split _ b ih

theorem split_size {b : BlendBones} {p q : List Int} (h : Split b p q) : b.size = p.length := by
  unfold size
  rw [h.1, sizeLoop_split p q 0 h.2.1 h.2.2]; omega

theorem split_available {b : BlendBones} {p q : List Int} (h : Split b p q) :
    b.available = q.length := by
  unfold available _capacity
  rw [split_size h, h.1, List.length_append]; omega

theorem split_has {b : BlendBones} {p q : List Int} (h : Split b p q) {x : Int} (hx : 0 ≤ x) :
    b.has x = true ↔ x ∈ p := by
  unfold has
  rw [hasLoop_iff, h.1, List.mem_append]
  constructor
  · rintro (h1 | h1)
    · exact h1
    · have := h.2.2 x h1; omega
  · exact Or.inl

theorem split_missing {b : BlendBones} {p q : List Int} (h : Split b p q)
    (rhs : List (List BlendWeight)) (hnn : ∀ x ∈ demandBones rhs, 0 ≤ x) :
    missing b rhs = firstOcc ((demandBones rhs).filter fun x => decide (x ∉ p)) := by
  unfold missing
  congr 1
  apply List.filter_congr
  intro x hx
  have := split_has h (hnn x hx)
  by_cases e : x ∈ p
  · simp [e, this.mpr e]
  · have : b.has x = false := by
      cases hh : b.has x
      · rfl
      · exact absurd (this.mp hh) e
    simp [e, this]

/-- Claim C10: on a slot set reached from the constructor by insertions, `add`
of a demand of non-negative identifiers returns true exactly when the distinct
identifiers it lacks fit in the free slots, and then every demanded identifier
is held and the new ones fill the slots from `size()` on in the order of their
first occurrence, the other slots being unchanged. -/
theorem addWeights_spec (b : BlendBones) (hb : Reachable b) (rhs : List (List BlendWeight))
    (hnn : ∀ x ∈ demandBones rhs, 0 ≤ x) :
    ((b.addWeights rhs).2 = true ↔ (missing b rhs).length ≤ b.available) ∧
    ((b.addWeights rhs).2 = true →
      (∀ x ∈ demandBones rhs, (b.addWeights rhs).1.has x = true) ∧
      (b.addWeights rhs).1._bones =
        b._bones.take b.size ++ missing b rhs ++
          b._bones.drop (b.size + (missing b rhs).length)) := by
  obtain ⟨p, q, hs⟩ := reachable_split hb
  have hb' : b = { _bones := p ++ q } := by cases b; simp only [mk.injEq]; exact hs.1
  obtain ⟨s1, s2⟩ := addFlat_spec (demandBones rhs) p q hs.2.1 hs.2.2 hnn
  rw [← split_missing hs rhs hnn, ← hb', ← addWeights_eq] at s1 s2
  rw [split_available hs, split_size hs]
  have hiff : (b.addWeights rhs).2 = true ↔ (missing b rhs).length ≤ q.length := by
    constructor
    · intro h
      by_contra hc
      rw [s2 (not_le.mp hc)] at h
      exact Bool.false_ne_true h
    · intro h; rw [s1 h]
  refine ⟨hiff, fun h => ?_⟩
  have hle := hiff.mp h
  rw [s1 hle]
  have hbones : b._bones.take p.length ++ missing b rhs ++
      b._bones.drop (p.length + (missing b rhs).length) =
      p ++ missing b rhs ++ q.drop (missing b rhs).length := by
    rw [hs.1, List.take_left, List.drop_append]
  refine ⟨fun x hx => ?_, hbones.symm⟩
  show hasLoop x (p ++ missing b rhs ++ q.drop (missing b rhs).length) = true
  rw [hasLoop_iff]
  by_cases e : x ∈ p
  · simp [e]
  · have : x ∈ missing b rhs := by
      rw [split_missing hs rhs hnn, mem_firstOcc, List.mem_filter]
      exact ⟨hx, by simpa using e⟩
    simp [this]

end BlendBones


theorem BlendBones.cost_eq (b : BlendBones) (rhs : List (List BlendWeight)) :
    b.cost rhs =
      (if b.available < ((BlendBones.demandBones rhs).filter fun x => !b.has x).length then -1
       else ((((BlendBones.demandBones rhs).filter fun x => !b.has x).length : Nat) : Int)) := by
  unfold BlendBones.cost
  simp only [BlendBones.costCount_eq, gt_iff_lt, Nat.cast_lt]

theorem BlendBones.cost_neg_iff (b : BlendBones) (rhs : List (List BlendWeight)) :
    b.cost rhs = -1 ↔
      b.available < ((BlendBones.demandBones rhs).filter fun x => !b.has x).length := by
  rw [BlendBones.cost_eq]
  split
  · simp [*]
  · rename_i hc
    simp only [hc, iff_false]
    omega

/-- Claim C8, as the code has it: `cost` counts every occurrence in the demand
of an identifier the slot set lacks (an identifier listed by several corners
is counted once per corner), and returns -1 exactly when that count exceeds
`available()`. -/
theorem BlendBones.cost_counts_occurrences (b : BlendBones) (rhs : List (List BlendWeight)) :
    b.cost rhs =
        (if b.available < ((BlendBones.demandBones rhs).filter fun x => !b.has x).length then -1
         else ((((BlendBones.demandBones rhs).filter fun x => !b.has x).length : Nat) : Int)) ∧
      (b.cost rhs = -1 ↔
        b.available < ((BlendBones.demandBones rhs).filter fun x => !b.has x).length) :=
  ⟨BlendBones.cost_eq b rhs, BlendBones.cost_neg_iff b rhs⟩

/-- Claim C8 fails as stated: an empty slot set of capacity 2 and a triangle
whose three corners are all weighted to bone 7 lack one distinct identifier,
which fits in the two free slots, yet `cost` returns -1. -/
theorem BlendBones.cost_not_distinct_count :
    (BlendBones.missing (BlendBones.ctor 2)
        [[⟨1065353216, 7⟩], [⟨1065353216, 7⟩], [⟨1065353216, 7⟩]]).length = 1 ∧
      (BlendBones.ctor 2).available = 2 ∧
      (BlendBones.ctor 2).cost
        [[⟨1065353216, 7⟩], [⟨1065353216, 7⟩], [⟨1065353216, 7⟩]] = -1 := by
  decide

theorem perm_three {l : List Int} (h : l.Perm [2, 4, 5]) :
    l = [2, 4, 5] ∨ l = [2, 5, 4] ∨ l = [4, 2, 5] ∨ l = [4, 5, 2] ∨ l = [5, 2, 4] ∨
      l = [5, 4, 2] := by
  have hlen := h.length_eq
  have hnd : l.Nodup := h.nodup_iff.mpr (by decide)
  match l, hlen, hnd, h with
  | [x, y, z], _, hnd, h =>
    have hx : x ∈ [2, 4, 5] := h.subset (by simp)
    have hy : y ∈ [2, 4, 5] := h.subset (by simp)
    have hz : z ∈ [2, 4, 5] := h.subset (by simp)
    simp only [List.mem_cons, List.mem_singleton, List.not_mem_nil, or_false] at hx hy hz
    simp only [List.nodup_cons, List.mem_cons, List.mem_singleton, List.not_mem_nil, or_false,
      not_or, List.nodup_nil, and_true, not_false_eq_true] at hnd
    rcases hx with rfl | rfl | rfl <;> rcases hy with rfl | rfl | rfl <;>
      rcases hz with rfl | rfl | rfl <;> simp_all

/-- Claim C9: for the slot set of capacity 4 holding bones 1, 2, 3 and any
demand whose bone identifiers are 2, 4 and 5, each once, `cost` returns -1 and
`BlendBonesCollection::add` on the collection holding only that slot set
appends a second slot set, fills it with the demand and returns 1. -/
theorem BlendBonesCollection.add_scenario (rhs : List (List BlendWeight))
    (h : (BlendBones.demandBones rhs).Perm [2, 4, 5]) :
    BlendBones.cost { _bones := [1, 2, 3, -1] } rhs = -1 ∧
      BlendBonesCollection.add { _bones := [{ _bones := [1, 2, 3, -1] }], _bonesCapacity := 4 } rhs =
        ({ _bones := [{ _bones := [1, 2, 3, -1] },
                      { _bones := BlendBones.demandBones rhs ++ [-1] }],
           _bonesCapacity := 4 }, 1) := by
  have hc : BlendBones.cost { _bones := [1, 2, 3, -1] } rhs = -1 := by
    rw [BlendBones.cost_neg_iff]
    rcases perm_three h with e | e | e | e | e | e <;> rw [e] <;> decide
  refine ⟨hc, ?_⟩
  unfold BlendBonesCollection.add
  simp only [BlendBonesCollection.pickLoop, hc]
  simp only [BlendBones.addWeights_eq]
  rcases perm_three h with e | e | e | e | e | e <;> rw [e] <;> decide

/-- The scenario of claim C9 with one corner per bone. -/
theorem BlendBonesCollection.add_scenario_witness :
    (BlendBones.demandBones [[⟨0, 2⟩], [⟨0, 4⟩], [⟨0, 5⟩]]).Perm [2, 4, 5] ∧
    (BlendBones.cost { _bones := [1, 2, 3, -1] } [[⟨0, 2⟩], [⟨0, 4⟩], [⟨0, 5⟩]] = -1 ∧
      BlendBonesCollection.add { _bones := [{ _bones := [1, 2, 3, -1] }], _bonesCapacity := 4 }
          [[⟨0, 2⟩], [⟨0, 4⟩], [⟨0, 5⟩]] =
        ({ _bones := [{ _bones := [1, 2, 3, -1] },
                      { _bones := BlendBones.demandBones [[⟨0, 2⟩], [⟨0, 4⟩], [⟨0, 5⟩]] ++ [-1] }],
           _bonesCapacity := 4 }, 1)) :=
  ⟨List.Perm.refl _, BlendBonesCollection.add_scenario [[⟨0, 2⟩], [⟨0, 4⟩], [⟨0, 5⟩]]
    (List.Perm.refl _)⟩

/-- Claim C10 at the slot set of capacity 5 holding 1, 2, 3 and the demand 2, 4, 2, 5. -/
theorem BlendBones.addWeights_spec_witness :
    BlendBones.Reachable ((((BlendBones.ctor 5).add 1).1.add 2).1.add 3).1 ∧
    (∀ x ∈ BlendBones.demandBones [[⟨0, 2⟩, ⟨0, 4⟩], [⟨0, 2⟩, ⟨0, 5⟩]], 0 ≤ x) ∧
    ((BlendBones.addWeights ((((BlendBones.ctor 5).add 1).1.add 2).1.add 3).1
        [[⟨0, 2⟩, ⟨0, 4⟩], [⟨0, 2⟩, ⟨0, 5⟩]]).2 = true ↔
      (BlendBones.missing ((((BlendBones.ctor 5).add 1).1.add 2).1.add 3).1
        [[⟨0, 2⟩, ⟨0, 4⟩], [⟨0, 2⟩, ⟨0, 5⟩]]).length ≤
        BlendBones.available ((((BlendBones.ctor 5).add 1).1.add 2).1.add 3).1) ∧
    (BlendBones.addWeights ((((BlendBones.ctor 5).add 1).1.add 2).1.add 3).1
        [[⟨0, 2⟩, ⟨0, 4⟩], [⟨0, 2⟩, ⟨0, 5⟩]]).1._bones = [1, 2, 3, 4, 5] :=
  have hr := BlendBones.Reachable.add _ 3
    (BlendBones.Reachable.add _ 2 (BlendBones.Reachable.add _ 1 (BlendBones.Reachable.ctor 5)))
  have hn : ∀ x ∈ BlendBones.demandBones [[⟨0, 2⟩, ⟨0, 4⟩], [⟨0, 2⟩, ⟨0, 5⟩]], 0 ≤ x := by decide
  ⟨hr, hn, (BlendBones.addWeights_spec _ hr _ hn).1, by decide⟩

namespace BlendBones

theorem idxLoop_nonneg_or (v : Int) (l : List Int) (i : Nat) :
    idxLoop v l i = -1 ∨ 0 ≤ idxLoop v l i := by
  induction l generalizing i with
  | nil => left; rfl
  | cons x xs ih =>
    unfold idxLoop
    split
    · right; omega
    · exact ih (i + 1)

theorem idxLoop_not_mem (v : Int) (l : List Int) (i : Nat) (h : v ∉ l) : idxLoop v l i = -1 := by
  induction l generalizing i with
  | nil => rfl
  | cons x xs ih =>
    have hx : ¬ x = v := fun e => h (e ▸ List.mem_cons_self _ _)
    unfold idxLoop
    rw [if_neg (by simpa using hx)]
    exact ih (i + 1) fun hm => h (List.mem_cons_of_mem _ hm)

theorem idxLoop_mem (v : Int) (l : List Int) (i : Nat) (h : v ∈ l) :
    ∃ k : Nat, idxLoop v l i = ((i + k : Nat) : Int) ∧ k < l.length ∧ l.getD k (-1) = v ∧
      ∀ j, j < k → l.getD j (-1) ≠ v := by
  induction l generalizing i with
  | nil => exact absurd h (List.not_mem_nil _)
  | cons x xs ih =>
    by_cases hx : x = v
    · refine ⟨0, ?_, by simp, by simp [hx], fun j hj => absurd hj (Nat.not_lt_zero j)⟩
      unfold idxLoop
      rw [if_pos (by simpa using hx)]; rfl
    · have hm : v ∈ xs := by
        rcases List.mem_cons.mp h with e | e
        · exact absurd e.symm hx
        · exact e
      obtain ⟨k, h1, h2, h3, h4⟩ := ih (i + 1) hm
      refine ⟨k + 1, ?_, by simp; omega, by simpa using h3, ?_⟩
      · unfold idxLoop
        rw [if_neg (by simpa using hx), h1]
        congr 1; omega
      · intro j hj
        cases j with
        | zero => simpa using hx
        | succ j => simpa using h4 j (by omega)

/-- Claim C12: `idx(b)` is -1 exactly when `has(b)` is false, and otherwise it
is the lowest slot index `k` below the capacity with `operator[](k) == b`. -/
theorem idx_spec (b : BlendBones) (bone : Int) :
    (b.idx bone = -1 ↔ b.has bone = false) ∧
      (b.has bone = true → ∃ k : Nat, b.idx bone = (k : Int) ∧ k < b._capacity ∧
        b.get k = bone ∧ ∀ j, j < k → b.get j ≠ bone) := by
  constructor
  · constructor
    · intro h
      by_contra hc
      have hm : bone ∈ b._bones := (hasLoop_iff _ _).mp (by simpa using hc)
      obtain ⟨k, h1, _⟩ := idxLoop_mem bone b._bones 0 hm
      unfold idx at h
      rw [h1] at h
      omega
    · intro h
      apply idxLoop_not_mem
      intro hm
      have := (hasLoop_iff _ _).mpr hm
      unfold has at h
      rw [this] at h
      exact Bool.noConfusion h
  · intro h
    obtain ⟨k, h1, h2, h3, h4⟩ := idxLoop_mem bone b._bones 0 ((hasLoop_iff _ _).mp h)
    refine ⟨k, by unfold idx; rw [h1]; congr 1; omega, h2, ?_, ?_⟩
    · unfold get _capacity
      rw [if_pos h2]; exact h3
    · intro j hj
      unfold get _capacity
      rw [if_pos (by omega)]
      exact h4 j hj

theorem add_split_prefix (b : BlendBones) (v : Int) {p q : List Int} (h : Split b p q) :
    ∃ t q2, Split (b.add v).1 (p ++ t) q2 := by
  obtain ⟨hb, hp, hq⟩ := h
  by_cases hv : v < 0
  · obtain ⟨q2, h1, h2⟩ := addLoop_neg v hv p q 0 hp hq
    exact ⟨[], q2, by show (addLoop v b._bones 0).1 = _; rw [hb, h1, List.append_nil],
      by simpa using hp, h2⟩
  · have hv0 : 0 ≤ v := not_lt.mp hv
    by_cases hmem : v ∈ p
    · exact ⟨[], q, by
        show (addLoop v b._bones 0).1 = _
        rw [hb, (addLoop_mem v p q 0 hp hmem).1, List.append_nil], by simpa using hp, hq⟩
    · cases q with
      | nil =>
        refine ⟨[], [], ?_, by simpa using hp, hq⟩
        show (addLoop v b._bones 0).1 = _
        rw [hb, List.append_nil, addLoop_full v p 0 hp hmem]
        simp
      | cons y q =>
        have hy : y < 0 := hq y (List.mem_cons_self _ _)
        refine ⟨[v], q, ?_, ?_, fun z hz => hq z (List.mem_cons_of_mem _ hz)⟩
        · show (addLoop v b._bones 0).1 = _
          rw [hb, addLoop_free v p y q 0 hp hmem hy (fun e => by omega)]
          simp
        · intro z hz
          rcases List.mem_append.mp hz with h | h
          · exact hp z h
          · rw [List.mem_singleton.mp h]; exact hv0

theorem addFlat_split_prefix (xs : List Int) :
    ∀ (b : BlendBones) (p q : List Int), Split b p q →
      ∃ t q2, Split (addFlat b xs).1 (p ++ t) q2 := by
  induction xs with
  | nil => intro b p q h; exact ⟨[], q, by simpa using h⟩
  | cons x xs ih =>
    intro b p q h
    obtain ⟨t, q2, h2⟩ := add_split_prefix b x h
    unfold addFlat
    split
    · exact ⟨t, q2, h2⟩
    · obtain ⟨t3, q3, h3⟩ := ih _ _ _ h2
      exact ⟨t ++ t3, q3, by simpa [List.append_assoc] using h3⟩

theorem idxLoop_append (bone : Int) (p r : List Int) (i : Nat) (h : bone ∈ p) :
    idxLoop bone (p ++ r) i = idxLoop bone p i := by
  induction p generalizing i with
  | nil => exact absurd h (List.not_mem_nil _)
  | cons x p ih =>
    rw [List.cons_append]
    unfold idxLoop
    by_cases hx : x = bone
    · rw [if_pos (by simpa using hx), if_pos (by simpa using hx)]
    · rw [if_neg (by simpa using hx), if_neg (by simpa using hx)]
      apply ih
      rcases List.mem_cons.mp h with e | e
      · exact absurd e.symm hx
      · exact e

theorem idx_of_split {b : BlendBones} {p q : List Int} (h : Split b p q) {bone : Int}
    (hm : bone ∈ p) : b.idx bone = idxLoop bone p 0 := by
  unfold idx
  rw [h.1, idxLoop_append bone p q 0 hm]

theorem mem_of_idx_nonneg {b : BlendBones} {p q : List Int} (h : Split b p q) {bone : Int}
    (hbone : 0 ≤ bone) (hk : 0 ≤ b.idx bone) : bone ∈ p := by
  by_contra hc
  have hnm : bone ∉ b._bones := by
    rw [h.1, List.mem_append]
    rintro (h1 | h1)
    · exact hc h1
    · have := h.2.2 bone h1; omega
  have := idxLoop_not_mem bone b._bones 0 hnm
  unfold idx at hk
  rw [this] at hk
  omega

/-- Claim C13: on a slot set reached from the constructor by insertions, a
bone (a non-negative identifier) found at slot `k` is still found at slot `k`
after any further `add` of one identifier or of a demand, whether that call
succeeds or fails. -/
theorem idx_stable (b : BlendBones) (hb : Reachable b) (bone : Int) (hbone : 0 ≤ bone)
    (k : Int) (hk : b.idx bone = k) (hk0 : 0 ≤ k) :
    (∀ v, (b.add v).1.idx bone = k) ∧ (∀ rhs, (b.addWeights rhs).1.idx bone = k) := by
  obtain ⟨p, q, hs⟩ := reachable_split hb
  have hm : bone ∈ p := mem_of_idx_nonneg hs hbone (by rw [hk]; exact hk0)
  have hk2 : idxLoop bone p 0 = k := by rw [← idx_of_split hs hm]; exact hk
  constructor
  · intro v
    obtain ⟨t, q2, h2⟩ := add_split_prefix b v hs
    rw [idx_of_split h2 (List.mem_append_left _ hm), idxLoop_append bone p t 0 hm]
    exact hk2
  · intro rhs
    obtain ⟨t, q2, h2⟩ := addFlat_split_prefix (demandBones rhs) b p q hs
    rw [addWeights_eq, idx_of_split h2 (List.mem_append_left _ hm), idxLoop_append bone p t 0 hm]
    exact hk2

/-- Claim C13 at the slot set of capacity 3 holding bone 7, then given 9 and the demand 4, 5. -/
theorem idx_stable_witness :
    (Reachable ((ctor 3).add 7).1 ∧ ((ctor 3).add 7).1.idx 7 = 0) ∧
    ((((ctor 3).add 7).1.add 9).1.idx 7 = 0 ∧
      (((ctor 3).add 7).1.addWeights [[⟨0, 4⟩], [⟨0, 5⟩]]).1.idx 7 = 0) :=
  have h := idx_stable ((ctor 3).add 7).1 (Reachable.add _ 7 (Reachable.ctor 3)) 7 (by decide) 0
    (by decide) (by decide)
  ⟨⟨Reachable.add _ 7 (Reachable.ctor 3), by decide⟩, h.1 9, h.2 [[⟨0, 4⟩], [⟨0, 5⟩]]⟩

end BlendBones

namespace BlendBones

theorem addLoop_length (v : Int) (l : List Int) (i : Nat) :
    (addLoop v l i).1.length = l.length := by
  induction l generalizing i with
  | nil => rfl
  | cons x xs ih =>
    unfold addLoop
    split
    · rfl
    · split
      · simp
      · simp [ih (i + 1)]

theorem addFlat_length (xs : List Int) (b : BlendBones) :
    (addFlat b xs).1._bones.length = b._bones.length := by
  induction xs generalizing b with
  | nil => rfl
  | cons x xs ih =>
    have h1 : (b.add x).1._bones.length = b._bones.length := addLoop_length x b._bones 0
    unfold addFlat
    split
    · exact h1
    · rw [ih, h1]

theorem length_firstOcc_le (l : List Int) : (firstOcc l).length ≤ l.length := by
  induction l with
  | nil => simp [firstOcc]
  | cons a l ih =>
    simp only [firstOcc, List.length_cons]
    have := List.length_filter_le (fun y => y != a) (firstOcc l)
    omega

theorem addFlat_fail_state : ∀ (xs p q : List Int), (∀ x ∈ p, 0 ≤ x) → (∀ x ∈ q, x < 0) →
    (∀ x ∈ xs, 0 ≤ x) →
    q.length < (firstOcc (xs.filter fun x => decide (x ∉ p))).length →
      (addFlat { _bones := p ++ q } xs).1 =
        { _bones := p ++ (firstOcc (xs.filter fun x => decide (x ∉ p))).take q.length } := by
  intro xs
  induction xs with
  | nil =>
    intro p q _ _ _ h
    simp [firstOcc] at h
  | cons x xs ih =>
    intro p q hp hq hxs hlt
    have hx0 : 0 ≤ x := hxs x (List.mem_cons_self _ _)
    have hxs' : ∀ z ∈ xs, 0 ≤ z := fun z hz => hxs z (List.mem_cons_of_mem _ hz)
    by_cases hmem : x ∈ p
    · have hf : (List.filter (fun x => decide (x ∉ p)) (x :: xs)) =
          List.filter (fun x => decide (x ∉ p)) xs := by
        rw [List.filter_cons]; simp [hmem]
      have ha := addLoop_mem x p q 0 hp hmem
      have hstep : addFlat { _bones := p ++ q } (x :: xs) = addFlat { _bones := p ++ q } xs := by
        simp only [addFlat, add, ha.1, not_lt.mpr ha.2, if_false]
      rw [hf] at hlt ⊢
      rw [hstep]
      exact ih p q hp hq hxs' hlt
    · have hf : firstOcc (List.filter (fun x => decide (x ∉ p)) (x :: xs)) =
          x :: firstOcc (List.filter (fun z => decide (z ∉ p ++ [x])) xs) := by
        rw [List.filter_cons]
        simp only [hmem, not_false_eq_true, decide_True, if_true, firstOcc]
        rw [firstOcc_filter, List.filter_filter]
        congr 2
        apply List.filter_congr
        intro z _
        by_cases e : z = x
        · simp [e]
        · simp [e]
      rw [hf] at hlt ⊢
      cases q with
      | nil =>
        have := addLoop_full x p 0 hp hmem
        simp [addFlat, add, this]
      | cons y q =>
        have hy : y < 0 := hq y (List.mem_cons_self _ _)
        have hyx : y ≠ x := fun e => by omega
        have ha := addLoop_free x p y q 0 hp hmem hy hyx
        have hstep : addFlat { _bones := p ++ y :: q } (x :: xs) =
            addFlat { _bones := (p ++ [x]) ++ q } xs := by
          simp only [addFlat, add, ha]
          have : ¬ (((0 + p.length : Nat) : Int) < 0) := by omega
          simp only [this, if_false, List.append_assoc, List.singleton_append]
        have hp' : ∀ z ∈ p ++ [x], 0 ≤ z := by
          intro z hz
          rcases List.mem_append.mp hz with h | h
          · exact hp z h
          · rw [List.mem_singleton.mp h]; exact hx0
        have hq' : ∀ z ∈ q, z < 0 := fun z hz => hq z (List.mem_cons_of_mem _ hz)
        simp only [List.length_cons, Nat.add_lt_add_iff_right] at hlt
        rw [hstep, ih (p ++ [x]) q hp' hq' hxs' hlt]
        simp

/-- On a slot set laid out as `p ++ q`, `add` of a demand of non-negative
identifiers: success test and the array left in both cases. -/
theorem addWeights_of_split {b : BlendBones} {p q : List Int} (hs : Split b p q)
    (rhs : List (List BlendWeight)) (hnn : ∀ x ∈ demandBones rhs, 0 ≤ x) :
    ((missing b rhs).length ≤ q.length →
      b.addWeights rhs =
        ({ _bones := p ++ missing b rhs ++ q.drop (missing b rhs).length }, true)) ∧
    (q.length < (missing b rhs).length →
      (b.addWeights rhs).2 = false ∧
        (b.addWeights rhs).1 = { _bones := p ++ (missing b rhs).take q.length }) := by
  have hb' : b = { _bones := p ++ q } := by cases b; simp only [mk.injEq]; exact hs.1
  obtain ⟨s1, s2⟩ := addFlat_spec (demandBones rhs) p q hs.2.1 hs.2.2 hnn
  have s3 := addFlat_fail_state (demandBones rhs) p q hs.2.1 hs.2.2 hnn
  rw [← split_missing hs rhs hnn, ← hb', ← addWeights_eq] at s1 s2 s3
  exact ⟨s1, fun h => ⟨s2 h, s3 h⟩⟩

theorem missing_ctor (capacity : Nat) (rhs : List (List BlendWeight))
    (hnn : ∀ x ∈ demandBones rhs, 0 ≤ x) :
    missing (ctor capacity) rhs = firstOcc (demandBones rhs) := by
  have hs : Split (ctor capacity) [] (List.replicate capacity (-1)) :=
    ⟨rfl, fun _ h => absurd h (List.not_mem_nil _),
      fun x hx => by rw [List.eq_of_mem_replicate hx]; decide⟩
  rw [split_missing hs rhs hnn]
  congr 1
  simp

theorem split_ctor (capacity : Nat) :
    Split (ctor capacity) [] (List.replicate capacity (-1)) :=
  ⟨rfl, fun _ h => absurd h (List.not_mem_nil _),
    fun x hx => by rw [List.eq_of_mem_replicate hx]; decide⟩

/-- A feasible cost means the distinct missing identifiers fit in the free slots. -/
theorem missing_le_of_cost {b : BlendBones} {rhs : List (List BlendWeight)}
    (h : 0 ≤ b.cost rhs) : (missing b rhs).length ≤ b.available := by
  have hc := cost_eq b rhs
  have hle : ((demandBones rhs).filter fun x => !b.has x).length ≤ b.available := by
    by_contra hcon
    rw [if_pos (not_le.mp hcon)] at hc
    omega
  exact le_trans (length_firstOcc_le _) hle

end BlendBones

namespace BlendBonesCollection

theorem pickLoop_cases (rhs : List (List BlendWeight)) :
    ∀ (bs : List BlendBones) (i : Nat) (cost idx : Int),
      pickLoop rhs bs i cost idx = idx ∨
        ∃ k, k < bs.length ∧ pickLoop rhs bs i cost idx = ((i + k : Nat) : Int) ∧
          0 ≤ (bs.getD k (BlendBones.ctor 0)).cost rhs ∧
          (bs.getD k (BlendBones.ctor 0)).cost rhs < cost := by
  intro bs
  induction bs with
  | nil => intro i cost idx; left; rfl
  | cons b bs ih =>
    intro i cost idx
    unfold pickLoop
    split
    · rename_i hc
      rcases ih (i + 1) (b.cost rhs) (i : Int) with h | ⟨k, hk, h1, h2, h3⟩
      · right
        exact ⟨0, by simp, by rw [h]; simp, by simpa using hc.1, by simpa using hc.2⟩
      · right
        refine ⟨k + 1, by simp; omega, ?_, by simpa using h2, ?_⟩
        · rw [h1]; congr 1; omega
        · have : (bs.getD k (BlendBones.ctor 0)).cost rhs < cost := lt_trans h3 hc.2
          simpa using this
    · rcases ih (i + 1) cost idx with h | ⟨k, hk, h1, h2, h3⟩
      · left; exact h
      · right
        refine ⟨k + 1, by simp; omega, ?_, by simpa using h2, by simpa using h3⟩
        rw [h1]; congr 1; omega

theorem pickLoop_none (rhs : List (List BlendWeight)) :
    ∀ (bs : List BlendBones) (i : Nat) (cost idx : Int),
      (∀ b ∈ bs, b.cost rhs < 0) → pickLoop rhs bs i cost idx = idx := by
  intro bs
  induction bs with
  | nil => intro i cost idx _; rfl
  | cons b bs ih =>
    intro i cost idx h
    have hb := h b (List.mem_cons_self _ _)
    unfold pickLoop
    rw [if_neg (fun hc => by omega)]
    exact ih (i + 1) cost idx fun x hx => h x (List.mem_cons_of_mem _ hx)

/-- The call `add` when the selection loop picked no slot set. -/
theorem add_eq_of_none (c : BlendBonesCollection) (rhs : List (List BlendWeight))
    (h : pickLoop rhs c._bones 0 (c._bonesCapacity : Int) (-1) = -1) :
    c.add rhs =
      ({ _bones := c._bones ++ [((BlendBones.ctor c._bonesCapacity).addWeights rhs).1],
         _bonesCapacity := c._bonesCapacity },
        if ((BlendBones.ctor c._bonesCapacity).addWeights rhs).2 then (c._bones.length : Int)
        else -1) := by
  unfold add
  simp only [h]
  simp

/-- The call `add` when the selection loop picked the slot set `k`. -/
theorem add_eq_of_picked (c : BlendBonesCollection) (rhs : List (List BlendWeight)) (k : Nat)
    (h : pickLoop rhs c._bones 0 (c._bonesCapacity : Int) (-1) = (k : Int)) :
    c.add rhs =
      ({ _bones := c._bones.set k ((c._bones.getD k (BlendBones.ctor 0)).addWeights rhs).1,
         _bonesCapacity := c._bonesCapacity },
        if ((c._bones.getD k (BlendBones.ctor 0)).addWeights rhs).2 then (k : Int) else -1) := by
  unfold add
  simp only [h]
  have : ¬ ((k : Int) < 0) := by omega
  simp [this]

theorem wf_ctor (bonesCapacity : Nat) : WF (ctor bonesCapacity) := by
  intro b hb
  exact absurd hb (List.not_mem_nil _)

/-- What `add` does on a well-formed collection for a demand of non-negative
identifiers: either it picked a feasible slot set `k`, filled it and returned
`k`, or it appended a slot set, which is filled with the distinct demanded
identifiers when they fit and with the first `capacity` of them, returning -1,
when they do not. -/
theorem add_cases (c : BlendBonesCollection) (hc : WF c) (rhs : List (List BlendWeight))
    (hnn : ∀ x ∈ BlendBones.demandBones rhs, 0 ≤ x) :
    (∃ k, k < c._bones.length ∧ 0 ≤ (c._bones.getD k (BlendBones.ctor 0)).cost rhs ∧
        ((c._bones.getD k (BlendBones.ctor 0)).addWeights rhs).2 = true ∧
        c.add rhs =
          ({ _bones := c._bones.set k ((c._bones.getD k (BlendBones.ctor 0)).addWeights rhs).1,
             _bonesCapacity := c._bonesCapacity }, (k : Int))) ∨
      (pickLoop rhs c._bones 0 (c._bonesCapacity : Int) (-1) = -1 ∧
        ((BlendBones.firstOcc (BlendBones.demandBones rhs)).length ≤ c._bonesCapacity →
          c.add rhs =
            ({ _bones := c._bones ++
                [{ _bones := BlendBones.firstOcc (BlendBones.demandBones rhs) ++
                    List.replicate
                      (c._bonesCapacity - (BlendBones.firstOcc (BlendBones.demandBones rhs)).length)
                      (-1) }],
               _bonesCapacity := c._bonesCapacity }, (c._bones.length : Int))) ∧
        (c._bonesCapacity < (BlendBones.firstOcc (BlendBones.demandBones rhs)).length →
          c.add rhs =
            ({ _bones := c._bones ++
                [{ _bones := (BlendBones.firstOcc (BlendBones.demandBones rhs)).take
                    c._bonesCapacity }],
               _bonesCapacity := c._bonesCapacity }, -1))) := by
  rcases pickLoop_cases rhs c._bones 0 (c._bonesCapacity : Int) (-1) with h | ⟨k, hk, h1, h2, _⟩
  · right
    refine ⟨h, ?_, ?_⟩
    · intro hle
      have hs := BlendBones.split_ctor c._bonesCapacity
      have hm := BlendBones.missing_ctor c._bonesCapacity rhs hnn
      have := (BlendBones.addWeights_of_split hs rhs hnn).1
        (by rw [hm, List.length_replicate]; exact hle)
      rw [add_eq_of_none c rhs h, this, hm]
      simp
    · intro hlt
      have hs := BlendBones.split_ctor c._bonesCapacity
      have hm := BlendBones.missing_ctor c._bonesCapacity rhs hnn
      have := (BlendBones.addWeights_of_split hs rhs hnn).2
        (by rw [hm, List.length_replicate]; exact hlt)
      rw [add_eq_of_none c rhs h, this.1, this.2, hm]
      simp
  · left
    have h1' : pickLoop rhs c._bones 0 (c._bonesCapacity : Int) (-1) = (k : Int) := by
      rw [h1]; congr 1; omega
    have hmem : c._bones.getD k (BlendBones.ctor 0) ∈ c._bones := by
      rw [List.getD_eq_getElem _ _ hk]; exact List.getElem_mem _
    obtain ⟨_, p, q, hs⟩ := hc _ hmem
    have hle := BlendBones.missing_le_of_cost h2
    rw [BlendBones.split_available hs] at hle
    have hok := (BlendBones.addWeights_of_split hs rhs hnn).1 hle
    have hok2 : ((c._bones.getD k (BlendBones.ctor 0)).addWeights rhs).2 = true := by rw [hok]
    refine ⟨k, hk, h2, hok2, ?_⟩
    rw [add_eq_of_picked c rhs k h1', hok2]
    simp

theorem wf_add (c : BlendBonesCollection) (hc : WF c) (rhs : List (List BlendWeight)) :
    WF (c.add rhs).1 := by
  have hcap : (c.add rhs).1._bonesCapacity = c._bonesCapacity := rfl
  have hnew : ∀ b : BlendBones, (b._bones.length = c._bonesCapacity ∧ ∃ p q, BlendBones.Split b p q) →
      ((b.addWeights rhs).1._bones.length = c._bonesCapacity ∧
        ∃ p q, BlendBones.Split (b.addWeights rhs).1 p q) := by
    intro b hb
    rw [BlendBones.addWeights_eq]
    exact ⟨by rw [BlendBones.addFlat_length]; exact hb.1, BlendBones.addFlat_split _ b hb.2⟩
  intro b hb
  rw [hcap]
  rcases pickLoop_cases rhs c._bones 0 (c._bonesCapacity : Int) (-1) with h | ⟨k, hk, h1, _, _⟩
  · rw [add_eq_of_none c rhs h] at hb
    rcases List.mem_append.mp hb with h2 | h2
    · exact hc b h2
    · rw [List.mem_singleton.mp h2]
      exact hnew _ ⟨by simp [BlendBones.ctor], _, _, BlendBones.split_ctor _⟩
  · have h1' : pickLoop rhs c._bones 0 (c._bonesCapacity : Int) (-1) = (k : Int) := by
      rw [h1]; congr 1; omega
    rw [add_eq_of_picked c rhs k h1'] at hb
    rcases List.mem_or_eq_of_mem_set hb with h2 | h2
    · exact hc b h2
    · rw [h2]
      apply hnew
      apply hc
      rw [List.getD_eq_getElem _ _ hk]; exact List.getElem_mem _

theorem wf_of_reachable {c : BlendBonesCollection} (h : Reachable c) : WF c := by
  induction h with
  | ctor bonesCapacity => exact wf_ctor bonesCapacity
  | add c rhs _ ih => exact wf_add c ih rhs

end BlendBonesCollection

namespace BlendBonesCollection

/-- Claim C11 fails as stated: on the empty collection of capacity 2 the demand
1, 2, 3 makes `add` return -1, and the slot set the failed `BlendBones::add`
was called on, empty before the call, is left holding 1 and 2. -/
theorem add_failure_leaves_bones :
    BlendBones.ctor 2 = { _bones := [-1, -1] } ∧
      (add (ctor 2) [[⟨0, 1⟩], [⟨0, 2⟩], [⟨0, 3⟩]]).2 = -1 ∧
      (add (ctor 2) [[⟨0, 1⟩], [⟨0, 2⟩], [⟨0, 3⟩]]).1._bones = [{ _bones := [1, 2] }] := by
  decide

/-- Claim C11, as the code has it: on a collection reached from the constructor
by `add`, when `add` of a demand of non-negative identifiers returns -1 the
failed insertion was made on the slot set appended by this call; every slot set
that existed before is unchanged, and the appended one is left filled with the
first `capacity` distinct identifiers of the demand. -/
theorem add_failure_spec (c : BlendBonesCollection) (hc : Reachable c)
    (rhs : List (List BlendWeight)) (hnn : ∀ x ∈ BlendBones.demandBones rhs, 0 ≤ x)
    (hfail : (c.add rhs).2 = -1) :
    c._bonesCapacity < (BlendBones.firstOcc (BlendBones.demandBones rhs)).length ∧
      (c.add rhs).1 =
        { _bones := c._bones ++
            [{ _bones := (BlendBones.firstOcc (BlendBones.demandBones rhs)).take
                c._bonesCapacity }],
          _bonesCapacity := c._bonesCapacity } := by
  rcases add_cases c (wf_of_reachable hc) rhs hnn with ⟨k, _, _, _, h⟩ | ⟨_, h1, h2⟩
  · rw [h] at hfail
    simp only at hfail
    omega
  · by_cases hle : (BlendBones.firstOcc (BlendBones.demandBones rhs)).length ≤ c._bonesCapacity
    · rw [h1 hle] at hfail
      simp only at hfail
      omega
    · rw [h2 (not_le.mp hle)]
      exact ⟨not_le.mp hle, rfl⟩

/-- Claim C11 as amended, at the collection of capacity 2 holding the slot set
(1, 2) and the demand 3, 4, 5. -/
theorem add_failure_spec_witness :
    (Reachable ((ctor 2).add [[⟨0, 1⟩], [⟨0, 2⟩]]).1 ∧
      (∀ x ∈ BlendBones.demandBones [[⟨0, 3⟩], [⟨0, 4⟩], [⟨0, 5⟩]], 0 ≤ x) ∧
      (add ((ctor 2).add [[⟨0, 1⟩], [⟨0, 2⟩]]).1 [[⟨0, 3⟩], [⟨0, 4⟩], [⟨0, 5⟩]]).2 = -1) ∧
    (add ((ctor 2).add [[⟨0, 1⟩], [⟨0, 2⟩]]).1 [[⟨0, 3⟩], [⟨0, 4⟩], [⟨0, 5⟩]]).1 =
      { _bones := ((ctor 2).add [[⟨0, 1⟩], [⟨0, 2⟩]]).1._bones ++
          [{ _bones := (BlendBones.firstOcc
              (BlendBones.demandBones [[⟨0, 3⟩], [⟨0, 4⟩], [⟨0, 5⟩]])).take
                ((ctor 2).add [[⟨0, 1⟩], [⟨0, 2⟩]]).1._bonesCapacity }],
        _bonesCapacity := ((ctor 2).add [[⟨0, 1⟩], [⟨0, 2⟩]]).1._bonesCapacity } :=
  ⟨⟨Reachable.add _ _ (Reachable.ctor 2), by decide, by decide⟩,
    (add_failure_spec _ (Reachable.add _ _ (Reachable.ctor 2)) _ (by decide) (by decide)).2⟩

/-- Claim C14 fails on the code: the collection of capacity 2 reached by adding
a polygon without weights holds one empty slot set, whose cost for the demand
1, 2 is 2, hence feasible; `add` does not use it but appends a second slot
set and returns 1. -/
theorem add_skips_feasible_empty :
    ((ctor 2).add [[], [], []]).1 = { _bones := [{ _bones := [-1, -1] }], _bonesCapacity := 2 } ∧
      BlendBones.cost { _bones := [-1, -1] } [[⟨0, 1⟩], [⟨0, 2⟩], []] = 2 ∧
      add ((ctor 2).add [[], [], []]).1 [[⟨0, 1⟩], [⟨0, 2⟩], []] =
        ({ _bones := [{ _bones := [-1, -1] }, { _bones := [1, 2] }], _bonesCapacity := 2 }, 1) := by
  decide

theorem capacity_of_reachable {c : BlendBonesCollection} (h : Reachable c) :
    ∀ b ∈ c._bones, b._bones.length = c._bonesCapacity :=
  fun b hb => (wf_of_reachable h b hb).1

/-- On a collection reached from the constructor, `add` of a demand whose
distinct non-negative identifiers fit the capacity returns a slot-set index. -/
theorem add_nonneg_of_fit (c : BlendBonesCollection) (hc : Reachable c)
    (rhs : List (List BlendWeight)) (hnn : ∀ x ∈ BlendBones.demandBones rhs, 0 ≤ x)
    (hfit : (BlendBones.demandBones rhs).toFinset.card ≤ c._bonesCapacity) :
    0 ≤ (c.add rhs).2 := by
  rw [← BlendBones.length_firstOcc] at hfit
  rcases add_cases c (wf_of_reachable hc) rhs hnn with ⟨k, hk, _, _, h⟩ | ⟨_, h1, _⟩
  · rw [h]; simp only []; omega
  · rw [h1 hfit]; simp only []; omega

/-- Claim C15: on a collection reached from the constructor by `add`, `add` of
a demand of non-negative identifiers with at most `capacity` distinct
identifiers succeeds: the result is a slot-set index, at least 0 and below the
new size, and not -1. -/
theorem add_feasible (c : BlendBonesCollection) (hc : Reachable c)
    (rhs : List (List BlendWeight)) (hnn : ∀ x ∈ BlendBones.demandBones rhs, 0 ≤ x)
    (hfit : (BlendBones.demandBones rhs).toFinset.card ≤ c._bonesCapacity) :
    0 ≤ (c.add rhs).2 ∧ (c.add rhs).2 < ((c.add rhs).1.size : Int) ∧ (c.add rhs).2 ≠ -1 := by
  rw [← BlendBones.length_firstOcc] at hfit
  rcases add_cases c (wf_of_reachable hc) rhs hnn with ⟨k, hk, _, _, h⟩ | ⟨_, h1, _⟩
  · rw [h]
    simp only [size, List.length_set]
    omega
  · rw [h1 hfit]
    simp only [size, List.length_append, List.length_singleton]
    omega

/-- Claim C15 at the collection of capacity 2 holding the slot set (1, 2) and the demand 2, 3. -/
theorem add_feasible_witness :
    (Reachable ((ctor 2).add [[⟨0, 1⟩], [⟨0, 2⟩]]).1 ∧
      (BlendBones.demandBones [[⟨0, 2⟩], [⟨0, 3⟩]]).toFinset.card ≤
        ((ctor 2).add [[⟨0, 1⟩], [⟨0, 2⟩]]).1._bonesCapacity) ∧
    (add ((ctor 2).add [[⟨0, 1⟩], [⟨0, 2⟩]]).1 [[⟨0, 2⟩], [⟨0, 3⟩]]).2 ≠ -1 :=
  ⟨⟨Reachable.add _ _ (Reachable.ctor 2), by decide⟩,
    (add_feasible _ (Reachable.add _ _ (Reachable.ctor 2)) _ (by decide) (by decide)).2.2⟩

end BlendBonesCollection

namespace BlendBones

/-- A slot set of capacity `cap` cannot take a demand with more than `cap`
distinct non-negative identifiers: `cost` is -1. -/
theorem cost_of_overflow {b : BlendBones} {p q : List Int} (hs : Split b p q) {cap : Nat}
    (hlen : b._bones.length = cap) (rhs : List (List BlendWeight))
    (hnn : ∀ x ∈ demandBones rhs, 0 ≤ x) (hD : cap < (firstOcc (demandBones rhs)).length) :
    b.cost rhs = -1 := by
  rw [cost_neg_iff, split_available hs]
  have hcap : p.length + q.length = cap := by rw [← hlen, hs.1, List.length_append]
  have hm : missing b rhs = (firstOcc (demandBones rhs)).filter fun x => decide (x ∉ p) := by
    rw [split_missing hs rhs hnn, firstOcc_filter]
  have hsum := List.length_eq_length_filter_add (l := firstOcc (demandBones rhs))
    (fun x => decide (x ∉ p))
  have hin : ((firstOcc (demandBones rhs)).filter fun x => !decide (x ∉ p)).length ≤ p.length := by
    apply List.Subperm.length_le
    apply List.subperm_of_subset ((nodup_firstOcc _).filter _)
    intro x hx
    have := (List.mem_filter.mp hx).2
    simpa using this
  have hml : q.length < (missing b rhs).length := by rw [hm]; omega
  exact lt_of_lt_of_le hml (length_firstOcc_le _)

end BlendBones

namespace BlendBonesCollection

/-- On a collection reached from the constructor, `add` of a demand with more
distinct non-negative identifiers than the capacity returns -1. -/
theorem add_of_overflow (c : BlendBonesCollection) (hc : Reachable c)
    (rhs : List (List BlendWeight)) (hnn : ∀ x ∈ BlendBones.demandBones rhs, 0 ≤ x)
    (hD : c._bonesCapacity < (BlendBones.demandBones rhs).toFinset.card) :
    (c.add rhs).2 = -1 := by
  rw [← BlendBones.length_firstOcc] at hD
  rcases add_cases c (wf_of_reachable hc) rhs hnn with ⟨k, hk, h0, _, _⟩ | ⟨_, _, h2⟩
  · have hmem : c._bones.getD k (BlendBones.ctor 0) ∈ c._bones := by
      rw [List.getD_eq_getElem _ _ hk]; exact List.getElem_mem _
    obtain ⟨hl, p, q, hs⟩ := wf_of_reachable hc _ hmem
    have := BlendBones.cost_of_overflow hs hl rhs hnn hD
    omega
  · rw [h2 hD]

theorem capacity_add (c : BlendBonesCollection) (rhs : List (List BlendWeight)) :
    (c.add rhs).1._bonesCapacity = c._bonesCapacity := rfl

end BlendBonesCollection

namespace FbxMeshInfo

theorem partOf_eq_neg_one_iff (mesh : FbxMesh) (count : Int) (poly : Nat) :
    partOf mesh count poly = -1 ↔ (polyMaterial mesh poly < 0 ∨ polyMaterial mesh poly ≥ count) := by
  unfold partOf
  split
  · rename_i h; simp [h]
  · rename_i h
    constructor
    · intro e; left; omega
    · intro h2; exact absurd h2 h

theorem plansParts_partsStep (mesh : FbxMesh) : PlansParts mesh (partsStep mesh) := by
  intro info poly
  unfold partsStep partOf
  simp only []
  split
  · rename_i h
    simp [h]
  · rename_i h
    have : polyMaterial mesh poly ≠ -1 := fun e => h (Or.inl (by omega))
    simp [h, this]

theorem plansParts_partsAndBonesStep (mesh : FbxMesh) :
    PlansParts mesh (partsAndBonesStep mesh) := by
  intro info poly
  unfold partsAndBonesStep partOf
  simp only []
  split
  · rename_i h
    simp [h]
  · rename_i h
    have : polyMaterial mesh poly ≠ -1 := fun e => h (Or.inl (by omega))
    simp [h, this]

theorem foldl_count {mesh : FbxMesh} {f : FbxMeshInfo → Nat → FbxMeshInfo}
    (hf : PlansParts mesh f) (l : List Nat) :
    ∀ info, (l.foldl f info)._meshPartCount = info._meshPartCount := by
  induction l with
  | nil => intro info; rfl
  | cons q l ih => intro info; rw [List.foldl_cons, ih, (hf info q).1]

theorem foldl_map_length {mesh : FbxMesh} {f : FbxMeshInfo → Nat → FbxMeshInfo}
    (hf : PlansParts mesh f) (l : List Nat) :
    ∀ info, (l.foldl f info)._polyPartMap.length = info._polyPartMap.length := by
  induction l with
  | nil => intro info; rfl
  | cons q l ih => intro info; rw [List.foldl_cons, ih, (hf info q).2.1, List.length_set]

theorem foldl_map_not_mem {mesh : FbxMesh} {f : FbxMeshInfo → Nat → FbxMeshInfo}
    (hf : PlansParts mesh f) (l : List Nat) (p : Nat) (hp : p ∉ l) :
    ∀ info, (l.foldl f info)._polyPartMap[p]? = info._polyPartMap[p]? := by
  induction l with
  | nil => intro info; rfl
  | cons q l ih =>
    intro info
    have hq : q ≠ p := fun e => hp (e ▸ List.mem_cons_self _ _)
    rw [List.foldl_cons, ih (fun h => hp (List.mem_cons_of_mem _ h)), (hf info q).2.1,
      List.getElem?_set_ne hq]

theorem foldl_map_mem {mesh : FbxMesh} {f : FbxMeshInfo → Nat → FbxMeshInfo}
    (hf : PlansParts mesh f) (l : List Nat) (p : Nat) (hp : p ∈ l) :
    ∀ info, p < info._polyPartMap.length →
      (l.foldl f info)._polyPartMap[p]? = some (partOf mesh info._meshPartCount p) := by
  induction l with
  | nil => exact absurd hp (List.not_mem_nil _)
  | cons q l ih =>
    intro info hlen
    rw [List.foldl_cons]
    by_cases hl : p ∈ l
    · rw [ih hl (f info q) (by rw [(hf info q).2.1, List.length_set]; exact hlen), (hf info q).1]
    · have hq : p = q := by
        rcases List.mem_cons.mp hp with e | e
        · exact e
        · exact absurd e hl
      subst hq
      rw [foldl_map_not_mem hf l p hl, (hf info p).2.1, List.getElem?_set_self hlen]

theorem foldl_log {mesh : FbxMesh} {f : FbxMeshInfo → Nat → FbxMeshInfo}
    (hf : PlansParts mesh f) (l : List Nat) :
    ∀ info, (l.foldl f info).log = info.log ++
      (l.filter fun p => decide (partOf mesh info._meshPartCount p = -1)).map
        Warning.wSourceConvertFbxNoPolyPart := by
  induction l with
  | nil => intro info; simp
  | cons q l ih =>
    intro info
    rw [List.foldl_cons, ih, (hf info q).1, (hf info q).2.2, List.filter_cons]
    by_cases h : partOf mesh info._meshPartCount q = -1
    · simp [h]
    · simp [h]

theorem mem_log_iff (count : Int) (mesh : FbxMesh) (l : List Nat) (log0 : List Warning) (p : Nat) :
    Warning.wSourceConvertFbxNoPolyPart p ∈ log0 ++
      (l.filter fun p => decide (partOf mesh count p = -1)).map
        Warning.wSourceConvertFbxNoPolyPart ↔
    Warning.wSourceConvertFbxNoPolyPart p ∈ log0 ∨ (p ∈ l ∧ partOf mesh count p = -1) := by
  simp [List.mem_append, List.mem_map, List.mem_filter]

theorem materialLoop_spec (mesh : FbxMesh) (poly : Nat) :
    ∀ (k i : Nat) (mp : Int), mp < 0 →
      (∃ j, j < k ∧ 0 ≤ mesh.materialIndex (i + j) poly ∧
          (∀ j2, j2 < j → mesh.materialIndex (i + j2) poly < 0) ∧
          materialLoop mesh poly k i mp = mesh.materialIndex (i + j) poly) ∨
        ((∀ j, j < k → mesh.materialIndex (i + j) poly < 0) ∧
          materialLoop mesh poly k i mp < 0) := by
  intro k
  induction k with
  | zero =>
    intro i mp hmp
    right
    exact ⟨fun j hj => absurd hj (Nat.not_lt_zero j), hmp⟩
  | succ k ih =>
    intro i mp hmp
    unfold materialLoop
    rw [if_pos hmp]
    by_cases h0 : mesh.materialIndex i poly < 0
    · rcases ih (i + 1) _ h0 with ⟨j, hj, h1, h2, h3⟩ | ⟨h1, h2⟩
      · left
        refine ⟨j + 1, by omega, ?_, ?_, ?_⟩
        · rw [show i + (j + 1) = i + 1 + j by omega]; exact h1
        · intro j2 hj2
          cases j2 with
          | zero => exact h0
          | succ j2 => rw [show i + (j2 + 1) = i + 1 + j2 by omega]; exact h2 j2 (by omega)
        · rw [h3, show i + (j + 1) = i + 1 + j by omega]
      · right
        refine ⟨fun j hj => ?_, h2⟩
        cases j with
        | zero => exact h0
        | succ j => rw [show i + (j + 1) = i + 1 + j by omega]; exact h1 j (by omega)
    · left
      refine ⟨0, by omega, not_lt.mp h0, fun j2 hj2 => absurd hj2 (Nat.not_lt_zero j2), ?_⟩
      cases k with
      | zero => rfl
      | succ k => unfold materialLoop; rw [if_neg h0]; rfl

end FbxMeshInfo

namespace FbxMeshInfo

theorem mem_range_of_lt {p n : Nat} (h : p < n) : p ∈ List.range n := List.mem_range.mpr h

theorem polyMaterial_of_no_material (mesh : FbxMesh) (h0 : mesh.GetElementMaterialCount = 0)
    (poly : Nat) : polyMaterial mesh poly = -1 := by
  unfold polyMaterial
  rw [h0]
  rfl

theorem foldl_count_no_material (mesh : FbxMesh) (h0 : mesh.GetElementMaterialCount = 0)
    (l : List Nat) :
    l.foldl (fun mpc poly =>
      if polyMaterial mesh poly ≥ mpc then wrapInt (polyMaterial mesh poly + 1) else mpc)
        (0 : Int) = 0 := by
  induction l with
  | nil => rfl
  | cons q l ih =>
    rw [List.foldl_cons, polyMaterial_of_no_material mesh h0 q]
    rw [if_neg (by decide)]
    exact ih

/-- Claim C17 fails as stated: for the mesh of two triangles and no material
element the part count is 1, but `fetchMeshParts` and `fetchMeshPartsAndBones`
write the no-part value -1, not 0, to `_polyPartMap` for both polygons. -/
theorem no_material_not_part_zero :
    calcMeshPartCount FbxMesh.noMaterial = 1 ∧
      (fetchMeshParts FbxMesh.noMaterial (init FbxMesh.noMaterial 8 []))._polyPartMap =
        [-1, -1] ∧
      (fetchMeshPartsAndBones FbxMesh.noMaterial
        (init FbxMesh.noMaterial 8 [[], [], []]))._polyPartMap = [-1, -1] := by
  decide

/-- Claim C17, as the code has it: when the mesh declares no material element,
`calcMeshPartCount` returns 1, and `fetchMeshParts` and
`fetchMeshPartsAndBones` write the no-part value -1 to `_polyPartMap[poly]` and
log the no-part warning for every polygon: the one part holds no polygon. -/
theorem no_material_no_part (mesh : FbxMesh) (h0 : mesh.GetElementMaterialCount = 0)
    (info : FbxMeshInfo) (hlen : info._polyPartMap.length = mesh.GetPolygonCount) :
    calcMeshPartCount mesh = 1 ∧
      ∀ poly, poly < mesh.GetPolygonCount →
        (fetchMeshParts mesh info)._polyPartMap[poly]? = some (-1) ∧
        Warning.wSourceConvertFbxNoPolyPart poly ∈ (fetchMeshParts mesh info).log ∧
        (fetchMeshPartsAndBones mesh info)._polyPartMap[poly]? = some (-1) ∧
        Warning.wSourceConvertFbxNoPolyPart poly ∈ (fetchMeshPartsAndBones mesh info).log := by
  constructor
  · unfold calcMeshPartCount
    simp only [foldl_count_no_material mesh h0]
    rfl
  · intro poly hpoly
    have hpart : partOf mesh info._meshPartCount poly = -1 :=
      (partOf_eq_neg_one_iff _ _ _).mpr (Or.inl (by rw [polyMaterial_of_no_material mesh h0]; decide))
    have hmem := mem_range_of_lt hpoly
    have hlt : poly < info._polyPartMap.length := by rw [hlen]; exact hpoly
    refine ⟨?_, ?_, ?_, ?_⟩
    · unfold fetchMeshParts
      rw [foldl_map_mem (plansParts_partsStep mesh) _ poly hmem info hlt, hpart]
    · unfold fetchMeshParts
      rw [foldl_log (plansParts_partsStep mesh), mem_log_iff]
      exact Or.inr ⟨hmem, hpart⟩
    · unfold fetchMeshPartsAndBones
      rw [foldl_map_mem (plansParts_partsAndBonesStep mesh) _ poly hmem info hlt, hpart]
    · unfold fetchMeshPartsAndBones
      rw [foldl_log (plansParts_partsAndBonesStep mesh), mem_log_iff]
      exact Or.inr ⟨hmem, hpart⟩

/-- Claim C17 as amended, at the mesh of two triangles and no material element. -/
theorem no_material_no_part_witness :
    (FbxMesh.noMaterial.GetElementMaterialCount = 0 ∧
      (init FbxMesh.noMaterial 8 [])._polyPartMap.length = FbxMesh.noMaterial.GetPolygonCount) ∧
    calcMeshPartCount FbxMesh.noMaterial = 1 ∧
    (fetchMeshParts FbxMesh.noMaterial (init FbxMesh.noMaterial 8 []))._polyPartMap[1]? =
      some (-1) :=
  have h := no_material_no_part FbxMesh.noMaterial rfl (init FbxMesh.noMaterial 8 []) (by decide)
  ⟨⟨rfl, by decide⟩, h.1, (h.2 1 (by decide)).1⟩

/-- Claim C18: for every polygon, `fetchMeshParts` takes the material index
from the first material element whose index for the polygon is non-negative
(a negative value when there is none); when that index is negative or not
below the part count it writes -1 to `_polyPartMap[poly]` and logs the no-part
warning, otherwise it writes the index and logs nothing for the polygon; every
polygon of the mesh is treated so. -/
theorem fetchMeshParts_spec (mesh : FbxMesh) (info : FbxMeshInfo)
    (hlen : info._polyPartMap.length = mesh.GetPolygonCount)
    (poly : Nat) (hpoly : poly < mesh.GetPolygonCount) :
    ((∃ i, i < mesh.GetElementMaterialCount ∧ 0 ≤ mesh.materialIndex i poly ∧
          (∀ j, j < i → mesh.materialIndex j poly < 0) ∧
          polyMaterial mesh poly = mesh.materialIndex i poly) ∨
        ((∀ i, i < mesh.GetElementMaterialCount → mesh.materialIndex i poly < 0) ∧
          polyMaterial mesh poly < 0)) ∧
      ((polyMaterial mesh poly < 0 ∨ polyMaterial mesh poly ≥ info._meshPartCount) →
        (fetchMeshParts mesh info)._polyPartMap[poly]? = some (-1) ∧
        Warning.wSourceConvertFbxNoPolyPart poly ∈ (fetchMeshParts mesh info).log) ∧
      (¬ (polyMaterial mesh poly < 0 ∨ polyMaterial mesh poly ≥ info._meshPartCount) →
        (fetchMeshParts mesh info)._polyPartMap[poly]? = some (polyMaterial mesh poly) ∧
        (Warning.wSourceConvertFbxNoPolyPart poly ∈ (fetchMeshParts mesh info).log →
          Warning.wSourceConvertFbxNoPolyPart poly ∈ info.log)) := by
  have hmem := mem_range_of_lt hpoly
  have hlt : poly < info._polyPartMap.length := by rw [hlen]; exact hpoly
  have hmap : (fetchMeshParts mesh info)._polyPartMap[poly]? =
      some (partOf mesh info._meshPartCount poly) := by
    unfold fetchMeshParts
    exact foldl_map_mem (plansParts_partsStep mesh) _ poly hmem info hlt
  have hlog : Warning.wSourceConvertFbxNoPolyPart poly ∈ (fetchMeshParts mesh info).log ↔
      Warning.wSourceConvertFbxNoPolyPart poly ∈ info.log ∨
        (poly ∈ List.range mesh.GetPolygonCount ∧ partOf mesh info._meshPartCount poly = -1) := by
    unfold fetchMeshParts
    rw [foldl_log (plansParts_partsStep mesh), mem_log_iff]
  refine ⟨?_, ?_, ?_⟩
  · have := materialLoop_spec mesh poly mesh.GetElementMaterialCount 0 (-1) (by decide)
    simpa [polyMaterial] using this
  · intro h
    have hp := (partOf_eq_neg_one_iff mesh info._meshPartCount poly).mpr h
    exact ⟨by rw [hmap, hp], hlog.mpr (Or.inr ⟨hmem, hp⟩)⟩
  · intro h
    have hp : partOf mesh info._meshPartCount poly = polyMaterial mesh poly := by
      unfold partOf; rw [if_neg h]
    refine ⟨by rw [hmap, hp], fun hw => ?_⟩
    rcases hlog.mp hw with h1 | ⟨_, h2⟩
    · exact h1
    · exact absurd ((partOf_eq_neg_one_iff _ _ _).mp h2) h

end FbxMeshInfo

namespace FbxMeshInfo

theorem planned_init (mesh : FbxMesh) (cap : Nat) (pbw : List (List BlendWeight)) :
    Planned mesh cap pbw (init mesh cap pbw) := by
  refine ⟨rfl, by simp [init], ?_, by simp [init], by simp [init]⟩
  intro c hc
  have := List.eq_of_mem_replicate hc
  rw [this]
  exact ⟨BlendBonesCollection.Reachable.ctor cap, rfl⟩

theorem step_of_noPart (mesh : FbxMesh) (info : FbxMeshInfo) (poly : Nat)
    (h : polyMaterial mesh poly < 0 ∨ polyMaterial mesh poly ≥ info._meshPartCount) :
    partsAndBonesStep mesh info poly =
      { info with
        _polyPartMap := info._polyPartMap.set poly (-1)
        log := info.log ++ [Warning.wSourceConvertFbxNoPolyPart poly] } := by
  unfold partsAndBonesStep
  simp only [h, if_true]

theorem step_of_part (mesh : FbxMesh) (info : FbxMeshInfo) (poly : Nat)
    (h : ¬ (polyMaterial mesh poly < 0 ∨ polyMaterial mesh poly ≥ info._meshPartCount)) :
    partsAndBonesStep mesh info poly =
      { info with
        _polyPartMap := info._polyPartMap.set poly (polyMaterial mesh poly)
        _partBones := info._partBones.set (polyMaterial mesh poly).toNat
          ((info._partBones.getD (polyMaterial mesh poly).toNat (BlendBonesCollection.ctor 0)).add
            (polyWeights mesh info._pointBlendWeights poly)).1
        _polyPartBonesMap := info._polyPartBonesMap.set poly
          (if ((info._partBones.getD (polyMaterial mesh poly).toNat
                (BlendBonesCollection.ctor 0)).add
              (polyWeights mesh info._pointBlendWeights poly)).2 < 0 then 0
           else ((info._partBones.getD (polyMaterial mesh poly).toNat
                (BlendBonesCollection.ctor 0)).add
              (polyWeights mesh info._pointBlendWeights poly)).2.toNat)
        bonesOverflow :=
          if ((info._partBones.getD (polyMaterial mesh poly).toNat
                (BlendBonesCollection.ctor 0)).add
              (polyWeights mesh info._pointBlendWeights poly)).2 < 0 then true
          else info.bonesOverflow } := by
  unfold partsAndBonesStep
  simp only [h, if_false]

theorem part_mem_of_planned {mesh : FbxMesh} {cap : Nat} {pbw : List (List BlendWeight)}
    {info : FbxMeshInfo} (hJ : Planned mesh cap pbw info) {poly : Nat}
    (h : ¬ (polyMaterial mesh poly < 0 ∨ polyMaterial mesh poly ≥ info._meshPartCount)) :
    (polyMaterial mesh poly).toNat < info._partBones.length ∧
      info._partBones.getD (polyMaterial mesh poly).toNat (BlendBonesCollection.ctor 0) ∈
        info._partBones := by
  have hlt : (polyMaterial mesh poly).toNat < info._partBones.length := by
    rw [hJ.2.1]; omega
  exact ⟨hlt, by rw [List.getD_eq_getElem _ _ hlt]; exact List.getElem_mem _⟩

theorem planned_step {mesh : FbxMesh} {cap : Nat} {pbw : List (List BlendWeight)}
    {info : FbxMeshInfo} (hJ : Planned mesh cap pbw info) (poly : Nat) :
    Planned mesh cap pbw (partsAndBonesStep mesh info poly) := by
  by_cases h : polyMaterial mesh poly < 0 ∨ polyMaterial mesh poly ≥ info._meshPartCount
  · rw [step_of_noPart mesh info poly h]
    exact ⟨hJ.1, hJ.2.1, hJ.2.2.1, by simpa using hJ.2.2.2.1, hJ.2.2.2.2⟩
  · rw [step_of_part mesh info poly h]
    refine ⟨hJ.1, by simpa using hJ.2.1, ?_, by simpa using hJ.2.2.2.1,
      by simpa using hJ.2.2.2.2⟩
    intro c hc
    rcases List.mem_or_eq_of_mem_set hc with h1 | h1
    · exact hJ.2.2.1 c h1
    · have hm := (part_mem_of_planned hJ h).2
      have := hJ.2.2.1 _ hm
      rw [h1]
      exact ⟨BlendBonesCollection.Reachable.add _ _ this.1, this.2⟩

theorem planned_foldl {mesh : FbxMesh} {cap : Nat} {pbw : List (List BlendWeight)}
    (l : List Nat) : ∀ info, Planned mesh cap pbw info →
      Planned mesh cap pbw (l.foldl (partsAndBonesStep mesh) info) := by
  induction l with
  | nil => intro info h; exact h
  | cons q l ih => intro info h; exact ih _ (planned_step h q)

theorem polyWeights_nonneg (mesh : FbxMesh) (pbw : List (List BlendWeight))
    (hnn : ∀ ws ∈ pbw, ∀ w ∈ ws, 0 ≤ w.index) (poly : Nat) :
    ∀ x ∈ BlendBones.demandBones (polyWeights mesh pbw poly), 0 ≤ x := by
  intro x hx
  unfold BlendBones.demandBones polyWeights at hx
  obtain ⟨w, hw, rfl⟩ := List.mem_map.mp hx
  obtain ⟨ws, hws, hw2⟩ := List.mem_flatten.mp hw
  obtain ⟨i, _, rfl⟩ := List.mem_map.mp hws
  by_cases hi : mesh.GetPolygonVertex poly i < pbw.length
  · rw [List.getD_eq_getElem _ _ hi] at hw2
    exact hnn _ (List.getElem_mem _) w hw2
  · rw [List.getD_eq_default _ _ (not_lt.mp hi)] at hw2
    exact absurd hw2 (List.not_mem_nil _)

theorem step_bonesMap_ne (mesh : FbxMesh) (info : FbxMeshInfo) {p q : Nat} (hq : q ≠ p) :
    (partsAndBonesStep mesh info q)._polyPartBonesMap[p]? = info._polyPartBonesMap[p]? := by
  by_cases h : polyMaterial mesh q < 0 ∨ polyMaterial mesh q ≥ info._meshPartCount
  · rw [step_of_noPart mesh info q h]
  · rw [step_of_part mesh info q h]
    simp only []
    rw [List.getElem?_set_ne hq]

theorem step_overflow_mono (mesh : FbxMesh) (info : FbxMeshInfo) (q : Nat)
    (hb : info.bonesOverflow = true) : (partsAndBonesStep mesh info q).bonesOverflow = true := by
  by_cases h : polyMaterial mesh q < 0 ∨ polyMaterial mesh q ≥ info._meshPartCount
  · rw [step_of_noPart mesh info q h]; exact hb
  · rw [step_of_part mesh info q h]
    simp only [hb, ite_self]

theorem foldl_bonesMap_not_mem (mesh : FbxMesh) (l : List Nat) (p : Nat) (hp : p ∉ l) :
    ∀ info, (l.foldl (partsAndBonesStep mesh) info)._polyPartBonesMap[p]? =
      info._polyPartBonesMap[p]? := by
  induction l with
  | nil => intro info; rfl
  | cons q l ih =>
    intro info
    have hq : q ≠ p := fun e => hp (e ▸ List.mem_cons_self _ _)
    rw [List.foldl_cons, ih (fun h => hp (List.mem_cons_of_mem _ h)), step_bonesMap_ne mesh info hq]

theorem foldl_overflow_mono (mesh : FbxMesh) (l : List Nat) :
    ∀ info, info.bonesOverflow = true →
      (l.foldl (partsAndBonesStep mesh) info).bonesOverflow = true := by
  induction l with
  | nil => intro info h; exact h
  | cons q l ih => intro info h; exact ih _ (step_overflow_mono mesh info q h)

/-- The loop body at a polygon with a valid material index and more distinct
bones than the capacity. -/
theorem step_of_overflow {mesh : FbxMesh} {cap : Nat} {pbw : List (List BlendWeight)}
    {info : FbxMeshInfo} (hJ : Planned mesh cap pbw info)
    (hnn : ∀ ws ∈ pbw, ∀ w ∈ ws, 0 ≤ w.index) {poly : Nat}
    (hpoly : poly < mesh.GetPolygonCount)
    (h : ¬ (polyMaterial mesh poly < 0 ∨ polyMaterial mesh poly ≥ info._meshPartCount))
    (hD : cap < (BlendBones.demandBones (polyWeights mesh pbw poly)).toFinset.card) :
    (partsAndBonesStep mesh info poly).bonesOverflow = true ∧
      (partsAndBonesStep mesh info poly)._polyPartBonesMap[poly]? = some 0 := by
  have hm := (part_mem_of_planned hJ h).2
  obtain ⟨hr, hcap⟩ := hJ.2.2.1 _ hm
  have hadd := BlendBonesCollection.add_of_overflow _ hr (polyWeights mesh pbw poly)
    (polyWeights_nonneg mesh pbw hnn poly) (by rw [hcap]; exact hD)
  rw [step_of_part mesh info poly h, hJ.1, hadd]
  simp only []
  refine ⟨by simp, ?_⟩
  rw [List.getElem?_set_self (by rw [hJ.2.2.2.2]; exact hpoly)]
  rfl

/-- The loop body keeps `bonesOverflow` false at a polygon whose distinct bones
fit the capacity. -/
theorem step_of_fit {mesh : FbxMesh} {cap : Nat} {pbw : List (List BlendWeight)}
    {info : FbxMeshInfo} (hJ : Planned mesh cap pbw info)
    (hnn : ∀ ws ∈ pbw, ∀ w ∈ ws, 0 ≤ w.index) {poly : Nat}
    (hD : ¬ (polyMaterial mesh poly < 0 ∨ polyMaterial mesh poly ≥ info._meshPartCount) →
      (BlendBones.demandBones (polyWeights mesh pbw poly)).toFinset.card ≤ cap)
    (hb : info.bonesOverflow = false) :
    (partsAndBonesStep mesh info poly).bonesOverflow = false := by
  by_cases h : polyMaterial mesh poly < 0 ∨ polyMaterial mesh poly ≥ info._meshPartCount
  · rw [step_of_noPart mesh info poly h]; exact hb
  · have hm := (part_mem_of_planned hJ h).2
    obtain ⟨hr, hcap⟩ := hJ.2.2.1 _ hm
    have hadd := BlendBonesCollection.add_nonneg_of_fit _ hr (polyWeights mesh pbw poly)
      (polyWeights_nonneg mesh pbw hnn poly) (by rw [hcap]; exact hD h)
    rw [step_of_part mesh info poly h, hJ.1]
    simp only [not_lt.mpr hadd, if_false]
    exact hb

end FbxMeshInfo

namespace FbxMeshInfo

theorem foldl_fit {mesh : FbxMesh} {cap : Nat} {pbw : List (List BlendWeight)}
    (hnn : ∀ ws ∈ pbw, ∀ w ∈ ws, 0 ≤ w.index) (l : List Nat) :
    ∀ info, Planned mesh cap pbw info → info.bonesOverflow = false →
      (∀ p ∈ l, ¬ (polyMaterial mesh p < 0 ∨ polyMaterial mesh p ≥ info._meshPartCount) →
        (BlendBones.demandBones (polyWeights mesh pbw p)).toFinset.card ≤ cap) →
      (l.foldl (partsAndBonesStep mesh) info).bonesOverflow = false := by
  induction l with
  | nil => intro info _ hb _; exact hb
  | cons q l ih =>
    intro info hJ hb hD
    rw [List.foldl_cons]
    apply ih _ (planned_step hJ q) (step_of_fit hJ hnn (hD q (List.mem_cons_self _ _)) hb)
    intro p hp
    rw [(plansParts_partsAndBonesStep mesh info q).1]
    exact hD p (List.mem_cons_of_mem _ hp)

/-- Claim C16: a demand with more distinct bones than the capacity makes
`BlendBonesCollection::add` return -1; for a polygon with a valid material index
whose corner weight lists hold more distinct bones than the capacity,
`fetchMeshPartsAndBones` ends with `bonesOverflow` true, the polygon's material
index in `_polyPartMap` and slot set 0 in `_polyPartBonesMap`; and
`bonesOverflow` ends false when no polygon with a valid material index exceeds
the capacity. -/
theorem fetchMeshPartsAndBones_overflow (mesh : FbxMesh) (cap : Nat)
    (pbw : List (List BlendWeight)) (hnn : ∀ ws ∈ pbw, ∀ w ∈ ws, 0 ≤ w.index) :
    (∀ (c : BlendBonesCollection) (rhs : List (List BlendWeight)),
        BlendBonesCollection.Reachable c → (∀ x ∈ BlendBones.demandBones rhs, 0 ≤ x) →
        c._bonesCapacity < (BlendBones.demandBones rhs).toFinset.card → (c.add rhs).2 = -1) ∧
      (∀ poly, poly < mesh.GetPolygonCount →
        0 ≤ polyMaterial mesh poly → polyMaterial mesh poly < calcMeshPartCount mesh →
        cap < (BlendBones.demandBones (polyWeights mesh pbw poly)).toFinset.card →
          (fetchMeshPartsAndBones mesh (init mesh cap pbw)).bonesOverflow = true ∧
          (fetchMeshPartsAndBones mesh (init mesh cap pbw))._polyPartMap[poly]? =
            some (polyMaterial mesh poly) ∧
          (fetchMeshPartsAndBones mesh (init mesh cap pbw))._polyPartBonesMap[poly]? = some 0) ∧
      ((∀ poly, poly < mesh.GetPolygonCount →
          0 ≤ polyMaterial mesh poly → polyMaterial mesh poly < calcMeshPartCount mesh →
          (BlendBones.demandBones (polyWeights mesh pbw poly)).toFinset.card ≤ cap) →
        (fetchMeshPartsAndBones mesh (init mesh cap pbw)).bonesOverflow = false) := by
  have hJ0 := planned_init mesh cap pbw
  have hc0 : (init mesh cap pbw)._meshPartCount = calcMeshPartCount mesh := rfl
  refine ⟨fun c rhs hc h1 h2 => BlendBonesCollection.add_of_overflow c hc rhs h1 h2, ?_, ?_⟩
  · intro poly hpoly h0 h1 hD
    have hmem := mem_range_of_lt hpoly
    obtain ⟨l1, l2, hl⟩ := List.append_of_mem hmem
    have hnd : (l1 ++ poly :: l2).Nodup := hl ▸ List.nodup_range _
    have hp2 : poly ∉ l2 := (List.nodup_cons.mp (List.nodup_append.mp hnd).2.1).1
    have hJ1 := @planned_foldl mesh cap pbw l1 _ hJ0
    have hc1 : (l1.foldl (partsAndBonesStep mesh) (init mesh cap pbw))._meshPartCount =
        calcMeshPartCount mesh := by
      rw [foldl_count (plansParts_partsAndBonesStep mesh)]; rfl
    have hvalid : ¬ (polyMaterial mesh poly < 0 ∨ polyMaterial mesh poly ≥
        (l1.foldl (partsAndBonesStep mesh) (init mesh cap pbw))._meshPartCount) := by
      rw [hc1]; omega
    obtain ⟨s1, s2⟩ := step_of_overflow hJ1 hnn hpoly hvalid hD
    have hres : fetchMeshPartsAndBones mesh (init mesh cap pbw) =
        l2.foldl (partsAndBonesStep mesh)
          (partsAndBonesStep mesh (l1.foldl (partsAndBonesStep mesh) (init mesh cap pbw)) poly) := by
      unfold fetchMeshPartsAndBones
      rw [hl, List.foldl_append, List.foldl_cons]
    refine ⟨?_, ?_, ?_⟩
    · rw [hres]; exact foldl_overflow_mono mesh l2 _ s1
    · unfold fetchMeshPartsAndBones
      rw [foldl_map_mem (plansParts_partsAndBonesStep mesh) _ poly hmem _
        (by rw [hJ0.2.2.2.1]; exact hpoly), hc0]
      unfold partOf
      rw [if_neg (by omega)]
    · rw [hres, foldl_bonesMap_not_mem mesh l2 poly hp2]; exact s2
  · intro hfit
    unfold fetchMeshPartsAndBones
    apply foldl_fit hnn _ _ hJ0 rfl
    intro p hp hv
    rw [hc0] at hv
    exact hfit p (List.mem_range.mp hp) (by omega) (by omega)

end FbxMeshInfo

theorem roundHalfEven_eq (x : ℚ) (z : Int) (h1 : (z : ℚ) - 1 / 2 < x) (h2 : x < z + 1 / 2) :
    roundHalfEven x = z := by
  unfold roundHalfEven
  by_cases hf : ⌊x⌋ = z
  · have := Int.floor_le x
    rw [hf]
    rw [if_pos (by linarith)]
  · have hz : ⌊x⌋ = z - 1 := by
      rw [Int.floor_eq_iff]
      push_cast
      constructor
      · linarith
      · by_contra hcon
        apply hf
        rw [Int.floor_eq_iff]
        constructor <;> linarith
    have hfl := Int.lt_floor_add_one x
    rw [hz] at hfl ⊢
    push_cast at hfl ⊢
    rw [if_neg (by linarith), if_pos (by linarith)]
    ring

theorem roundHalfEven_nonneg (x : ℚ) (h : 0 ≤ x) : 0 ≤ roundHalfEven x := by
  have hf : 0 ≤ ⌊x⌋ := Int.floor_nonneg.mpr h
  unfold roundHalfEven
  split
  · exact hf
  · split
    · omega
    · split
      · exact hf
      · omega

theorem floatQuantum_pos (x : ℚ) : 0 < floatQuantum x := by
  unfold floatQuantum
  positivity

theorem floatCast_nonneg (x : ℚ) (h : 0 ≤ x) : 0 ≤ floatCast x := by
  unfold floatCast
  have hq := floatQuantum_pos x
  have hr := roundHalfEven_nonneg (x / floatQuantum x) (div_nonneg h (le_of_lt hq))
  have : (0 : ℚ) ≤ (roundHalfEven (x / floatQuantum x) : ℚ) := by exact_mod_cast hr
  exact mul_nonneg this (le_of_lt hq)

theorem log_eq (x : ℚ) (e : Int) (h1 : (2 : ℚ) ^ e ≤ |x|) (h2 : |x| < 2 ^ (e + 1)) :
    Int.log 2 |x| = e := by
  have hpos : 0 < |x| := lt_of_lt_of_le (by positivity) h1
  apply le_antisymm
  · have := (Int.lt_zpow_iff_log_lt (b := 2) (by norm_num) hpos).mp (by exact_mod_cast h2)
    omega
  · exact (Int.zpow_le_iff_le_log (b := 2) (by norm_num) hpos).mp (by exact_mod_cast h1)

/-- The conversion of a value in the binade of exponent `e ≥ -126`. -/
theorem floatCast_of_binade (x : ℚ) (e : Int) (n : Int) (he : -126 ≤ e)
    (h1 : (2 : ℚ) ^ e ≤ |x|) (h2 : |x| < 2 ^ (e + 1))
    (hn1 : ((n : ℚ) - 1 / 2) * 2 ^ (e - 23) < x) (hn2 : x < (n + 1 / 2) * 2 ^ (e - 23)) :
    floatCast x = n * 2 ^ (e - 23) := by
  have hq : floatQuantum x = 2 ^ (e - 23) := by
    unfold floatQuantum
    rw [log_eq x e h1 h2, max_eq_left he]
  unfold floatCast
  rw [hq]
  have hpos : (0 : ℚ) < 2 ^ (e - 23) := by positivity
  rw [roundHalfEven_eq (x / 2 ^ (e - 23)) n ((lt_div_iff₀ hpos).mpr hn1)
    ((div_lt_iff₀ hpos).mpr hn2)]

/-- The conversion of a non-zero value below the smallest normal `float`. -/
theorem floatCast_of_subnormal (x : ℚ) (n : Int) (hx : x ≠ 0) (h : |x| < 2 ^ (-126 : Int))
    (hn1 : ((n : ℚ) - 1 / 2) * 2 ^ (-149 : Int) < x) (hn2 : x < (n + 1 / 2) * 2 ^ (-149 : Int)) :
    floatCast x = n * 2 ^ (-149 : Int) := by
  have hq : floatQuantum x = 2 ^ (-149 : Int) := by
    unfold floatQuantum
    have hpos : 0 < |x| := abs_pos.mpr hx
    have h2 : |x| < ((2 : ℕ) : ℚ) ^ (-126 : Int) := by rw [Nat.cast_ofNat]; exact h
    have hl : Int.log 2 |x| < -126 := (Int.lt_zpow_iff_log_lt (b := 2) (by norm_num) hpos).mp h2
    rw [max_eq_right (le_of_lt hl)]
    norm_num
  unfold floatCast
  rw [hq]
  have hpos : (0 : ℚ) < 2 ^ (-149 : Int) := by positivity
  rw [roundHalfEven_eq (x / 2 ^ (-149 : Int)) n ((lt_div_iff₀ hpos).mpr hn1)
    ((div_lt_iff₀ hpos).mpr hn2)]

theorem floatCast_zero : floatCast 0 = 0 := by
  unfold floatCast
  rw [zero_div, roundHalfEven_eq 0 0 (by norm_num) (by norm_num)]
  simp

theorem floatCast_half : floatCast (1 / 2) = 1 / 2 := by
  have := floatCast_of_binade (1 / 2) (-1) 8388608 (by norm_num) (by norm_num [abs_of_pos])
    (by norm_num [abs_of_pos]) (by norm_num) (by norm_num)
  rw [this]; norm_num

theorem floatCast_quarter : floatCast (1 / 4) = 1 / 4 := by
  have := floatCast_of_binade (1 / 4) (-2) 8388608 (by norm_num) (by norm_num [abs_of_pos])
    (by norm_num [abs_of_pos]) (by norm_num) (by norm_num)
  rw [this]; norm_num

theorem floatCast_eighth : floatCast (1 / 8) = 1 / 8 := by
  have := floatCast_of_binade (1 / 8) (-3) 8388608 (by norm_num) (by norm_num [abs_of_pos])
    (by norm_num [abs_of_pos]) (by norm_num) (by norm_num)
  rw [this]; norm_num

theorem floatCast_twentieth :
    floatCast (3602879701896397 / 72057594037927936) = 13421773 / 268435456 := by
  have := floatCast_of_binade (3602879701896397 / 72057594037927936) (-5) 13421773 (by norm_num)
    (by norm_num [abs_of_pos]) (by norm_num [abs_of_pos]) (by norm_num) (by norm_num)
  rw [this]; norm_num

theorem floatCast_tiny : floatCast (1 / 2 ^ 200) = 0 := by
  have := floatCast_of_subnormal (1 / 2 ^ 200) 0 (by norm_num) (by norm_num [abs_of_pos]) (by norm_num) (by norm_num)
  rw [this]; norm_num

theorem floatCast_tenth :
    floatCast (3602879701896397 / 36028797018963968) = 13421773 / 134217728 := by
  have := floatCast_of_binade (3602879701896397 / 36028797018963968) (-4) 13421773 (by norm_num)
    (by norm_num [abs_of_pos]) (by norm_num [abs_of_pos]) (by norm_num) (by norm_num)
  rw [this]; norm_num

theorem floatCast_half_plus : floatCast (1 / 2 + 1 / 2 ^ 30) = 1 / 2 := by
  have := floatCast_of_binade (1 / 2 + 1 / 2 ^ 30) (-1) 8388608 (by norm_num)
    (by norm_num [abs_of_pos]) (by norm_num [abs_of_pos]) (by norm_num) (by norm_num)
  rw [this]; norm_num

namespace FbxMeshInfo

theorem getD_set_self {α : Type} (l : List α) (i : Nat) (x d : α) (h : i < l.length) :
    (l.set i x).getD i d = x := by
  rw [List.getD_eq_getElem?_getD, List.getElem?_set_self h]
  rfl

theorem getD_set_ne {α : Type} (l : List α) {i j : Nat} (x d : α) (h : i ≠ j) :
    (l.set i x).getD j d = l.getD j d := by
  rw [List.getD_eq_getElem?_getD, List.getElem?_set_ne h, List.getD_eq_getElem?_getD]

theorem gatherCluster_spec (count i p : Nat) (hp : p < count) :
    ∀ (es : List (Int × ℚ)) (pw : List (List ExactWeight)), pw.length = count →
      (gatherCluster count i es pw).length = count ∧
      (gatherCluster count i es pw).getD p [] = pw.getD p [] ++
        (es.filter fun e => decide (e.1 = (p : Int) ∧ e.2 ≠ 0)).map fun e =>
          { weight := floatCast e.2, index := (i : Int) } := by
  intro es
  induction es with
  | nil => intro pw hpw; exact ⟨hpw, by simp [gatherCluster]⟩
  | cons e es ih =>
    intro pw hpw
    obtain ⟨cp, w⟩ := e
    unfold gatherCluster
    by_cases hskip : cp < 0 ∨ cp ≥ (count : Int) ∨ w = 0
    · rw [if_pos hskip]
      have hf : decide ((cp, w).1 = (p : Int) ∧ (cp, w).2 ≠ 0) = false := by
        rw [decide_eq_false_iff_not]
        rintro ⟨h1, h2⟩
        simp only at h1 h2
        rcases hskip with h | h | h
        · omega
        · omega
        · exact h2 h
      rw [List.filter_cons, hf]
      exact ih pw hpw
    · rw [if_neg hskip]
      have h0 : 0 ≤ cp := by omega
      have h1 : cp < (count : Int) := by omega
      have hw : w ≠ 0 := fun h => hskip (Or.inr (Or.inr h))
      have hlt : cp.toNat < pw.length := by rw [hpw]; omega
      obtain ⟨i1, i2⟩ := ih (pw.set cp.toNat
          (pw.getD cp.toNat [] ++ [{ weight := floatCast w, index := (i : Int) }]))
        (by rw [List.length_set]; exact hpw)
      refine ⟨i1, ?_⟩
      rw [i2, List.filter_cons]
      by_cases hcp : cp = (p : Int)
      · have htn : cp.toNat = p := by omega
        have hd : decide ((cp, w).1 = (p : Int) ∧ (cp, w).2 ≠ 0) = true := by
          rw [decide_eq_true_iff]; exact ⟨hcp, hw⟩
        rw [hd, htn] at *
        rw [getD_set_self _ _ _ _ (by rw [hpw]; exact hp)]
        simp
      · have htn : cp.toNat ≠ p := by omega
        have hd : decide ((cp, w).1 = (p : Int) ∧ (cp, w).2 ≠ 0) = false := by
          rw [decide_eq_false_iff_not]; exact fun h => hcp h.1
        rw [hd, getD_set_ne _ _ _ htn]
        simp

theorem gatherLoop_spec (count p : Nat) (hp : p < count) :
    ∀ (cs : List FbxCluster) (i : Nat) (pw : List (List ExactWeight)), pw.length = count →
      (gatherLoop count cs i pw).length = count ∧
      (gatherLoop count cs i pw).getD p [] = pw.getD p [] ++ entriesFrom p cs i := by
  intro cs
  induction cs with
  | nil => intro i pw hpw; exact ⟨hpw, by simp [gatherLoop, entriesFrom]⟩
  | cons c cs ih =>
    intro i pw hpw
    obtain ⟨g1, g2⟩ := gatherCluster_spec count i p hp c.entries pw hpw
    obtain ⟨i1, i2⟩ := ih (i + 1) _ g1
    unfold gatherLoop entriesFrom
    exact ⟨i1, by rw [i2, g2, List.append_assoc]⟩

theorem sortTruncate_eq (sort : List ExactWeight → List ExactWeight) (max : Nat)
    (ws : List ExactWeight) : sortTruncate sort max ws = (sort ws).take max := by
  unfold sortTruncate
  split
  · rfl
  · rename_i h
    rw [List.take_of_length_le (by omega)]

theorem foldl_pointStep (sort : List ExactWeight → List ExactWeight) (max : Nat)
    (l : List (List ExactWeight)) :
    ∀ st, (l.foldl (pointStep sort max) st).1 =
        st.1 ++ l.map (fun ws => normalizeWeights (sortTruncate sort max ws)) ∧
      ((l.foldl (pointStep sort max) st).2.1 = true ↔
        (st.2.1 = true ∨ ∃ ws ∈ l, weightSum (sortTruncate sort max ws) = 0)) := by
  induction l with
  | nil => intro st; simp
  | cons ws l ih =>
    intro st
    obtain ⟨i1, i2⟩ := ih (pointStep sort max st ws)
    rw [List.foldl_cons]
    refine ⟨by rw [i1]; simp [pointStep], ?_⟩
    rw [i2]
    simp only [pointStep, List.mem_cons, exists_eq_or_imp]
    by_cases h : weightSum (sortTruncate sort max ws) = 0
    · simp [h]
    · simp [h]

theorem weightSum_foldl (ws : List ExactWeight) (a : ℚ) :
    ws.foldl (fun len w => len + w.weight) a = a + (ws.map fun w => w.weight).sum := by
  induction ws generalizing a with
  | nil => simp
  | cons w ws ih => rw [List.foldl_cons, ih, List.map_cons, List.sum_cons, add_assoc]

theorem weightSum_eq_sum (ws : List ExactWeight) :
    weightSum ws = (ws.map fun w => w.weight).sum := by
  unfold weightSum
  rw [weightSum_foldl, zero_add]

/-- The list `fetchVertexBlendWeights` stores for control point `p`: the
gathered entries, sorted, cut to `max` and normalised. -/
theorem fetch_getElem (sort : List ExactWeight → List ExactWeight) (max : Nat) (force : Bool)
    (count : Nat) (clusters : List FbxCluster) (p : Nat) (hp : p < count) :
    (fetchVertexBlendWeights sort max force count clusters)._pointBlendWeights[p]? =
      some (normalizeWeights ((sort (entriesFrom p clusters 0)).take max)) := by
  obtain ⟨g1, g2⟩ := gatherLoop_spec count p hp clusters 0 (List.replicate count [])
    (List.length_replicate _ _)
  have hg : (gatherLoop count clusters 0 (List.replicate count []))[p]? =
      some (entriesFrom p clusters 0) := by
    rw [List.getD_eq_getElem _ _ (by rw [g1]; exact hp)] at g2
    rw [List.getElem?_eq_getElem (by rw [g1]; exact hp), g2,
      List.getD_eq_getElem _ _ (by rw [List.length_replicate]; exact hp)]
    simp
  unfold fetchVertexBlendWeights
  simp only []
  rw [(foldl_pointStep sort max _ _).1, List.nil_append, List.getElem?_map, hg]
  simp [sortTruncate_eq]

end FbxMeshInfo

namespace FbxMeshInfo

theorem normalizeWeights_index (ws : List ExactWeight) :
    (normalizeWeights ws).map (fun w => w.index) = ws.map fun w => w.index := by
  unfold normalizeWeights
  split
  · rfl
  · rw [List.map_map]; rfl

theorem normalizeWeights_length (ws : List ExactWeight) :
    (normalizeWeights ws).length = ws.length := by
  unfold normalizeWeights
  split
  · rfl
  · rw [List.length_map]

theorem sum_map_div (ws : List ExactWeight) (len : ℚ) :
    ((ws.map fun w => ({ weight := w.weight / len, index := w.index } : ExactWeight)).map
      fun w => w.weight).sum = (ws.map fun w => w.weight).sum / len := by
  induction ws with
  | nil => simp
  | cons w ws ih =>
    simp only [List.map_cons, List.sum_cons, ih]
    rw [add_div]

theorem entriesFrom_nonneg (p : Nat) :
    ∀ (cs : List FbxCluster) (i : Nat), (∀ c ∈ cs, ∀ e ∈ c.entries, 0 ≤ e.2) →
      ∀ x ∈ entriesFrom p cs i, 0 ≤ x.weight := by
  intro cs
  induction cs with
  | nil => intro i _ x hx; simp [entriesFrom] at hx
  | cons c cs ih =>
    intro i hw x hx
    unfold entriesFrom at hx
    rcases List.mem_append.mp hx with h | h
    · obtain ⟨e, he, rfl⟩ := List.mem_map.mp h
      have hf := List.mem_filter.mp he
      exact floatCast_nonneg e.2 (hw c (List.mem_cons_self _ _) e hf.1)
    · exact ih (i + 1) (fun c hc => hw c (List.mem_cons_of_mem _ hc)) x h

theorem keptWeights_nonneg {sort : List ExactWeight → List ExactWeight}
    (hsort : IsGreaterSort sort) (max : Nat) (clusters : List FbxCluster) (p : Nat)
    (hw : ∀ c ∈ clusters, ∀ e ∈ c.entries, 0 ≤ e.2) :
    ∀ x ∈ keptWeights sort max clusters p, 0 ≤ x.weight := by
  intro x hx
  unfold keptWeights at hx
  exact entriesFrom_nonneg p clusters 0 hw x ((hsort _).1.subset (List.mem_of_mem_take hx))

theorem sum_weights_nonneg {ws : List ExactWeight} (hnn : ∀ x ∈ ws, 0 ≤ x.weight) :
    0 ≤ (ws.map fun w => w.weight).sum := by
  apply List.sum_nonneg
  intro y hy
  obtain ⟨x, hx, rfl⟩ := List.mem_map.mp hy
  exact hnn x hx

theorem weight_le_weightSum {ws : List ExactWeight} (hnn : ∀ x ∈ ws, 0 ≤ x.weight) :
    ∀ x ∈ ws, x.weight ≤ weightSum ws := by
  induction ws with
  | nil => intro x hx; exact absurd hx (List.not_mem_nil _)
  | cons w ws ih =>
    intro x hx
    have hw0 := hnn w (List.mem_cons_self _ _)
    have hrest : ∀ y ∈ ws, 0 ≤ y.weight := fun y hy => hnn y (List.mem_cons_of_mem _ hy)
    have hs := sum_weights_nonneg hrest
    rw [weightSum_eq_sum, List.map_cons, List.sum_cons]
    rcases List.mem_cons.mp hx with e | e
    · rw [e]; linarith
    · have := ih hrest x e
      rw [weightSum_eq_sum] at this
      linarith

theorem weightSum_pos_of_mem {ws : List ExactWeight} (hnn : ∀ x ∈ ws, 0 ≤ x.weight)
    {x : ExactWeight} (hx : x ∈ ws) (hpos : 0 < x.weight) : 0 < weightSum ws :=
  lt_of_lt_of_le hpos (weight_le_weightSum hnn x hx)

theorem weight_zero_of_weightSum_zero {ws : List ExactWeight} (hnn : ∀ x ∈ ws, 0 ≤ x.weight)
    (h0 : weightSum ws = 0) : ∀ x ∈ ws, x.weight = 0 := by
  intro x hx
  have := weight_le_weightSum hnn x hx
  rw [h0] at this
  exact le_antisymm this (hnn x hx)

theorem take_has_pos {S : List ExactWeight} (hs : S.Pairwise fun a b => b.weight ≤ a.weight)
    {e : ExactWeight} (he : e ∈ S) (hpos : 0 < e.weight) (n : Nat) (hn : 0 < n) :
    ∃ k ∈ S.take n, 0 < k.weight := by
  cases S with
  | nil => exact absurd he (List.not_mem_nil _)
  | cons h t =>
    obtain ⟨m, rfl⟩ : ∃ m, n = m + 1 := ⟨n - 1, by omega⟩
    refine ⟨h, by rw [List.take_succ_cons]; exact List.mem_cons_self _ _, ?_⟩
    rcases List.mem_cons.mp he with e1 | e1
    · rw [← e1]; exact hpos
    · exact lt_of_lt_of_le hpos ((List.pairwise_cons.mp hs).1 e e1)

theorem blendWeightsOf_some (sort : List ExactWeight → List ExactWeight)
    (maxVertexBlendWeightCount : Nat) (forceMaxVertexBlendWeightCount : Bool)
    (maxNodePartBoneCount deformerCount : Nat) (count : Nat) (clusters : List FbxCluster)
    (hskin : 0 < maxNodePartBoneCount ∧ 0 < maxVertexBlendWeightCount ∧ 0 < deformerCount) :
    blendWeightsOf sort maxVertexBlendWeightCount forceMaxVertexBlendWeightCount
        maxNodePartBoneCount deformerCount count clusters =
      some (fetchVertexBlendWeights sort 4 true count clusters) := by
  unfold blendWeightsOf ctorSkin ctorMaxVertexBlendWeightCount ctorForceMaxVertexBlendWeightCount
  rw [if_pos (decide_eq_true hskin)]

theorem blendWeightsOf_none (sort : List ExactWeight → List ExactWeight)
    (maxVertexBlendWeightCount : Nat) (forceMaxVertexBlendWeightCount : Bool)
    (maxNodePartBoneCount deformerCount : Nat) (count : Nat) (clusters : List FbxCluster)
    (hno : maxNodePartBoneCount = 0 ∨ maxVertexBlendWeightCount = 0 ∨ deformerCount = 0) :
    blendWeightsOf sort maxVertexBlendWeightCount forceMaxVertexBlendWeightCount
        maxNodePartBoneCount deformerCount count clusters = none := by
  unfold blendWeightsOf ctorSkin
  rw [if_neg]
  rw [decide_eq_true_iff]
  omega

theorem sort_two {sort : List ExactWeight → List ExactWeight} (hsort : IsGreaterSort sort)
    (a b : ExactWeight) (hab : a.weight < b.weight) : sort [a, b] = [b, a] := by
  obtain ⟨hperm, hsorted⟩ := hsort [a, b]
  have hlen := hperm.length_eq
  match hS : sort [a, b], hlen with
  | [x, y], _ =>
    rw [hS] at hperm hsorted
    have hx : x ∈ [a, b] := hperm.subset (by simp)
    have hy : y ∈ [a, b] := hperm.subset (by simp)
    have ha : a ∈ [x, y] := hperm.symm.subset (by simp)
    have hb : b ∈ [x, y] := hperm.symm.subset (by simp)
    have hle : y.weight ≤ x.weight := by
      have := List.pairwise_cons.mp hsorted
      exact this.1 y (by simp)
    simp only [List.mem_cons, List.mem_singleton, List.not_mem_nil, or_false] at hx hy ha hb
    have hne : a ≠ b := fun e => by rw [e] at hab; exact lt_irrefl _ hab
    rcases hx with rfl | rfl
    · rcases hy with rfl | rfl
      · rcases hb with h | h
        · exact absurd h.symm hne
        · exact absurd h.symm hne
      · exact absurd hab (not_lt.mpr hle)
    · rcases hy with rfl | rfl
      · rfl
      · rcases ha with h | h
        · exact absurd h hne
        · exact absurd h hne

theorem isGreaterSort_greaterSort : IsGreaterSort greaterSort := by
  intro l
  unfold greaterSort
  refine ⟨List.perm_insertionSort _ l, ?_⟩
  have : IsTotal ExactWeight (fun a b => b.weight ≤ a.weight) := ⟨fun a b => le_total _ _⟩
  have : IsTrans ExactWeight (fun a b => b.weight ≤ a.weight) :=
    ⟨fun a b c h1 h2 => le_trans h2 h1⟩
  exact List.sorted_insertionSort (fun a b => b.weight ≤ a.weight) l

end FbxMeshInfo

namespace FbxMeshInfo

/-- Claim C18 at the mesh of one triangle whose material element gives index 0. -/
theorem fetchMeshParts_spec_witness :
    ((init FbxMesh.oneTriangle 8 [])._polyPartMap.length = FbxMesh.oneTriangle.GetPolygonCount ∧
      0 < FbxMesh.oneTriangle.GetPolygonCount) ∧
    (fetchMeshParts FbxMesh.oneTriangle (init FbxMesh.oneTriangle 8 []))._polyPartMap[0]? =
      some (polyMaterial FbxMesh.oneTriangle 0) :=
  ⟨by decide,
    ((fetchMeshParts_spec FbxMesh.oneTriangle (init FbxMesh.oneTriangle 8 []) (by decide) 0
      (by decide)).2.2 (by decide)).1⟩

/-- Claim C16 at the mesh of one triangle whose corners are weighted to the
bones 1, 2 and 3, with capacity 2. -/
theorem fetchMeshPartsAndBones_overflow_witness :
    (∀ ws ∈ [[(⟨0, 1⟩ : BlendWeight)], [⟨0, 2⟩], [⟨0, 3⟩]], ∀ w ∈ ws, 0 ≤ w.index) ∧
    (fetchMeshPartsAndBones FbxMesh.oneTriangle
        (init FbxMesh.oneTriangle 2 [[⟨0, 1⟩], [⟨0, 2⟩], [⟨0, 3⟩]])).bonesOverflow = true ∧
    (fetchMeshPartsAndBones FbxMesh.oneTriangle
        (init FbxMesh.oneTriangle 2 [[⟨0, 1⟩], [⟨0, 2⟩], [⟨0, 3⟩]]))._polyPartMap[0]? =
      some (polyMaterial FbxMesh.oneTriangle 0) ∧
    (fetchMeshPartsAndBones FbxMesh.oneTriangle
        (init FbxMesh.oneTriangle 2 [[⟨0, 1⟩], [⟨0, 2⟩], [⟨0, 3⟩]]))._polyPartBonesMap[0]? =
      some 0 :=
  ⟨by decide,
    (fetchMeshPartsAndBones_overflow FbxMesh.oneTriangle 2 [[⟨0, 1⟩], [⟨0, 2⟩], [⟨0, 3⟩]]
      (by decide)).2.1 0 (by decide) (by decide) (by decide) (by decide)⟩

theorem fetch_log (sort : List ExactWeight → List ExactWeight) (max : Nat) (force : Bool)
    (count : Nat) (clusters : List FbxCluster) (p : Nat) (hp : p < count)
    (h0 : weightSum ((sort (entriesFrom p clusters 0)).take max) = 0) :
    Warning.wSourceConvertFbxZeroWeights ∈
      (fetchVertexBlendWeights sort max force count clusters).log := by
  obtain ⟨g1, g2⟩ := gatherLoop_spec count p hp clusters 0 (List.replicate count [])
    (List.length_replicate _ _)
  have hlt : p < (gatherLoop count clusters 0 (List.replicate count [])).length := by
    rw [g1]; exact hp
  have hg : (gatherLoop count clusters 0 (List.replicate count []))[p] =
      entriesFrom p clusters 0 := by
    rw [List.getD_eq_getElem _ _ hlt] at g2
    rw [g2, List.getD_eq_getElem _ _ (by rw [List.length_replicate]; exact hp)]
    simp
  have herr := (foldl_pointStep sort max
    (gatherLoop count clusters 0 (List.replicate count [])) ([], false, 0)).2.mpr
    (Or.inr ⟨_, List.getElem_mem hlt, by rw [hg, sortTruncate_eq]; exact h0⟩)
  unfold fetchVertexBlendWeights
  simp only [herr, if_true, List.mem_singleton]

theorem entriesFrom_one (a : ℚ) (ha : a ≠ 0) :
    entriesFrom 0 [{ entries := [(0, a)] }] 0 = [{ weight := floatCast a, index := 0 }] := by
  simp [entriesFrom, ha]

theorem entriesFrom_three (a b c : ℚ) (ha : a ≠ 0) (hb : b ≠ 0) (hc : c ≠ 0) :
    entriesFrom 0 [{ entries := [(0, a)] }, { entries := [(0, b)] }, { entries := [(0, c)] }] 0 =
      [{ weight := floatCast a, index := 0 }, { weight := floatCast b, index := 1 },
        { weight := floatCast c, index := 2 }] := by
  simp [entriesFrom, ha, hb, hc]

theorem entriesFrom_five (a b c d e : ℚ) (ha : a ≠ 0) (hb : b ≠ 0) (hc : c ≠ 0) (hd : d ≠ 0)
    (he : e ≠ 0) :
    entriesFrom 0 [{ entries := [(0, a)] }, { entries := [(0, b)] }, { entries := [(0, c)] },
        { entries := [(0, d)] }, { entries := [(0, e)] }] 0 =
      [{ weight := floatCast a, index := 0 }, { weight := floatCast b, index := 1 },
        { weight := floatCast c, index := 2 }, { weight := floatCast d, index := 3 },
        { weight := floatCast e, index := 4 }] := by
  simp [entriesFrom, ha, hb, hc, hd, he]

/-- Claim C19 fails as stated. With 2 passed to the constructor as the maximum,
a control point with the weights 1/2, 1/4, 1/8 keeps a list of three entries;
with 0 passed, `skin` is null and no list is produced. The order and the cut
follow the `float` weights: of five entries with the `double` weights 1/2, 1/2,
1/2, 1/2 and 1/2 + 2^-30, which all convert to the `float` 1/2, the sort that
leaves equal weights in the order of arrival keeps the first four and discards
the one of the largest `double` weight. -/
theorem blendWeights_exceed_passed_max :
    (blendWeightsOf greaterSort 2 false 8 1 1
          [{ entries := [(0, 1 / 2)] }, { entries := [(0, 1 / 4)] },
            { entries := [(0, 1 / 8)] }] =
        some (fetchVertexBlendWeights greaterSort 4 true 1
          [{ entries := [(0, 1 / 2)] }, { entries := [(0, 1 / 4)] },
            { entries := [(0, 1 / 8)] }]) ∧
      (fetchVertexBlendWeights greaterSort 4 true 1
          [{ entries := [(0, 1 / 2)] }, { entries := [(0, 1 / 4)] },
            { entries := [(0, 1 / 8)] }])._pointBlendWeights[0]? =
        some [{ weight := 4 / 7, index := 0 }, { weight := 2 / 7, index := 1 },
          { weight := 1 / 7, index := 2 }]) ∧
    blendWeightsOf greaterSort 0 false 8 1 1
        [{ entries := [(0, 1 / 2)] }, { entries := [(0, 1 / 4)] },
          { entries := [(0, 1 / 8)] }] = none ∧
    ((1 / 2 : ℚ) < 1 / 2 + 1 / 2 ^ 30 ∧
      (fetchVertexBlendWeights greaterSort 4 true 1
          [{ entries := [(0, 1 / 2)] }, { entries := [(0, 1 / 2)] }, { entries := [(0, 1 / 2)] },
            { entries := [(0, 1 / 2)] },
            { entries := [(0, 1 / 2 + 1 / 2 ^ 30)] }])._pointBlendWeights[0]? =
        some [{ weight := 1 / 4, index := 0 }, { weight := 1 / 4, index := 1 },
          { weight := 1 / 4, index := 2 }, { weight := 1 / 4, index := 3 }]) := by
  refine ⟨⟨blendWeightsOf_some _ _ _ _ _ _ _ (by decide), ?_⟩,
    blendWeightsOf_none _ _ _ _ _ _ _ (by decide), by norm_num, ?_⟩
  · rw [fetch_getElem greaterSort 4 true 1 _ 0 (by decide),
      entriesFrom_three _ _ _ (by norm_num) (by norm_num) (by norm_num),
      floatCast_half, floatCast_quarter, floatCast_eighth]
    simp [greaterSort, normalizeWeights, weightSum, List.insertionSort, List.orderedInsert]
    norm_num
  · rw [fetch_getElem greaterSort 4 true 1 _ 0 (by decide),
      entriesFrom_five _ _ _ _ _ (by norm_num) (by norm_num) (by norm_num) (by norm_num)
        (by norm_num),
      floatCast_half_plus, floatCast_half]
    simp [greaterSort, normalizeWeights, weightSum, List.insertionSort, List.orderedInsert]
    norm_num

/-- Claim C19, as the code has it, for `double` weights in [0, 1]. When 0 is
passed to the constructor as the maximum (or as the bone capacity, or the mesh
has no skin deformer), `skin` is null and no list is produced. Otherwise,
whatever maximum is passed, the list stored for a control point is made of its
entries with non-zero `double` weight and in-range index, the weights converted
to `float`, sorted by non-increasing `float` weight and cut to 4, then
normalised in place: it has the bones of the first 4 sorted entries in their
order, at most 4 entries, and no discarded entry has a larger `float` weight
than a kept one. -/
theorem blendWeights_sorted_truncated (sort : List ExactWeight → List ExactWeight)
    (hsort : IsGreaterSort sort) (maxVertexBlendWeightCount : Nat)
    (forceMaxVertexBlendWeightCount : Bool) (maxNodePartBoneCount deformerCount : Nat)
    (count : Nat) (clusters : List FbxCluster)
    (hw : ∀ c ∈ clusters, ∀ e ∈ c.entries, 0 ≤ e.2 ∧ e.2 ≤ 1)
    (p : Nat) (hp : p < count) :
    ((maxNodePartBoneCount = 0 ∨ maxVertexBlendWeightCount = 0 ∨ deformerCount = 0) →
      blendWeightsOf sort maxVertexBlendWeightCount forceMaxVertexBlendWeightCount
        maxNodePartBoneCount deformerCount count clusters = none) ∧
    ((0 < maxNodePartBoneCount ∧ 0 < maxVertexBlendWeightCount ∧ 0 < deformerCount) →
      ∃ bw, blendWeightsOf sort maxVertexBlendWeightCount forceMaxVertexBlendWeightCount
          maxNodePartBoneCount deformerCount count clusters = some bw ∧
        ∃ S : List ExactWeight, S.Perm (entriesFrom p clusters 0) ∧
          (S.Pairwise fun a b => b.weight ≤ a.weight) ∧ (∀ x ∈ S, 0 ≤ x.weight) ∧
          bw._pointBlendWeights[p]? = some (normalizeWeights (S.take 4)) ∧
          (normalizeWeights (S.take 4)).map (fun w => w.index) =
            (S.take 4).map (fun w => w.index) ∧
          (normalizeWeights (S.take 4)).length ≤ 4 ∧
          ∀ d ∈ S.drop 4, ∀ k ∈ S.take 4, d.weight ≤ k.weight) := by
  refine ⟨fun hno => blendWeightsOf_none _ _ _ _ _ _ _ hno, fun hskin => ?_⟩
  refine ⟨_, blendWeightsOf_some _ _ _ _ _ _ _ hskin, sort (entriesFrom p clusters 0),
    (hsort _).1, (hsort _).2, ?_, fetch_getElem sort 4 true count clusters p hp,
    normalizeWeights_index _, ?_, ?_⟩
  · intro x hx
    exact entriesFrom_nonneg p clusters 0 (fun c hc e he => (hw c hc e he).1) x
      ((hsort _).1.subset hx)
  · rw [normalizeWeights_length, List.length_take]
    exact Nat.min_le_left _ _
  · intro d hd k hk
    have hpw := (hsort (entriesFrom p clusters 0)).2
    rw [← List.take_append_drop 4 (sort (entriesFrom p clusters 0))] at hpw
    exact (List.pairwise_append.mp hpw).2.2 k hk d hd

/-- Claim C19 as amended, at one control point with the weights 1/2, 1/4, 1/8,
with 2 passed as the maximum. -/
theorem blendWeights_sorted_truncated_witness :
    (IsGreaterSort greaterSort ∧
      (∀ c ∈ [({ entries := [(0, 1 / 2)] } : FbxCluster), { entries := [(0, 1 / 4)] },
          { entries := [(0, 1 / 8)] }], ∀ e ∈ c.entries, 0 ≤ e.2 ∧ e.2 ≤ 1) ∧ 0 < 1 ∧
      (0 < 8 ∧ 0 < 2 ∧ 0 < 1)) ∧
    ∃ bw, blendWeightsOf greaterSort 2 false 8 1 1
        [{ entries := [(0, 1 / 2)] }, { entries := [(0, 1 / 4)] },
          { entries := [(0, 1 / 8)] }] = some bw ∧
      ∃ S : List ExactWeight,
        S.Perm (entriesFrom 0 [{ entries := [(0, 1 / 2)] }, { entries := [(0, 1 / 4)] },
          { entries := [(0, 1 / 8)] }] 0) ∧
        (S.Pairwise fun a b => b.weight ≤ a.weight) ∧ (∀ x ∈ S, 0 ≤ x.weight) ∧
        bw._pointBlendWeights[0]? = some (normalizeWeights (S.take 4)) ∧
        (normalizeWeights (S.take 4)).map (fun w => w.index) =
          (S.take 4).map (fun w => w.index) ∧
        (normalizeWeights (S.take 4)).length ≤ 4 ∧
        ∀ d ∈ S.drop 4, ∀ k ∈ S.take 4, d.weight ≤ k.weight :=
  have hw : ∀ c ∈ [({ entries := [(0, 1 / 2)] } : FbxCluster), { entries := [(0, 1 / 4)] },
      { entries := [(0, 1 / 8)] }], ∀ e ∈ c.entries, 0 ≤ e.2 ∧ e.2 ≤ 1 := by
    intro c hc e he
    simp only [List.mem_cons, List.mem_singleton, List.not_mem_nil, or_false] at hc
    rcases hc with rfl | rfl | rfl <;>
    · simp only [List.mem_singleton] at he
      rw [he]; norm_num
  ⟨⟨isGreaterSort_greaterSort, hw, by decide, by decide⟩,
    (blendWeights_sorted_truncated greaterSort isGreaterSort_greaterSort 2 false 8 1 1 _ hw 0
      (by decide)).2 (by decide)⟩

/-- Claim C20 fails as stated: a control point whose only entry has the `double`
weight 2^-200, positive and in [0, 1], gets the list of that one entry with the
`float` weight 0, which sums to 0 and not to 1, and the zero-weights warning is
logged: the weight passes the test against 0.0 as a `double` and is 0 once
converted to `float`. -/
theorem blendWeights_underflow_sum_zero :
    ((0 : ℚ) < 1 / 2 ^ 200 ∧ (1 : ℚ) / 2 ^ 200 ≤ 1) ∧
    blendWeightsOf greaterSort 4 true 8 1 1 [{ entries := [(0, 1 / 2 ^ 200)] }] =
      some (fetchVertexBlendWeights greaterSort 4 true 1 [{ entries := [(0, 1 / 2 ^ 200)] }]) ∧
    (fetchVertexBlendWeights greaterSort 4 true 1
        [{ entries := [(0, 1 / 2 ^ 200)] }])._pointBlendWeights[0]? =
      some [{ weight := 0, index := 0 }] ∧
    weightSum [{ weight := 0, index := 0 }] ≠ 1 ∧
    Warning.wSourceConvertFbxZeroWeights ∈
      (fetchVertexBlendWeights greaterSort 4 true 1 [{ entries := [(0, 1 / 2 ^ 200)] }]).log := by
  have he : entriesFrom 0 [{ entries := [(0, 1 / 2 ^ 200)] }] 0 =
      [{ weight := 0, index := 0 }] := by
    rw [entriesFrom_one _ (by norm_num), floatCast_tiny]
  refine ⟨by norm_num, blendWeightsOf_some _ _ _ _ _ _ _ (by decide), ?_, ?_, ?_⟩
  · rw [fetch_getElem greaterSort 4 true 1 _ 0 (by decide), he]
    simp [greaterSort, normalizeWeights, weightSum, List.insertionSort, List.orderedInsert]
  · simp [weightSum]
  · apply fetch_log greaterSort 4 true 1 _ 0 (by decide)
    rw [he]
    simp [greaterSort, weightSum, List.insertionSort, List.orderedInsert]

/-- Claim C20, as the code has it, over exact arithmetic on the `float` weights,
for `double` weights in [0, 1] and a constructor that takes the skin: the list
stored for a control point is its kept entries (converted to `float`, sorted,
cut to 4) normalised; when the control point has an entry whose weight is
positive once converted to `float`, the stored weights sum to 1, each being
the kept weight divided by the sum of the kept weights; when the kept weights
sum to zero nothing is divided, every stored weight is 0 and the zero-weights
warning is logged. The `double` weights 0.1 of bone 5, 0.05 of bone 2 and 0 of
bone 9 give (bone 5, 2/3), (bone 2, 1/3). -/
theorem blendWeights_normalized (sort : List ExactWeight → List ExactWeight)
    (hsort : IsGreaterSort sort) (maxVertexBlendWeightCount : Nat)
    (forceMaxVertexBlendWeightCount : Bool) (maxNodePartBoneCount deformerCount : Nat)
    (hskin : 0 < maxNodePartBoneCount ∧ 0 < maxVertexBlendWeightCount ∧ 0 < deformerCount)
    (count : Nat) (clusters : List FbxCluster)
    (hw : ∀ c ∈ clusters, ∀ e ∈ c.entries, 0 ≤ e.2 ∧ e.2 ≤ 1) (p : Nat) (hp : p < count) :
    (∃ bw, blendWeightsOf sort maxVertexBlendWeightCount forceMaxVertexBlendWeightCount
          maxNodePartBoneCount deformerCount count clusters = some bw ∧
        bw._pointBlendWeights[p]? = some (normalizeWeights (keptWeights sort 4 clusters p)) ∧
        (weightSum (keptWeights sort 4 clusters p) = 0 →
          Warning.wSourceConvertFbxZeroWeights ∈ bw.log)) ∧
      ((∃ e ∈ entriesFrom p clusters 0, 0 < e.weight) →
        ((normalizeWeights (keptWeights sort 4 clusters p)).map fun w => w.weight).sum = 1 ∧
        normalizeWeights (keptWeights sort 4 clusters p) =
          (keptWeights sort 4 clusters p).map fun w =>
            { weight := w.weight / weightSum (keptWeights sort 4 clusters p),
              index := w.index }) ∧
      (weightSum (keptWeights sort 4 clusters p) = 0 →
        normalizeWeights (keptWeights sort 4 clusters p) = keptWeights sort 4 clusters p ∧
        ∀ w ∈ keptWeights sort 4 clusters p, w.weight = 0) ∧
      (∃ bw, blendWeightsOf sort maxVertexBlendWeightCount forceMaxVertexBlendWeightCount
          maxNodePartBoneCount deformerCount 1
          [{ entries := [] }, { entries := [] },
            { entries := [(0, 3602879701896397 / 72057594037927936)] }, { entries := [] },
            { entries := [] }, { entries := [(0, 3602879701896397 / 36028797018963968)] },
            { entries := [] }, { entries := [] }, { entries := [] },
            { entries := [(0, 0)] }] = some bw ∧
        bw._pointBlendWeights[0]? =
          some [{ weight := 2 / 3, index := 5 }, { weight := 1 / 3, index := 2 }]) := by
  have hw0 : ∀ c ∈ clusters, ∀ e ∈ c.entries, 0 ≤ e.2 := fun c hc e he => (hw c hc e he).1
  have hnn := keptWeights_nonneg hsort 4 clusters p hw0
  refine ⟨⟨_, blendWeightsOf_some _ _ _ _ _ _ _ hskin,
    fetch_getElem sort 4 true count clusters p hp,
    fun h0 => fetch_log sort 4 true count clusters p hp h0⟩, ?_, ?_, ?_⟩
  · rintro ⟨e, he, hpos⟩
    obtain ⟨k, hk, hkpos⟩ := take_has_pos (hsort (entriesFrom p clusters 0)).2
      ((hsort _).1.symm.subset he) hpos 4 (by decide)
    have hsum : 0 < weightSum (keptWeights sort 4 clusters p) :=
      weightSum_pos_of_mem hnn hk hkpos
    have hnorm : normalizeWeights (keptWeights sort 4 clusters p) =
        (keptWeights sort 4 clusters p).map fun w =>
          { weight := w.weight / weightSum (keptWeights sort 4 clusters p),
            index := w.index } := by
      unfold normalizeWeights
      rw [if_neg (ne_of_gt hsum)]
    refine ⟨?_, hnorm⟩
    rw [hnorm, sum_map_div, ← weightSum_eq_sum]
    exact div_self (ne_of_gt hsum)
  · intro h0
    exact ⟨by unfold normalizeWeights; rw [if_pos h0], weight_zero_of_weightSum_zero hnn h0⟩
  · refine ⟨_, blendWeightsOf_some _ _ _ _ _ _ _ hskin, ?_⟩
    have he : entriesFrom 0
        [{ entries := [] }, { entries := [] },
          { entries := [(0, 3602879701896397 / 72057594037927936)] }, { entries := [] },
          { entries := [] }, { entries := [(0, 3602879701896397 / 36028797018963968)] },
          { entries := [] }, { entries := [] }, { entries := [] },
          { entries := [(0, 0)] }] 0 =
        [{ weight := floatCast (3602879701896397 / 72057594037927936), index := 2 },
          { weight := floatCast (3602879701896397 / 36028797018963968), index := 5 }] := by
      simp [entriesFrom]
    have hs := sort_two hsort { weight := 13421773 / 268435456, index := 2 }
      { weight := 13421773 / 134217728, index := 5 } (by norm_num)
    rw [fetch_getElem sort 4 true 1 _ 0 (by decide), he, floatCast_twentieth, floatCast_tenth,
      hs]
    simp [normalizeWeights, weightSum]
    norm_num

/-- Claim C20 as amended, with the insertion sort as `std::sort`, at the
scenario's control point. -/
theorem blendWeights_normalized_witness :
    (IsGreaterSort greaterSort ∧ (0 < 8 ∧ 0 < 4 ∧ 0 < 1) ∧
      (∀ c ∈ [({ entries := [(0, 3602879701896397 / 72057594037927936)] } : FbxCluster),
          { entries := [(0, 3602879701896397 / 36028797018963968)] }],
        ∀ e ∈ c.entries, 0 ≤ e.2 ∧ e.2 ≤ 1) ∧ 0 < 1) ∧
    ∃ bw, blendWeightsOf greaterSort 4 true 8 1 1
        [{ entries := [(0, 3602879701896397 / 72057594037927936)] },
          { entries := [(0, 3602879701896397 / 36028797018963968)] }] = some bw ∧
      bw._pointBlendWeights[0]? = some (normalizeWeights (keptWeights greaterSort 4
        [{ entries := [(0, 3602879701896397 / 72057594037927936)] },
          { entries := [(0, 3602879701896397 / 36028797018963968)] }] 0)) ∧
      (weightSum (keptWeights greaterSort 4
          [{ entries := [(0, 3602879701896397 / 72057594037927936)] },
            { entries := [(0, 3602879701896397 / 36028797018963968)] }] 0) = 0 →
        Warning.wSourceConvertFbxZeroWeights ∈ bw.log) :=
  have hw : ∀ c ∈ [({ entries := [(0, 3602879701896397 / 72057594037927936)] } : FbxCluster),
      { entries := [(0, 3602879701896397 / 36028797018963968)] }],
      ∀ e ∈ c.entries, 0 ≤ e.2 ∧ e.2 ≤ 1 := by
    intro c hc e he
    simp only [List.mem_cons, List.mem_singleton, List.not_mem_nil, or_false] at hc
    rcases hc with rfl | rfl <;>
    · simp only [List.mem_singleton] at he
      rw [he]; norm_num
  ⟨⟨isGreaterSort_greaterSort, by decide, hw, by decide⟩,
    (blendWeights_normalized greaterSort isGreaterSort_greaterSort 4 true 8 1 (by decide) 1 _ hw 0
      (by decide)).1⟩


end FbxMeshInfo

namespace BlendBones

/-- Claim C21 fails as stated: in the slot set of capacity 3 given 5 and then
3, bone 5 is found at slot 0; after `sort()`, and after `sortBones()` on a
collection holding the slot set, it is found at slot 1. -/
theorem sort_moves_bone :
    (((ctor 3).add 5).1.add 3).1 = { _bones := [5, 3, -1] } ∧
      (((ctor 3).add 5).1.add 3).1.idx 5 = 0 ∧
      (((ctor 3).add 5).1.add 3).1.sort = { _bones := [3, 5, -1] } ∧
      (((ctor 3).add 5).1.add 3).1.sort.idx 5 = 1 ∧
      (BlendBonesCollection.sortBones
        { _bones := [(((ctor 3).add 5).1.add 3).1], _bonesCapacity := 3 })._bones =
        [{ _bones := [3, 5, -1] }] := by
  decide

end BlendBones

namespace BlendBones

theorem sort_bones_of_split {b : BlendBones} {p q : List Int} (hs : Split b p q) :
    b.sort._bones = p.insertionSort (fun x y => x ≤ y) ++ q := by
  unfold sort
  simp only []
  rw [split_size hs, hs.1, List.take_left, List.drop_left]

theorem sort_split {b : BlendBones} {p q : List Int} (hs : Split b p q) :
    Split b.sort (p.insertionSort fun x y => x ≤ y) q := by
  refine ⟨sort_bones_of_split hs, ?_, hs.2.2⟩
  intro x hx
  exact hs.2.1 x ((List.perm_insertionSort _ p).subset hx)

theorem reached_split {b : BlendBones} (h : Reached b) : ∃ p q, Split b p q := by
  induction h with
  | ctor capacity => exact ⟨_, _, split_ctor capacity⟩
  | add b v _ ih => exact add_split b v ih
  | addWeights b rhs _ ih =>
    rw [addWeights_eq]
    exact addFlat_split _ b ih
  | sort b _ ih =>
    obtain ⟨p, q, hs⟩ := ih
    exact ⟨_, _, sort_split hs⟩

theorem idxLoop_range (bone : Int) (l : List Int) (h : bone ∈ l) :
    0 ≤ idxLoop bone l 0 ∧ idxLoop bone l 0 < (l.length : Int) := by
  obtain ⟨k, h1, h2, _, _⟩ := idxLoop_mem bone l 0 h
  rw [h1]
  omega

/-- Claim C21, as the code has it: on a slot set reached from the constructor
by its mutating operations, a bone (a non-negative identifier) found at slot
`k` is still found at slot `k` after `add(int)` and `add(demand)`; `sort()`
keeps it in an occupied slot but puts the occupied identifiers in ascending
order, leaving the free slots alone, and `sortBones()` does so to every slot
set of a collection. -/
theorem idx_after_operations (b : BlendBones) (hb : Reached b) (bone : Int) (hbone : 0 ≤ bone)
    (k : Int) (hk : b.idx bone = k) (hk0 : 0 ≤ k) :
    (∀ v, (b.add v).1.idx bone = k) ∧ (∀ rhs, (b.addWeights rhs).1.idx bone = k) ∧
      (0 ≤ b.sort.idx bone ∧ b.sort.idx bone < (b.size : Int)) ∧
      ((b.sort._bones.take b.size).Perm (b._bones.take b.size) ∧
        (b.sort._bones.take b.size).Sorted (fun x y => x ≤ y) ∧
        b.sort._bones.drop b.size = b._bones.drop b.size) ∧
      (∀ (c : BlendBonesCollection) (i : Nat), c._bones[i]? = some b →
        c.sortBones._bones[i]? = some b.sort) := by
  obtain ⟨p, q, hs⟩ := reached_split hb
  have hm : bone ∈ p := mem_of_idx_nonneg hs hbone (by rw [hk]; exact hk0)
  have hk2 : idxLoop bone p 0 = k := by rw [← idx_of_split hs hm]; exact hk
  have hlen : (p.insertionSort fun x y => x ≤ y).length = p.length :=
    List.length_insertionSort _ p
  refine ⟨?_, ?_, ?_, ?_, ?_⟩
  · intro v
    obtain ⟨t, q2, h2⟩ := add_split_prefix b v hs
    rw [idx_of_split h2 (List.mem_append_left _ hm), idxLoop_append bone p t 0 hm]
    exact hk2
  · intro rhs
    obtain ⟨t, q2, h2⟩ := addFlat_split_prefix (demandBones rhs) b p q hs
    rw [addWeights_eq, idx_of_split h2 (List.mem_append_left _ hm), idxLoop_append bone p t 0 hm]
    exact hk2
  · have hm2 : bone ∈ p.insertionSort fun x y => x ≤ y :=
      (List.perm_insertionSort _ p).symm.subset hm
    rw [idx_of_split (sort_split hs) hm2, split_size hs, ← hlen]
    exact idxLoop_range bone _ hm2
  · rw [sort_bones_of_split hs, split_size hs, hs.1, List.take_left, List.drop_left, ← hlen,
      List.take_left, List.drop_left]
    exact ⟨List.perm_insertionSort _ p, List.sorted_insertionSort _ p, rfl⟩
  · intro c i hc
    unfold BlendBonesCollection.sortBones
    simp only [List.getElem?_map, hc, Option.map_some']

/-- Claim C21 as amended, at the slot set of capacity 3 given 5 and then 3. -/
theorem idx_after_operations_witness :
    (Reached (((ctor 3).add 5).1.add 3).1 ∧ (((ctor 3).add 5).1.add 3).1.idx 5 = 0) ∧
    ((((ctor 3).add 5).1.add 3).1.add 9).1.idx 5 = 0 ∧
    0 ≤ (((ctor 3).add 5).1.add 3).1.sort.idx 5 :=
  have hr : Reached (((ctor 3).add 5).1.add 3).1 :=
    Reached.add _ 3 (Reached.add _ 5 (Reached.ctor 3))
  have h := idx_after_operations _ hr 5 (by decide) 0 (by decide) (by decide)
  ⟨⟨hr, by decide⟩, h.1 9, h.2.2.1.1⟩

end BlendBones

namespace BlendBones

theorem packed_split {b : BlendBones} {p : List Int} {m : Nat} (h : Packed b p m) :
    Split b p (List.replicate m (-1)) :=
  ⟨h.1, h.2.1, fun x hx => by rw [List.eq_of_mem_replicate hx]; decide⟩

theorem packed_ctor (capacity : Nat) : Packed (ctor capacity) [] capacity :=
  ⟨rfl, fun _ h => absurd h (List.not_mem_nil _), List.nodup_nil⟩

theorem add_packed (b : BlendBones) (v : Int) (hv : 0 ≤ v) {p : List Int} {m : Nat}
    (h : Packed b p m) : ∃ p2 m2, Packed (b.add v).1 p2 m2 := by
  obtain ⟨hb, hp, hnd⟩ := h
  by_cases hmem : v ∈ p
  · refine ⟨p, m, ?_, hp, hnd⟩
    show (addLoop v b._bones 0).1 = _
    rw [hb, (addLoop_mem v p _ 0 hp hmem).1]
  · cases m with
    | zero =>
      refine ⟨p, 0, ?_, hp, hnd⟩
      show (addLoop v b._bones 0).1 = _
      rw [hb, List.replicate_zero, List.append_nil, addLoop_full v p 0 hp hmem]
    | succ m =>
      refine ⟨p ++ [v], m, ?_, ?_, ?_⟩
      · show (addLoop v b._bones 0).1 = _
        rw [hb, List.replicate_succ,
          addLoop_free v p (-1) _ 0 hp hmem (by decide) (fun e => by omega)]
        simp
      · intro z hz
        rcases List.mem_append.mp hz with h | h
        · exact hp z h
        · rw [List.mem_singleton.mp h]; exact hv
      · rw [List.nodup_append]
        refine ⟨hnd, List.nodup_singleton v, ?_⟩
        intro a ha hb2
        rw [List.mem_singleton.mp hb2] at ha
        exact hmem ha

theorem addFlat_packed (xs : List Int) :
    ∀ (b : BlendBones), (∀ x ∈ xs, 0 ≤ x) → (∃ p m, Packed b p m) →
      ∃ p m, Packed (addFlat b xs).1 p m := by
  induction xs with
  | nil => intro b _ h; exact h
  | cons x xs ih =>
    intro b hxs h
    obtain ⟨p, m, hpk⟩ := h
    have h1 := add_packed b x (hxs x (List.mem_cons_self _ _)) hpk
    unfold addFlat
    split
    · exact h1
    · exact ih _ (fun z hz => hxs z (List.mem_cons_of_mem _ hz)) h1

theorem sort_packed {b : BlendBones} {p : List Int} {m : Nat} (h : Packed b p m) :
    Packed b.sort (p.insertionSort fun x y => x ≤ y) m :=
  ⟨sort_bones_of_split (packed_split h),
    fun x hx => h.2.1 x ((List.perm_insertionSort _ p).subset hx),
    (List.perm_insertionSort _ p).nodup_iff.mpr h.2.2⟩

theorem built_packed {b : BlendBones} (h : Built b) : ∃ p m, Packed b p m := by
  induction h with
  | ctor capacity => exact ⟨_, _, packed_ctor capacity⟩
  | add b v hv _ ih =>
    obtain ⟨p, m, hpk⟩ := ih
    exact add_packed b v hv hpk
  | addWeights b rhs hnn _ ih =>
    rw [addWeights_eq]
    exact addFlat_packed _ b hnn ih
  | sort b _ ih =>
    obtain ⟨p, m, hpk⟩ := ih
    exact ⟨_, _, sort_packed hpk⟩

theorem get_eq_getD (b : BlendBones) (k : Nat) : b.get k = b._bones.getD k (-1) := by
  unfold get _capacity
  split
  · rfl
  · rename_i h
    rw [List.getD_eq_default _ _ (not_lt.mp h)]

theorem packed_get_lt {b : BlendBones} {p : List Int} {m : Nat} (h : Packed b p m) {k : Nat}
    (hk : k < p.length) : b.get k = p.getD k (-1) := by
  rw [get_eq_getD, h.1, List.getD_append _ _ _ _ hk]

theorem packed_get_ge {b : BlendBones} {p : List Int} {m : Nat} (h : Packed b p m) {k : Nat}
    (hk : p.length ≤ k) : b.get k = -1 := by
  rw [get_eq_getD, h.1, List.getD_append_right _ _ _ _ hk, List.getD_eq_getElem?_getD]
  cases hh : (List.replicate m (-1 : Int))[k - p.length]? with
  | none => rfl
  | some x =>
    have := List.getElem?_mem hh
    rw [List.eq_of_mem_replicate this]
    rfl

theorem nodup_getD_ne {p : List Int} (hnd : p.Nodup) {j k : Nat} (hjk : j < k)
    (hk : k < p.length) : p.getD j (-1) ≠ p.getD k (-1) := by
  rw [List.getD_eq_getElem _ _ (by omega), List.getD_eq_getElem _ _ hk]
  intro e
  have := (hnd.getElem_inj_iff).mp e
  omega

end BlendBones

namespace BlendBones

theorem packed_idx {b : BlendBones} {p : List Int} {m : Nat} (h : Packed b p m) {k : Nat}
    (hk : k < p.length) : b.idx (b.get k) = (k : Int) := by
  have hget : b.get k = p.getD k (-1) := packed_get_lt h hk
  have hmem : p.getD k (-1) ∈ p := by
    rw [List.getD_eq_getElem _ _ hk]; exact List.getElem_mem _
  rw [hget, idx_of_split (packed_split h) hmem]
  obtain ⟨k2, h1, h2, h3, h4⟩ := idxLoop_mem (p.getD k (-1)) p 0 hmem
  rw [h1]
  have hle : k2 ≤ k := by
    by_contra hc
    exact h4 k (by omega) rfl
  rcases Nat.eq_or_lt_of_le hle with e | e
  · rw [e]; congr 1; omega
  · exact absurd h3 (nodup_getD_ne h.2.2 e hk)

theorem packed_count {b : BlendBones} {p : List Int} {m : Nat} (h : Packed b p m) :
    (b._bones.filter fun x => decide (0 ≤ x)).toFinset.card = p.length := by
  have h1 : (p.filter fun x => decide (0 ≤ x)) = p :=
    List.filter_eq_self.mpr fun a ha => by simpa using h.2.1 a ha
  rw [h.1, List.filter_append, h1, List.filter_replicate_of_neg (by decide), List.append_nil,
    List.toFinset_card_of_nodup h.2.2]

/-- Claim C24: in every slot set reached from the constructor by `add(int)` and
`add(demand)` with non-negative identifiers and by `sort()`, the slots below
`size()` hold non-negative identifiers, every later slot is -1, the occupied
identifiers are pairwise distinct, `size()` is the number of identifiers held,
`available()` is the capacity minus `size()`, and `idx(operator[](k)) == k`
for every `k < size()`. -/
theorem built_invariant (b : BlendBones) (hb : Built b) :
    (∀ k, k < b.size → 0 ≤ b.get k) ∧
      (∀ k, b.size ≤ k → b.get k = -1) ∧
      (∀ j k, j < k → k < b.size → b.get j ≠ b.get k) ∧
      b.size = (b._bones.filter fun x => decide (0 ≤ x)).toFinset.card ∧
      (b.size ≤ b._capacity ∧ b.available = b._capacity - b.size) ∧
      (∀ k, k < b.size → b.idx (b.get k) = (k : Int)) := by
  obtain ⟨p, m, hpk⟩ := built_packed hb
  have hsize : b.size = p.length := split_size (packed_split hpk)
  rw [hsize]
  refine ⟨?_, ?_, ?_, ?_, ?_, ?_⟩
  · intro k hk
    rw [packed_get_lt hpk hk, List.getD_eq_getElem _ _ hk]
    exact hpk.2.1 _ (List.getElem_mem _)
  · intro k hk
    exact packed_get_ge hpk hk
  · intro j k hjk hk
    rw [packed_get_lt hpk hk, packed_get_lt hpk (by omega)]
    exact nodup_getD_ne hpk.2.2 hjk hk
  · exact (packed_count hpk).symm
  · constructor
    · unfold _capacity
      rw [hpk.1, List.length_append]
      omega
    · unfold available
      rw [hsize]
  · intro k hk
    exact packed_idx hpk hk

/-- Claim C24 at the slot set of capacity 4 given 5, then the demand 3, 5, 7, then sorted. -/
theorem built_invariant_witness :
    Built (((ctor 4).add 5).1.addWeights [[⟨0, 3⟩, ⟨0, 5⟩], [⟨0, 7⟩]]).1.sort ∧
    (((ctor 4).add 5).1.addWeights [[⟨0, 3⟩, ⟨0, 5⟩], [⟨0, 7⟩]]).1.sort =
      { _bones := [3, 5, 7, -1] } ∧
    (∀ k, k < (((ctor 4).add 5).1.addWeights [[⟨0, 3⟩, ⟨0, 5⟩], [⟨0, 7⟩]]).1.sort.size →
      (((ctor 4).add 5).1.addWeights [[⟨0, 3⟩, ⟨0, 5⟩], [⟨0, 7⟩]]).1.sort.idx
        ((((ctor 4).add 5).1.addWeights [[⟨0, 3⟩, ⟨0, 5⟩], [⟨0, 7⟩]]).1.sort.get k) = (k : Int)) :=
  have hb : Built (((ctor 4).add 5).1.addWeights [[⟨0, 3⟩, ⟨0, 5⟩], [⟨0, 7⟩]]).1.sort :=
    Built.sort _ (Built.addWeights _ _ (by decide) (Built.add _ 5 (by decide) (Built.ctor 4)))
  ⟨hb, by decide, (built_invariant _ hb).2.2.2.2.2⟩

end BlendBones

namespace FbxMeshInfo

theorem foldl_agree {mesh : FbxMesh} {f g : FbxMeshInfo → Nat → FbxMeshInfo}
    (hf : PlansParts mesh f) (hg : PlansParts mesh g) (l : List Nat) :
    ∀ info1 info2, info1._polyPartMap = info2._polyPartMap → info1.log = info2.log →
      info1._meshPartCount = info2._meshPartCount →
      (l.foldl f info1)._polyPartMap = (l.foldl g info2)._polyPartMap ∧
      (l.foldl f info1).log = (l.foldl g info2).log := by
  induction l with
  | nil => intro info1 info2 h1 h2 _; exact ⟨h1, h2⟩
  | cons q l ih =>
    intro info1 info2 h1 h2 h3
    rw [List.foldl_cons, List.foldl_cons]
    apply ih
    · rw [(hf info1 q).2.1, (hg info2 q).2.1, h1, h3]
    · rw [(hf info1 q).2.2, (hg info2 q).2.2, h2, h3]
    · rw [(hf info1 q).1, (hg info2 q).1, h3]

theorem foldl_partsStep_rest (mesh : FbxMesh) (l : List Nat) :
    ∀ info, (l.foldl (partsStep mesh) info)._polyPartBonesMap = info._polyPartBonesMap ∧
      (l.foldl (partsStep mesh) info)._partBones = info._partBones ∧
      (l.foldl (partsStep mesh) info).bonesOverflow = info.bonesOverflow := by
  induction l with
  | nil => intro info; exact ⟨rfl, rfl, rfl⟩
  | cons q l ih =>
    intro info
    rw [List.foldl_cons]
    obtain ⟨h1, h2, h3⟩ := ih (partsStep mesh info q)
    rw [h1, h2, h3]
    unfold partsStep
    simp only []
    split <;> exact ⟨rfl, rfl, rfl⟩

/-- Claim C27: started from states with the same `_polyPartMap`, log and part
count, `fetchMeshPartsAndBones` and `fetchMeshParts` leave the same
`_polyPartMap` and the same log, so the no-part warning is logged for the same
polygons; `fetchMeshParts` writes nothing else (the slot-set ids, the
collections and the overflow flag are as before). -/
theorem planners_agree (mesh : FbxMesh) (info1 info2 : FbxMeshInfo)
    (hmap : info1._polyPartMap = info2._polyPartMap) (hlog : info1.log = info2.log)
    (hcount : info1._meshPartCount = info2._meshPartCount) :
    (fetchMeshPartsAndBones mesh info1)._polyPartMap = (fetchMeshParts mesh info2)._polyPartMap ∧
      (fetchMeshPartsAndBones mesh info1).log = (fetchMeshParts mesh info2).log ∧
      (∀ poly, Warning.wSourceConvertFbxNoPolyPart poly ∈ (fetchMeshPartsAndBones mesh info1).log ↔
        Warning.wSourceConvertFbxNoPolyPart poly ∈ (fetchMeshParts mesh info2).log) ∧
      ((fetchMeshParts mesh info2)._polyPartBonesMap = info2._polyPartBonesMap ∧
        (fetchMeshParts mesh info2)._partBones = info2._partBones ∧
        (fetchMeshParts mesh info2).bonesOverflow = info2.bonesOverflow) := by
  have h := foldl_agree (plansParts_partsAndBonesStep mesh) (plansParts_partsStep mesh)
    (List.range mesh.GetPolygonCount) info1 info2 hmap hlog hcount
  have hrest := foldl_partsStep_rest mesh (List.range mesh.GetPolygonCount) info2
  unfold fetchMeshPartsAndBones fetchMeshParts
  exact ⟨h.1, h.2, fun poly => by rw [h.2], hrest⟩

/-- Claim C27 at the mesh of one triangle, skinned with the bones 1, 2, 3 against unskinned. -/
theorem planners_agree_witness :
    ((init FbxMesh.oneTriangle 2 [[⟨0, 1⟩], [⟨0, 2⟩], [⟨0, 3⟩]])._polyPartMap =
        (init FbxMesh.oneTriangle 2 [])._polyPartMap ∧
      (init FbxMesh.oneTriangle 2 [[⟨0, 1⟩], [⟨0, 2⟩], [⟨0, 3⟩]]).log =
        (init FbxMesh.oneTriangle 2 []).log ∧
      (init FbxMesh.oneTriangle 2 [[⟨0, 1⟩], [⟨0, 2⟩], [⟨0, 3⟩]])._meshPartCount =
        (init FbxMesh.oneTriangle 2 [])._meshPartCount) ∧
    (fetchMeshPartsAndBones FbxMesh.oneTriangle
        (init FbxMesh.oneTriangle 2 [[⟨0, 1⟩], [⟨0, 2⟩], [⟨0, 3⟩]]))._polyPartMap =
      (fetchMeshParts FbxMesh.oneTriangle (init FbxMesh.oneTriangle 2 []))._polyPartMap :=
  ⟨⟨rfl, rfl, rfl⟩,
    (planners_agree FbxMesh.oneTriangle
      (init FbxMesh.oneTriangle 2 [[⟨0, 1⟩], [⟨0, 2⟩], [⟨0, 3⟩]])
      (init FbxMesh.oneTriangle 2 []) rfl rfl rfl).1⟩

theorem foldl_mpc (mesh : FbxMesh) (l : List Nat) :
    ∀ a : Int, 0 ≤ a →
      a ≤ l.foldl (fun mpc poly =>
          if polyMaterial mesh poly ≥ mpc then polyMaterial mesh poly + 1 else mpc) a ∧
      (∀ p ∈ l, polyMaterial mesh p < l.foldl (fun mpc poly =>
          if polyMaterial mesh poly ≥ mpc then polyMaterial mesh poly + 1 else mpc) a) ∧
      (l.foldl (fun mpc poly =>
          if polyMaterial mesh poly ≥ mpc then polyMaterial mesh poly + 1 else mpc) a = a ∨
        ∃ p ∈ l, l.foldl (fun mpc poly =>
          if polyMaterial mesh poly ≥ mpc then polyMaterial mesh poly + 1 else mpc) a =
            polyMaterial mesh p + 1) := by
  induction l with
  | nil =>
    intro a _
    exact ⟨le_refl _, fun p hp => absurd hp (List.not_mem_nil _), Or.inl rfl⟩
  | cons q l ih =>
    intro a ha
    rw [List.foldl_cons]
    by_cases hq : polyMaterial mesh q ≥ a
    · rw [if_pos hq]
      obtain ⟨i1, i2, i3⟩ := ih (polyMaterial mesh q + 1) (by omega)
      refine ⟨by omega, ?_, ?_⟩
      · intro p hp
        rcases List.mem_cons.mp hp with e | e
        · rw [e]; omega
        · exact i2 p e
      · right
        rcases i3 with e | ⟨p, hp, e⟩
        · exact ⟨q, List.mem_cons_self _ _, e⟩
        · exact ⟨p, List.mem_cons_of_mem _ hp, e⟩
    · rw [if_neg hq]
      obtain ⟨i1, i2, i3⟩ := ih a ha
      refine ⟨i1, ?_, ?_⟩
      · intro p hp
        rcases List.mem_cons.mp hp with e | e
        · rw [e]; omega
        · exact i2 p e
      · rcases i3 with e | ⟨p, hp, e⟩
        · exact Or.inl e
        · exact Or.inr ⟨p, List.mem_cons_of_mem _ hp, e⟩

theorem wrapInt_of_fits (x : Int) (h1 : -2147483648 ≤ x) (h2 : x < 2147483648) :
    wrapInt x = x := by
  unfold wrapInt
  omega

theorem wrapInt_mod (x : Int) : wrapInt (x % 4294967296) = wrapInt x := by
  unfold wrapInt
  omega

theorem foldl_wrap_eq (mesh : FbxMesh) (l : List Nat)
    (hfit : ∀ p ∈ l, polyMaterial mesh p < 2147483647) :
    ∀ a : Int, 0 ≤ a →
      l.foldl (fun mpc poly =>
          if polyMaterial mesh poly ≥ mpc then wrapInt (polyMaterial mesh poly + 1) else mpc) a =
        l.foldl (fun mpc poly =>
          if polyMaterial mesh poly ≥ mpc then polyMaterial mesh poly + 1 else mpc) a := by
  induction l with
  | nil => intro a _; rfl
  | cons q l ih =>
    intro a ha
    have hq := hfit q (List.mem_cons_self _ _)
    have hl : ∀ p ∈ l, polyMaterial mesh p < 2147483647 :=
      fun p hp => hfit p (List.mem_cons_of_mem _ hp)
    rw [List.foldl_cons, List.foldl_cons]
    by_cases hge : polyMaterial mesh q ≥ a
    · rw [if_pos hge, if_pos hge, wrapInt_of_fits _ (by omega) (by omega)]
      exact ih hl _ (by omega)
    · rw [if_neg hge, if_neg hge]
      exact ih hl a ha

/-- When no polygon has the material index INT_MAX, the part count is
`max(1, 1 + the largest material index of a polygon)`: it is at least 1, above
every polygon's material index, and is 1 or one more than the material index
of some polygon. -/
theorem calcMeshPartCount_spec (mesh : FbxMesh)
    (hfit : ∀ poly, poly < mesh.GetPolygonCount → polyMaterial mesh poly < 2147483647) :
    1 ≤ calcMeshPartCount mesh ∧
      (∀ poly, poly < mesh.GetPolygonCount → polyMaterial mesh poly < calcMeshPartCount mesh) ∧
      (calcMeshPartCount mesh = 1 ∨
        ∃ poly, poly < mesh.GetPolygonCount ∧
          calcMeshPartCount mesh = polyMaterial mesh poly + 1) := by
  have hfit2 : ∀ p ∈ List.range mesh.GetPolygonCount, polyMaterial mesh p < 2147483647 :=
    fun p hp => hfit p (List.mem_range.mp hp)
  obtain ⟨h1, h2, h3⟩ := foldl_mpc mesh (List.range mesh.GetPolygonCount) 0 (le_refl _)
  have hw := foldl_wrap_eq mesh (List.range mesh.GetPolygonCount) hfit2 0 (le_refl _)
  by_cases h0 : (List.range mesh.GetPolygonCount).foldl (fun mpc poly =>
      if polyMaterial mesh poly ≥ mpc then polyMaterial mesh poly + 1 else mpc) (0 : Int) = 0
  · have hc : calcMeshPartCount mesh = 1 := by
      unfold calcMeshPartCount
      simp only [hw, h0, beq_self_eq_true, if_true]
      rfl
    rw [h0] at h2
    rw [hc]
    exact ⟨le_refl _, fun poly hp => by have := h2 poly (List.mem_range.mpr hp); omega,
      Or.inl rfl⟩
  · have hb : ((List.range mesh.GetPolygonCount).foldl (fun mpc poly =>
        if polyMaterial mesh poly ≥ mpc then polyMaterial mesh poly + 1 else mpc) (0 : Int)
          == 0) = false := by simpa using h0
    have hlt : (List.range mesh.GetPolygonCount).foldl (fun mpc poly =>
        if polyMaterial mesh poly ≥ mpc then polyMaterial mesh poly + 1 else mpc) (0 : Int) <
          2147483648 := by
      rcases h3 with e | ⟨p, hp, e⟩
      · exact absurd e h0
      · rw [e]
        have := hfit2 p hp
        omega
    have hc : calcMeshPartCount mesh = (List.range mesh.GetPolygonCount).foldl (fun mpc poly =>
        if polyMaterial mesh poly ≥ mpc then polyMaterial mesh poly + 1 else mpc) (0 : Int) := by
      unfold calcMeshPartCount
      simp only [hw, hb, Bool.false_eq_true, if_false]
      rw [wrapInt_mod, wrapInt_of_fits _ (by omega) hlt]
    rw [hc]
    refine ⟨by omega, fun poly hp => h2 poly (List.mem_range.mpr hp), ?_⟩
    rcases h3 with e | ⟨p, hp, e⟩
    · exact absurd e h0
    · exact Or.inr ⟨p, List.mem_range.mp hp, e⟩

end FbxMeshInfo

namespace BlendBonesCollection

/-- The value returned by `add` is -1 or an index below the new size; the
collection does not shrink and is not empty afterwards. -/
theorem add_result_range (c : BlendBonesCollection) (rhs : List (List BlendWeight)) :
    ((c.add rhs).2 = -1 ∨ (0 ≤ (c.add rhs).2 ∧ (c.add rhs).2 < ((c.add rhs).1.size : Int))) ∧
      1 ≤ (c.add rhs).1.size ∧ c.size ≤ (c.add rhs).1.size := by
  rcases pickLoop_cases rhs c._bones 0 (c._bonesCapacity : Int) (-1) with h | ⟨k, hk, h1, _, _⟩
  · rw [add_eq_of_none c rhs h]
    simp only [size, List.length_append, List.length_singleton]
    refine ⟨?_, by omega, by omega⟩
    split
    · right; omega
    · left; rfl
  · have h1' : pickLoop rhs c._bones 0 (c._bonesCapacity : Int) (-1) = (k : Int) := by
      rw [h1]; congr 1; omega
    rw [add_eq_of_picked c rhs k h1']
    simp only [size, List.length_set]
    refine ⟨?_, by omega, le_refl _⟩
    split
    · right; omega
    · left; rfl

theorem mem_addWeights_of_mem {b : BlendBones} (hs : ∃ p q, BlendBones.Split b p q)
    (rhs : List (List BlendWeight)) {x : Int} (hx : 0 ≤ x) (hm : x ∈ b._bones) :
    x ∈ (b.addWeights rhs).1._bones := by
  obtain ⟨p, q, hs⟩ := hs
  have hp : x ∈ p := by
    rw [hs.1, List.mem_append] at hm
    rcases hm with h | h
    · exact h
    · have := hs.2.2 x h; omega
  obtain ⟨t, q2, h2⟩ := BlendBones.addFlat_split_prefix (BlendBones.demandBones rhs) b p q hs
  rw [BlendBones.addWeights_eq, h2.1]
  exact List.mem_append_left _ (List.mem_append_left _ hp)

/-- A call of `add` keeps every slot set in place and every non-negative
identifier it holds. -/
theorem add_keeps (c : BlendBonesCollection) (hc : WF c) (rhs : List (List BlendWeight))
    (slot : Nat) (b : BlendBones) (hb : c._bones[slot]? = some b) :
    ∃ b2, (c.add rhs).1._bones[slot]? = some b2 ∧
      ∀ x, 0 ≤ x → x ∈ b._bones → x ∈ b2._bones := by
  have hlt : slot < c._bones.length := by
    by_contra hcon
    rw [List.getElem?_eq_none (not_lt.mp hcon)] at hb
    exact Option.noConfusion hb
  rcases pickLoop_cases rhs c._bones 0 (c._bonesCapacity : Int) (-1) with h | ⟨k, hk, h1, _, _⟩
  · rw [add_eq_of_none c rhs h]
    exact ⟨b, by simp only []; rw [List.getElem?_append_left hlt]; exact hb, fun x _ hx => hx⟩
  · have h1' : pickLoop rhs c._bones 0 (c._bonesCapacity : Int) (-1) = (k : Int) := by
      rw [h1]; congr 1; omega
    rw [add_eq_of_picked c rhs k h1']
    simp only []
    by_cases hks : k = slot
    · subst hks
      have hget : c._bones.getD k (BlendBones.ctor 0) = b := by
        rw [List.getD_eq_getElem?_getD, hb]; rfl
      rw [hget, List.getElem?_set_self hlt]
      refine ⟨_, rfl, fun x hx hm => ?_⟩
      exact mem_addWeights_of_mem (hc b (List.getElem?_mem hb)).2 rhs hx hm
    · rw [List.getElem?_set_ne hks]
      exact ⟨b, hb, fun x _ hx => hx⟩

/-- After a successful `add` the slot set of the returned index holds every
identifier of the demand. -/
theorem add_holds (c : BlendBonesCollection) (hc : WF c) (rhs : List (List BlendWeight))
    (hnn : ∀ x ∈ BlendBones.demandBones rhs, 0 ≤ x) (h0 : 0 ≤ (c.add rhs).2) :
    ∃ b2, (c.add rhs).1._bones[(c.add rhs).2.toNat]? = some b2 ∧
      ∀ x ∈ BlendBones.demandBones rhs, x ∈ b2._bones := by
  rcases add_cases c hc rhs hnn with ⟨k, hk, _, hok, h⟩ | ⟨_, h1, h2⟩
  · rw [h]
    simp only [Int.toNat_ofNat]
    rw [List.getElem?_set_self hk]
    refine ⟨_, rfl, fun x hx => ?_⟩
    have hmem : c._bones.getD k (BlendBones.ctor 0) ∈ c._bones := by
      rw [List.getD_eq_getElem _ _ hk]; exact List.getElem_mem _
    obtain ⟨_, p, q, hs⟩ := hc _ hmem
    have hle : (BlendBones.missing (c._bones.getD k (BlendBones.ctor 0)) rhs).length ≤ q.length := by
      by_contra hcon
      have := ((BlendBones.addWeights_of_split hs rhs hnn).2 (not_le.mp hcon)).1
      rw [this] at hok
      exact Bool.noConfusion hok
    rw [(BlendBones.addWeights_of_split hs rhs hnn).1 hle]
    simp only []
    by_cases hp : x ∈ p
    · exact List.mem_append_left _ (List.mem_append_left _ hp)
    · apply List.mem_append_left
      apply List.mem_append_right
      rw [BlendBones.split_missing hs rhs hnn, BlendBones.mem_firstOcc, List.mem_filter]
      exact ⟨hx, by simpa using hp⟩
  · by_cases hle : (BlendBones.firstOcc (BlendBones.demandBones rhs)).length ≤ c._bonesCapacity
    · rw [h1 hle]
      simp only [Int.toNat_ofNat]
      rw [List.getElem?_append_right (le_refl _)]
      simp only [Nat.sub_self, List.getElem?_cons_zero]
      refine ⟨_, rfl, fun x hx => ?_⟩
      exact List.mem_append_left _ ((BlendBones.mem_firstOcc _ x).mpr hx)
    · rw [h2 (not_le.mp hle)] at h0
      simp only at h0
      omega

end BlendBonesCollection

namespace FbxMeshInfo

theorem slotInRange_step_self {mesh : FbxMesh} {cap : Nat} {pbw : List (List BlendWeight)}
    {info : FbxMeshInfo} (hJ : Planned mesh cap pbw info) {poly : Nat}
    (hpoly : poly < mesh.GetPolygonCount)
    (h : ¬ (polyMaterial mesh poly < 0 ∨ polyMaterial mesh poly ≥ info._meshPartCount)) :
    SlotInRange (partsAndBonesStep mesh info poly) poly := by
  have hlt := (part_mem_of_planned hJ h).1
  have hr := BlendBonesCollection.add_result_range
    (info._partBones.getD (polyMaterial mesh poly).toNat (BlendBonesCollection.ctor 0))
    (polyWeights mesh info._pointBlendWeights poly)
  rw [step_of_part mesh info poly h]
  refine ⟨polyMaterial mesh poly,
    (if ((info._partBones.getD (polyMaterial mesh poly).toNat
                (BlendBonesCollection.ctor 0)).add
              (polyWeights mesh info._pointBlendWeights poly)).2 < 0 then 0
           else ((info._partBones.getD (polyMaterial mesh poly).toNat
                (BlendBonesCollection.ctor 0)).add
              (polyWeights mesh info._pointBlendWeights poly)).2.toNat),
    ((info._partBones.getD (polyMaterial mesh poly).toNat (BlendBonesCollection.ctor 0)).add
            (polyWeights mesh info._pointBlendWeights poly)).1,
    ?_, by omega, ?_, ?_, ?_⟩
  · simp only []
    exact List.getElem?_set_self (by rw [hJ.2.2.2.1]; exact hpoly)
  · simp only []
    exact List.getElem?_set_self (by rw [hJ.2.2.2.2]; exact hpoly)
  · simp only []
    exact List.getElem?_set_self hlt
  · split
    · omega
    · rename_i hsp
      rcases hr.1 with e | ⟨_, e⟩
      · omega
      · omega

theorem slotInRange_step_other (mesh : FbxMesh) (info : FbxMeshInfo) {poly q : Nat}
    (hq : q ≠ poly) (h : SlotInRange info poly) :
    SlotInRange (partsAndBonesStep mesh info q) poly := by
  obtain ⟨mp, slot, c, h1, h2, h3, h4, h5⟩ := h
  by_cases hv : polyMaterial mesh q < 0 ∨ polyMaterial mesh q ≥ info._meshPartCount
  · rw [step_of_noPart mesh info q hv]
    exact ⟨mp, slot, c, by simp only []; rw [List.getElem?_set_ne hq]; exact h1, h2, h3, h4, h5⟩
  · rw [step_of_part mesh info q hv]
    by_cases hsame : (polyMaterial mesh q).toNat = mp.toNat
    · have hget : info._partBones.getD (polyMaterial mesh q).toNat (BlendBonesCollection.ctor 0) =
          c := by
        rw [List.getD_eq_getElem?_getD, hsame, h4]; rfl
      have hlt : mp.toNat < info._partBones.length := by
        by_contra hcon
        rw [List.getElem?_eq_none (not_lt.mp hcon)] at h4
        exact Option.noConfusion h4
      refine ⟨mp, slot, (c.add (polyWeights mesh info._pointBlendWeights q)).1,
        ?_, h2, ?_, ?_, ?_⟩
      · simp only []; rw [List.getElem?_set_ne hq]; exact h1
      · simp only []; rw [List.getElem?_set_ne hq]; exact h3
      · simp only []
        rw [hget, hsame, List.getElem?_set_self hlt]
      · exact lt_of_lt_of_le h5 (BlendBonesCollection.add_result_range c _).2.2
    · refine ⟨mp, slot, c, ?_, h2, ?_, ?_, h5⟩
      · simp only []; rw [List.getElem?_set_ne hq]; exact h1
      · simp only []; rw [List.getElem?_set_ne hq]; exact h3
      · simp only []; rw [List.getElem?_set_ne hsame]; exact h4

theorem slotInRange_foldl (mesh : FbxMesh) (l : List Nat) (poly : Nat) (hp : poly ∉ l) :
    ∀ info, SlotInRange info poly → SlotInRange (l.foldl (partsAndBonesStep mesh) info) poly := by
  induction l with
  | nil => intro info h; exact h
  | cons q l ih =>
    intro info h
    have hq : q ≠ poly := fun e => hp (e ▸ List.mem_cons_self _ _)
    exact ih (fun hm => hp (List.mem_cons_of_mem _ hm)) _ (slotInRange_step_other mesh info hq h)

theorem foldl_partBones_length (mesh : FbxMesh) (l : List Nat) :
    ∀ info, (l.foldl (partsAndBonesStep mesh) info)._partBones.length =
      info._partBones.length := by
  induction l with
  | nil => intro info; rfl
  | cons q l ih =>
    intro info
    rw [List.foldl_cons, ih]
    by_cases hv : polyMaterial mesh q < 0 ∨ polyMaterial mesh q ≥ info._meshPartCount
    · rw [step_of_noPart mesh info q hv]
    · rw [step_of_part mesh info q hv]
      simp only [List.length_set]

/-- Claim C25 fails as stated: in the mesh whose first polygon has the
material index INT_MAX and whose second has 0, `mp+1` does not fit an `int`;
the part count is 1, not one more than the largest index, and the first polygon
takes the branch `mp >= _meshPartCount` in `fetchMeshPartsAndBones`: it gets the
no-part value and the warning. -/
theorem overflow_takes_no_part_branch :
    polyMaterial FbxMesh.maxIndexFirst 0 = 2147483647 ∧
      calcMeshPartCount FbxMesh.maxIndexFirst = 1 ∧
      calcMeshPartCount FbxMesh.maxIndexFirst ≠ max 1 (1 + polyMaterial FbxMesh.maxIndexFirst 0) ∧
      polyMaterial FbxMesh.maxIndexFirst 0 ≥
        (init FbxMesh.maxIndexFirst 8 [[], [], []])._meshPartCount ∧
      (fetchMeshPartsAndBones FbxMesh.maxIndexFirst
        (init FbxMesh.maxIndexFirst 8 [[], [], []]))._polyPartMap = [-1, 0] ∧
      (fetchMeshPartsAndBones FbxMesh.maxIndexFirst
        (init FbxMesh.maxIndexFirst 8 [[], [], []])).log =
        [Warning.wSourceConvertFbxNoPolyPart 0] := by
  decide

/-- Claim C25, as the code has it: when no polygon has the material index
INT_MAX, so that `mp+1` fits an `int`, `calcMeshPartCount` is
`max(1, 1 + the largest material index)` (at least 1, above every polygon's
index, and 1 or one more than some polygon's index), so no polygon has
`mp >= _meshPartCount`; after `fetchMeshPartsAndBones`, `_partBones` has
`_meshPartCount` entries and every polygon whose `_polyPartMap` entry is not -1
has that entry in `[0, _meshPartCount)` and its `_polyPartBonesMap` entry below
the size of the collection of its part, overflowed or not. -/
theorem lookups_in_range (mesh : FbxMesh) (cap : Nat) (pbw : List (List BlendWeight))
    (hfit : ∀ poly, poly < mesh.GetPolygonCount → polyMaterial mesh poly < 2147483647) :
    (1 ≤ calcMeshPartCount mesh ∧
      (∀ poly, poly < mesh.GetPolygonCount → polyMaterial mesh poly < calcMeshPartCount mesh) ∧
      (calcMeshPartCount mesh = 1 ∨
        ∃ poly, poly < mesh.GetPolygonCount ∧
          calcMeshPartCount mesh = polyMaterial mesh poly + 1)) ∧
      (∀ poly, poly < mesh.GetPolygonCount →
        ¬ (polyMaterial mesh poly ≥ (init mesh cap pbw)._meshPartCount)) ∧
      ((fetchMeshPartsAndBones mesh (init mesh cap pbw))._partBones.length =
        (fetchMeshPartsAndBones mesh (init mesh cap pbw))._meshPartCount.toNat) ∧
      (∀ poly mp, poly < mesh.GetPolygonCount →
        (fetchMeshPartsAndBones mesh (init mesh cap pbw))._polyPartMap[poly]? = some mp →
        mp ≠ -1 →
          0 ≤ mp ∧ mp < (fetchMeshPartsAndBones mesh (init mesh cap pbw))._meshPartCount ∧
          ∃ slot c,
            (fetchMeshPartsAndBones mesh (init mesh cap pbw))._polyPartBonesMap[poly]? =
              some slot ∧
            (fetchMeshPartsAndBones mesh (init mesh cap pbw))._partBones[mp.toNat]? = some c ∧
            slot < c.size) := by
  have hspec := calcMeshPartCount_spec mesh hfit
  have hJ0 := planned_init mesh cap pbw
  have hc0 : (init mesh cap pbw)._meshPartCount = calcMeshPartCount mesh := rfl
  have hcount : (fetchMeshPartsAndBones mesh (init mesh cap pbw))._meshPartCount =
      calcMeshPartCount mesh := by
    unfold fetchMeshPartsAndBones
    rw [foldl_count (plansParts_partsAndBonesStep mesh)]; rfl
  refine ⟨hspec, ?_, ?_, ?_⟩
  · intro poly hpoly
    rw [hc0]
    have := hspec.2.1 poly hpoly
    omega
  · rw [hcount]
    unfold fetchMeshPartsAndBones
    rw [foldl_partBones_length]
    simp [init]
  · intro poly mp hpoly hmap hne
    have hmem := mem_range_of_lt hpoly
    have hmap2 : (fetchMeshPartsAndBones mesh (init mesh cap pbw))._polyPartMap[poly]? =
        some (partOf mesh (calcMeshPartCount mesh) poly) := by
      unfold fetchMeshPartsAndBones
      rw [foldl_map_mem (plansParts_partsAndBonesStep mesh) _ poly hmem _
        (by rw [hJ0.2.2.2.1]; exact hpoly), hc0]
    rw [hmap2] at hmap
    have hmp : partOf mesh (calcMeshPartCount mesh) poly = mp := Option.some.inj hmap
    have hvalid : ¬ (polyMaterial mesh poly < 0 ∨ polyMaterial mesh poly ≥
        calcMeshPartCount mesh) := by
      intro hno
      exact hne (by rw [← hmp]; exact (partOf_eq_neg_one_iff _ _ _).mpr hno)
    have hmp2 : mp = polyMaterial mesh poly := by
      rw [← hmp]; unfold partOf; rw [if_neg hvalid]
    obtain ⟨l1, l2, hl⟩ := List.append_of_mem hmem
    have hnd : (l1 ++ poly :: l2).Nodup := hl ▸ List.nodup_range _
    have hp2 : poly ∉ l2 := (List.nodup_cons.mp (List.nodup_append.mp hnd).2.1).1
    have hJ1 := @planned_foldl mesh cap pbw l1 _ hJ0
    have hc1 : (l1.foldl (partsAndBonesStep mesh) (init mesh cap pbw))._meshPartCount =
        calcMeshPartCount mesh := by
      rw [foldl_count (plansParts_partsAndBonesStep mesh)]; rfl
    have hres : fetchMeshPartsAndBones mesh (init mesh cap pbw) =
        l2.foldl (partsAndBonesStep mesh)
          (partsAndBonesStep mesh (l1.foldl (partsAndBonesStep mesh) (init mesh cap pbw)) poly) := by
      unfold fetchMeshPartsAndBones
      rw [hl, List.foldl_append, List.foldl_cons]
    have hin := slotInRange_foldl mesh l2 poly hp2 _
      (slotInRange_step_self hJ1 hpoly (by rw [hc1]; exact hvalid))
    rw [← hres] at hin
    obtain ⟨mp3, slot, c, g1, _, g3, g4, g5⟩ := hin
    have he : mp3 = mp := by
      rw [hmap2] at g1
      rw [← hmp]; exact (Option.some.inj g1).symm
    rw [he] at g4
    refine ⟨by omega, by rw [hcount]; omega, slot, c, g3, g4, g5⟩

/-- Claim C25 as amended, at the mesh of one triangle with the material index 0. -/
theorem lookups_in_range_witness :
    (∀ poly, poly < FbxMesh.oneTriangle.GetPolygonCount →
        polyMaterial FbxMesh.oneTriangle poly < 2147483647) ∧
      (∀ poly, poly < FbxMesh.oneTriangle.GetPolygonCount →
        ¬ (polyMaterial FbxMesh.oneTriangle poly ≥
          (init FbxMesh.oneTriangle 2 [[⟨0, 1⟩], [⟨0, 2⟩], [⟨0, 3⟩]])._meshPartCount)) ∧
      (fetchMeshPartsAndBones FbxMesh.oneTriangle
          (init FbxMesh.oneTriangle 2 [[⟨0, 1⟩], [⟨0, 2⟩], [⟨0, 3⟩]]))._partBones.length =
        (fetchMeshPartsAndBones FbxMesh.oneTriangle
          (init FbxMesh.oneTriangle 2 [[⟨0, 1⟩], [⟨0, 2⟩], [⟨0, 3⟩]]))._meshPartCount.toNat :=
  have h := lookups_in_range FbxMesh.oneTriangle 2 [[⟨0, 1⟩], [⟨0, 2⟩], [⟨0, 3⟩]] (by decide)
  ⟨by decide, h.2.1, h.2.2.1⟩

end FbxMeshInfo

namespace FbxMeshInfo

theorem range_split {poly n : Nat} (h : poly < n) :
    ∃ l2, List.range n = List.range poly ++ poly :: l2 ∧ poly ∉ l2 := by
  obtain ⟨k, rfl⟩ : ∃ k, n = poly + (k + 1) := ⟨n - poly - 1, by omega⟩
  have hl : List.range (poly + (k + 1)) =
      List.range poly ++ poly :: ((List.range k).map Nat.succ).map (fun x => poly + x) := by
    rw [List.range_add, List.range_succ_eq_map]
    simp
  refine ⟨_, hl, ?_⟩
  have hnd : (List.range poly ++ poly ::
      ((List.range k).map Nat.succ).map (fun x => poly + x)).Nodup := hl ▸ List.nodup_range _
  exact (List.nodup_cons.mp (List.nodup_append.mp hnd).2.1).1

theorem slotHolds_step_self {mesh : FbxMesh} {cap : Nat} {pbw : List (List BlendWeight)}
    {info : FbxMeshInfo} (hJ : Planned mesh cap pbw info) {poly : Nat}
    (hpoly : poly < mesh.GetPolygonCount)
    (h : ¬ (polyMaterial mesh poly < 0 ∨ polyMaterial mesh poly ≥ info._meshPartCount))
    (hnn : ∀ x ∈ BlendBones.demandBones (polyWeights mesh info._pointBlendWeights poly), 0 ≤ x)
    (hsp : 0 ≤ ((info._partBones.getD (polyMaterial mesh poly).toNat
        (BlendBonesCollection.ctor 0)).add
      (polyWeights mesh info._pointBlendWeights poly)).2) :
    SlotHolds (partsAndBonesStep mesh info poly) poly
      (BlendBones.demandBones (polyWeights mesh info._pointBlendWeights poly)) := by
  obtain ⟨hlt, hmem⟩ := part_mem_of_planned hJ h
  have hwf := BlendBonesCollection.wf_of_reachable (hJ.2.2.1 _ hmem).1
  obtain ⟨b2, hb2, hall⟩ := BlendBonesCollection.add_holds _ hwf _ hnn hsp
  rw [step_of_part mesh info poly h]
  refine ⟨polyMaterial mesh poly,
    ((info._partBones.getD (polyMaterial mesh poly).toNat (BlendBonesCollection.ctor 0)).add
            (polyWeights mesh info._pointBlendWeights poly)).2.toNat,
    ((info._partBones.getD (polyMaterial mesh poly).toNat (BlendBonesCollection.ctor 0)).add
            (polyWeights mesh info._pointBlendWeights poly)).1, b2,
    ?_, by omega, ?_, ?_, hb2, hall⟩
  · simp only []
    exact List.getElem?_set_self (by rw [hJ.2.2.2.1]; exact hpoly)
  · simp only []
    rw [if_neg (by omega)]
    exact List.getElem?_set_self (by rw [hJ.2.2.2.2]; exact hpoly)
  · simp only []
    exact List.getElem?_set_self hlt

theorem slotHolds_step_other {mesh : FbxMesh} {cap : Nat} {pbw : List (List BlendWeight)}
    {info : FbxMeshInfo} (hJ : Planned mesh cap pbw info) {poly q : Nat} (hq : q ≠ poly)
    {bones : List Int} (hb : ∀ x ∈ bones, 0 ≤ x) (h : SlotHolds info poly bones) :
    SlotHolds (partsAndBonesStep mesh info q) poly bones := by
  obtain ⟨mp, slot, c, b, h1, h2, h3, h4, h5, h6⟩ := h
  by_cases hv : polyMaterial mesh q < 0 ∨ polyMaterial mesh q ≥ info._meshPartCount
  · rw [step_of_noPart mesh info q hv]
    exact ⟨mp, slot, c, b, by simp only []; rw [List.getElem?_set_ne hq]; exact h1,
      h2, h3, h4, h5, h6⟩
  · rw [step_of_part mesh info q hv]
    by_cases hsame : (polyMaterial mesh q).toNat = mp.toNat
    · have hget : info._partBones.getD (polyMaterial mesh q).toNat (BlendBonesCollection.ctor 0) =
          c := by
        rw [List.getD_eq_getElem?_getD, hsame, h4]; rfl
      have hlt : mp.toNat < info._partBones.length := by
        by_contra hcon
        rw [List.getElem?_eq_none (not_lt.mp hcon)] at h4
        exact Option.noConfusion h4
      have hwf := BlendBonesCollection.wf_of_reachable (hJ.2.2.1 _ (List.getElem?_mem h4)).1
      obtain ⟨b2, hb2, hall⟩ := BlendBonesCollection.add_keeps c hwf
        (polyWeights mesh info._pointBlendWeights q) slot b h5
      refine ⟨mp, slot, (c.add (polyWeights mesh info._pointBlendWeights q)).1, b2,
        ?_, h2, ?_, ?_, hb2, fun x hx => hall x (hb x hx) (h6 x hx)⟩
      · simp only []; rw [List.getElem?_set_ne hq]; exact h1
      · simp only []; rw [List.getElem?_set_ne hq]; exact h3
      · simp only []
        rw [hget, hsame, List.getElem?_set_self hlt]
    · refine ⟨mp, slot, c, b, ?_, h2, ?_, ?_, h5, h6⟩
      · simp only []; rw [List.getElem?_set_ne hq]; exact h1
      · simp only []; rw [List.getElem?_set_ne hq]; exact h3
      · simp only []; rw [List.getElem?_set_ne hsame]; exact h4

theorem slotHolds_foldl {mesh : FbxMesh} {cap : Nat} {pbw : List (List BlendWeight)}
    (l : List Nat) (poly : Nat) (hp : poly ∉ l) {bones : List Int} (hb : ∀ x ∈ bones, 0 ≤ x) :
    ∀ info, Planned mesh cap pbw info → SlotHolds info poly bones →
      SlotHolds (l.foldl (partsAndBonesStep mesh) info) poly bones := by
  induction l with
  | nil => intro info _ h; exact h
  | cons q l ih =>
    intro info hJ h
    have hq : q ≠ poly := fun e => hp (e ▸ List.mem_cons_self _ _)
    exact ih (fun hm => hp (List.mem_cons_of_mem _ hm)) _ (planned_step hJ q)
      (slotHolds_step_other hJ hq hb h)

theorem mem_demand_of_corner (mesh : FbxMesh) (pbw : List (List BlendWeight)) (poly i : Nat)
    (hi : i < mesh.GetPolygonSize poly) (w : BlendWeight)
    (hw : w ∈ pbw.getD (mesh.GetPolygonVertex poly i) []) :
    w.index ∈ BlendBones.demandBones (polyWeights mesh pbw poly) := by
  unfold BlendBones.demandBones polyWeights
  refine List.mem_map.mpr ⟨w, List.mem_flatten.mpr ⟨_, ?_, hw⟩, rfl⟩
  exact List.mem_map.mpr ⟨i, List.mem_range.mpr hi, rfl⟩

/-- Claim C23: the bone indices stored by `fetchVertexBlendWeights` being
cluster indices (non-negative), after `fetchMeshPartsAndBones` has processed
all polygons, a polygon with a valid part id (`0 <= mp < _meshPartCount`)
whose placement did not overflow (`sp >= 0` in its iteration) has an assigned
slot set
`_partBones[part].getBones()[slotSet]` of the planner's capacity in which
`idx(bone)` is in `[0, capacity)` for every bone of the weight list of each of
its corners, so that no value `getBlendInfos` writes for a corner of the
polygon is the not-found value -1. -/
theorem assigned_slot_holds_bones (mesh : FbxMesh) (cap : Nat) (pbw : List (List BlendWeight))
    (hnn : ∀ ws ∈ pbw, ∀ w ∈ ws, 0 ≤ w.index) (poly : Nat)
    (hpoly : poly < mesh.GetPolygonCount)
    (hvalid : 0 ≤ polyMaterial mesh poly ∧ polyMaterial mesh poly < calcMeshPartCount mesh)
    (hsp : 0 ≤ placement mesh (init mesh cap pbw) poly) :
    ∃ slot c b,
      (fetchMeshPartsAndBones mesh (init mesh cap pbw))._polyPartMap[poly]? =
        some (polyMaterial mesh poly) ∧
      (fetchMeshPartsAndBones mesh (init mesh cap pbw))._polyPartBonesMap[poly]? = some slot ∧
      (fetchMeshPartsAndBones mesh (init mesh cap pbw))._partBones[
        (polyMaterial mesh poly).toNat]? = some c ∧
      c._bones[slot]? = some b ∧ b._capacity = cap ∧
      (∀ i, i < mesh.GetPolygonSize poly →
        ∀ w ∈ pbw.getD (mesh.GetPolygonVertex poly i) [],
          0 ≤ b.idx w.index ∧ b.idx w.index < (cap : Int)) ∧
      (∀ i, i < mesh.GetPolygonSize poly →
        ∀ v ∈ getBlendInfos (fetchMeshPartsAndBones mesh (init mesh cap pbw)) poly
            (mesh.GetPolygonVertex poly i),
          v ≠ -1 ∧ 0 ≤ v) := by
  have hJ0 := planned_init mesh cap pbw
  obtain ⟨l2, hl, hp2⟩ := range_split hpoly
  have hJ1 := @planned_foldl mesh cap pbw (List.range poly) _ hJ0
  have hc1 : ((List.range poly).foldl (partsAndBonesStep mesh)
      (init mesh cap pbw))._meshPartCount = calcMeshPartCount mesh := by
    rw [foldl_count (plansParts_partsAndBonesStep mesh)]; rfl
  have hv : ¬ (polyMaterial mesh poly < 0 ∨ polyMaterial mesh poly ≥
      ((List.range poly).foldl (partsAndBonesStep mesh) (init mesh cap pbw))._meshPartCount) := by
    rw [hc1]
    omega
  have hd : ∀ x ∈ BlendBones.demandBones (polyWeights mesh pbw poly), 0 ≤ x :=
    polyWeights_nonneg mesh pbw hnn poly
  have hres : fetchMeshPartsAndBones mesh (init mesh cap pbw) =
      l2.foldl (partsAndBonesStep mesh)
        (partsAndBonesStep mesh
          ((List.range poly).foldl (partsAndBonesStep mesh) (init mesh cap pbw)) poly) := by
    unfold fetchMeshPartsAndBones
    rw [hl, List.foldl_append, List.foldl_cons]
  have hself := slotHolds_step_self hJ1 hpoly hv (by rw [hJ1.1]; exact hd) hsp
  rw [hJ1.1] at hself
  have hfin := slotHolds_foldl l2 poly hp2 hd _ (planned_step hJ1 poly) hself
  rw [← hres] at hfin
  have hJ := @planned_foldl mesh cap pbw (List.range mesh.GetPolygonCount) _ hJ0
  have hJr : Planned mesh cap pbw (fetchMeshPartsAndBones mesh (init mesh cap pbw)) := hJ
  obtain ⟨mp, slot, c, b, g1, _, g3, g4, g5, g6⟩ := hfin
  have hmap : (fetchMeshPartsAndBones mesh (init mesh cap pbw))._polyPartMap[poly]? =
      some (polyMaterial mesh poly) := by
    have hcalc : ¬ (polyMaterial mesh poly < 0 ∨ polyMaterial mesh poly ≥
        calcMeshPartCount mesh) := by rw [← hc1]; exact hv
    unfold fetchMeshPartsAndBones
    rw [foldl_map_mem (plansParts_partsAndBonesStep mesh) _ poly (mem_range_of_lt hpoly) _
      (by rw [hJ0.2.2.2.1]; exact hpoly)]
    show some (partOf mesh (calcMeshPartCount mesh) poly) = _
    unfold partOf
    rw [if_neg hcalc]
  have hmp : mp = polyMaterial mesh poly := by
    rw [hmap] at g1; exact (Option.some.inj g1).symm
  rw [hmp] at g4
  have hcm : c ∈ (fetchMeshPartsAndBones mesh (init mesh cap pbw))._partBones :=
    List.getElem?_mem g4
  have hwf := BlendBonesCollection.wf_of_reachable (hJr.2.2.1 c hcm).1
  have hlen : b._bones.length = cap := by
    rw [(hwf b (List.getElem?_mem g5)).1, (hJr.2.2.1 c hcm).2]
  have hidx : ∀ i, i < mesh.GetPolygonSize poly →
      ∀ w ∈ pbw.getD (mesh.GetPolygonVertex poly i) [],
        0 ≤ b.idx w.index ∧ b.idx w.index < (cap : Int) := by
    intro i hi w hw
    have := BlendBones.idxLoop_range w.index b._bones
      (g6 _ (mem_demand_of_corner mesh pbw poly i hi w hw))
    rw [hlen] at this
    exact this
  refine ⟨slot, c, b, hmap, g3, g4, g5, hlen, hidx, ?_⟩
  intro i hi v hv2
  unfold getBlendInfos at hv2
  obtain ⟨k, _, rfl⟩ := List.mem_map.mp hv2
  rw [hJr.1]
  split
  · rename_i hk
    have e1 : (fetchMeshPartsAndBones mesh (init mesh cap pbw))._polyPartMap.getD poly 0 =
        polyMaterial mesh poly := by
      rw [List.getD_eq_getElem?_getD, hmap]; rfl
    have e2 : (fetchMeshPartsAndBones mesh (init mesh cap pbw))._polyPartBonesMap.getD poly 0 =
        slot := by
      rw [List.getD_eq_getElem?_getD, g3]; rfl
    have e3 : (fetchMeshPartsAndBones mesh (init mesh cap pbw))._partBones.getD
        (polyMaterial mesh poly).toNat (BlendBonesCollection.ctor 0) = c := by
      rw [List.getD_eq_getElem?_getD, g4]; rfl
    have e4 : c._bones.getD slot (BlendBones.ctor 0) = b := by
      rw [List.getD_eq_getElem?_getD, g5]; rfl
    rw [e1, e2, e3, e4]
    have hmemw : (pbw.getD (mesh.GetPolygonVertex poly i) []).getD k ⟨0, -1⟩ ∈
        pbw.getD (mesh.GetPolygonVertex poly i) [] := by
      rw [List.getD_eq_getElem _ _ hk]; exact List.getElem_mem _
    have := (hidx i hi _ hmemw).1
    exact ⟨by omega, this⟩
  · exact ⟨by decide, le_refl 0⟩

/-- Claim C23 on a triangle whose corners carry the bones 1, 2 and 3, planned
with capacity 4. -/
theorem assigned_slot_holds_bones_witness :
    ((∀ ws ∈ [[(⟨0, 1⟩ : BlendWeight)], [⟨0, 2⟩], [⟨0, 3⟩]], ∀ w ∈ ws, 0 ≤ w.index) ∧
      0 < FbxMesh.oneTriangle.GetPolygonCount ∧
      (0 ≤ polyMaterial FbxMesh.oneTriangle 0 ∧
        polyMaterial FbxMesh.oneTriangle 0 < calcMeshPartCount FbxMesh.oneTriangle) ∧
      0 ≤ placement FbxMesh.oneTriangle
        (init FbxMesh.oneTriangle 4 [[⟨0, 1⟩], [⟨0, 2⟩], [⟨0, 3⟩]]) 0) ∧
    ∃ slot c b,
      (fetchMeshPartsAndBones FbxMesh.oneTriangle
          (init FbxMesh.oneTriangle 4 [[⟨0, 1⟩], [⟨0, 2⟩], [⟨0, 3⟩]]))._polyPartMap[0]? =
        some (polyMaterial FbxMesh.oneTriangle 0) ∧
      (fetchMeshPartsAndBones FbxMesh.oneTriangle
          (init FbxMesh.oneTriangle 4 [[⟨0, 1⟩], [⟨0, 2⟩], [⟨0, 3⟩]]))._polyPartBonesMap[0]? =
        some slot ∧
      (fetchMeshPartsAndBones FbxMesh.oneTriangle
          (init FbxMesh.oneTriangle 4 [[⟨0, 1⟩], [⟨0, 2⟩], [⟨0, 3⟩]]))._partBones[
        (polyMaterial FbxMesh.oneTriangle 0).toNat]? = some c ∧
      c._bones[slot]? = some b ∧ b._capacity = 4 ∧
      (∀ i, i < FbxMesh.oneTriangle.GetPolygonSize 0 →
        ∀ w ∈ ([[(⟨0, 1⟩ : BlendWeight)], [⟨0, 2⟩], [⟨0, 3⟩]] : List (List BlendWeight)).getD
            (FbxMesh.oneTriangle.GetPolygonVertex 0 i) [],
          0 ≤ b.idx w.index ∧ b.idx w.index < ((4 : Nat) : Int)) ∧
      (∀ i, i < FbxMesh.oneTriangle.GetPolygonSize 0 →
        ∀ v ∈ getBlendInfos (fetchMeshPartsAndBones FbxMesh.oneTriangle
              (init FbxMesh.oneTriangle 4 [[⟨0, 1⟩], [⟨0, 2⟩], [⟨0, 3⟩]])) 0
            (FbxMesh.oneTriangle.GetPolygonVertex 0 i),
          v ≠ -1 ∧ 0 ≤ v) :=
  ⟨⟨by decide, by decide, by decide, by decide⟩,
    assigned_slot_holds_bones FbxMesh.oneTriangle 4 [[⟨0, 1⟩], [⟨0, 2⟩], [⟨0, 3⟩]]
      (by decide) 0 (by decide) (by decide) (by decide)⟩

end FbxMeshInfo

end readers
end fbxconv
